import Mathlib

/-!
# micrograd_cpp: the scalar reverse-mode autodiff engine

A shallow embedding of `src/micrograd.hh` / `src/micrograd.cpp`.

* Nodes live in a heap (a list of `Value`s); a `ValuePtr` is the index of a node
  in the heap, so node identity (and hence sharing / fan-out) is index equality.
  `new Value{...}` appends a node at the end of the heap.
* The scalar type `double` is idealised as an arbitrary commutative ring `R`
  (exact arithmetic); the three `<cmath>` functions used by the code
  (`std::pow`, `std::exp`, `std::tanh`) are the fields of a `CMath R` parameter.
* Every operation returns an `Option`: `none` stands for "no defined result"
  (dereferencing a pointer that is not in the heap, indexing `_prev` out of
  range, or, for the recursive traversal, running out of recursion fuel).
-/

set_option linter.unusedSectionVars false
set_option linter.unusedVariables false

namespace Micrograd

/-- The enum `Op` of `micrograd.hh`. -/
inductive Op where
  | Op_add | Op_mul | Op_pow | Op_exp | Op_tanh | Op_no
  deriving DecidableEq, Repr

/-- The class `Value`: forward value, accumulated gradient, operand pointers and
operation tag. -/
structure Value (R : Type) where
  data : R
  grad : R
  _prev : List Nat
  _op : Op
  deriving DecidableEq, Repr

/-- The heap of allocated nodes; a `ValuePtr` is an index into it. -/
abbrev Heap (R : Type) := List (Value R)

/-- The functions of `<cmath>` the engine calls. -/
structure CMath (R : Type) where
  pow : R → R → R
  exp : R → R
  tanh : R → R

section Defs

variable {R : Type} [CommRing R]

/-- `Value::Value(double _data)`: a leaf, with the default member initialisers
`grad{0.0}`, `_prev{}`, `_op{Op_no}`. -/
def Value.leaf (_data : R) : Value R :=
  { data := _data, grad := 0, _prev := [], _op := Op.Op_no }

/-- `Value::Value(double _data, ValueVec _children, Op op)`. -/
def Value.node (_data : R) (_children : List Nat) (op : Op) : Value R :=
  { data := _data, grad := 0, _prev := _children, _op := op }

/-- `ValuePtr p{new Value{...}}`: the new node gets the next free index. -/
def alloc (h : Heap R) (n : Value R) : Heap R × Nat :=
  (h ++ [n], h.length)

/-- `Value::pow(double y)`. -/
def pow (M : CMath R) (h : Heap R) (this : Nat) (y : R) : Option (Heap R × Nat) :=
  match h[this]? with
  | none => none
  | some n =>
    let (h1, exponent) := alloc h (Value.leaf y)
    let children := [this, exponent]
    some (alloc h1 (Value.node (M.pow n.data y) children Op.Op_pow))

/-- `Value::exp()`. -/
def exp (M : CMath R) (h : Heap R) (this : Nat) : Option (Heap R × Nat) :=
  match h[this]? with
  | none => none
  | some n =>
    let children := [this]
    some (alloc h (Value.node (M.exp n.data) children Op.Op_exp))

/-- `Value::tanh()`. -/
def tanh (M : CMath R) (h : Heap R) (this : Nat) : Option (Heap R × Nat) :=
  match h[this]? with
  | none => none
  | some n =>
    let children := [this]
    some (alloc h (Value.node (M.tanh n.data) children Op.Op_tanh))

/-- The statement `p->grad += g`. -/
def addGrad (h : Heap R) (p : Nat) (g : R) : Option (Heap R) :=
  match h[p]? with
  | none => none
  | some n => some (h.set p { n with grad := n.grad + g })

/-- `Value::_backward_add`. Each statement reads the heap left by the previous one. -/
def _backward_add (h : Heap R) (this : Nat) : Option (Heap R) := do
  let n ← h[this]?
  let p0 ← n._prev[0]?
  let h1 ← addGrad h p0 n.grad
  let n1 ← h1[this]?
  let p1 ← n1._prev[1]?
  addGrad h1 p1 n1.grad

/-- `Value::_backward_mul`. -/
def _backward_mul (h : Heap R) (this : Nat) : Option (Heap R) := do
  let n ← h[this]?
  let p0 ← n._prev[0]?
  let p1 ← n._prev[1]?
  let v1 ← h[p1]?
  let h1 ← addGrad h p0 (v1.data * n.grad)
  let n1 ← h1[this]?
  let q1 ← n1._prev[1]?
  let q0 ← n1._prev[0]?
  let v0 ← h1[q0]?
  addGrad h1 q1 (v0.data * n1.grad)

/-- `Value::_backward_exp`. -/
def _backward_exp (h : Heap R) (this : Nat) : Option (Heap R) := do
  let n ← h[this]?
  let p0 ← n._prev[0]?
  addGrad h p0 (n.data * n.grad)

/-- `Value::_backward_pow`. -/
def _backward_pow (M : CMath R) (h : Heap R) (this : Nat) : Option (Heap R) := do
  let n ← h[this]?
  let p1 ← n._prev[1]?
  let v1 ← h[p1]?
  let exponent := v1.data
  let p0 ← n._prev[0]?
  let v0 ← h[p0]?
  addGrad h p0 (exponent * M.pow v0.data (exponent - 1) * n.grad)

/-- `Value::_backward_tanh`. -/
def _backward_tanh (M : CMath R) (h : Heap R) (this : Nat) : Option (Heap R) := do
  let n ← h[this]?
  let p0 ← n._prev[0]?
  addGrad h p0 ((1 - M.pow n.data 2) * n.grad)

/-- `Value::_backward`: the switch over `_op`. -/
def _backward (M : CMath R) (h : Heap R) (this : Nat) : Option (Heap R) :=
  match h[this]? with
  | none => none
  | some n =>
    match n._op with
    | Op.Op_add => _backward_add h this
    | Op.Op_mul => _backward_mul h this
    | Op.Op_exp => _backward_exp h this
    | Op.Op_pow => _backward_pow M h this
    | Op.Op_tanh => _backward_tanh M h this
    | Op.Op_no => some h

/-- The loop `for (ValuePtr child : v->_prev) build_topo(child);`, threading the
captured state `(topo, visited)`. -/
def for_children (f : Nat → List Nat × List Nat → Option (List Nat × List Nat)) :
    List Nat → List Nat × List Nat → Option (List Nat × List Nat)
  | [], s => some s
  | child :: rest, s =>
    match f child s with
    | none => none
    | some s1 => for_children f rest s1

/-- The recursive lambda `build_topo` of `Value::backward`, on the captured state
`(topo, visited)`. The first argument bounds the recursion depth. -/
def build_topo (h : Heap R) : Nat → Nat → List Nat × List Nat → Option (List Nat × List Nat)
  | 0, _, _ => none
  | fuel + 1, v, (topo, visited) =>
    if v ∈ visited then some (topo, visited)
    else
      match h[v]? with
      | none => none
      | some n =>
        match for_children (build_topo h fuel) n._prev (topo, v :: visited) with
        | none => none
        | some s => some (s.1 ++ [v], s.2)

/-- The loop `for (v = topo.rbegin(); v != topo.rend(); ++v) (*v)->_backward();`,
given the sequence of nodes it walks. -/
def reverse_walk (M : CMath R) : List Nat → Heap R → Option (Heap R)
  | [], h => some h
  | v :: rest, h =>
    match _backward M h v with
    | none => none
    | some h1 => reverse_walk M rest h1

/-- The order `topo` that `this->backward()` builds. The recursion depth never
exceeds the number of nodes, so `h.length + 1` is enough fuel. -/
def topo_of (h : Heap R) (this : Nat) : Option (List Nat) :=
  match build_topo h (h.length + 1) this ([], []) with
  | none => none
  | some s => some s.1

/-- `Value::backward`. -/
def backward (M : CMath R) (h : Heap R) (this : Nat) : Option (Heap R) :=
  match h[this]? with
  | none => none
  | some n =>
    let h1 := h.set this { n with grad := 1 }
    match topo_of h1 this with
    | none => none
    | some topo => reverse_walk M topo.reverse h1

/-- `operator+(ValuePtr lhs, ValuePtr rhs)`. -/
def operator_plus (h : Heap R) (lhs rhs : Nat) : Option (Heap R × Nat) :=
  match h[lhs]?, h[rhs]? with
  | some l, some r =>
    let children := [lhs, rhs]
    some (alloc h (Value.node (l.data + r.data) children Op.Op_add))
  | _, _ => none

/-- `operator*(ValuePtr lhs, ValuePtr rhs)`. -/
def operator_times (h : Heap R) (lhs rhs : Nat) : Option (Heap R × Nat) :=
  match h[lhs]?, h[rhs]? with
  | some l, some r =>
    let children := [lhs, rhs]
    some (alloc h (Value.node (l.data * r.data) children Op.Op_mul))
  | _, _ => none

/-- `operator+(ValuePtr lhs, double r)`: the literal is wrapped in a new leaf. -/
def operator_plus_r (h : Heap R) (lhs : Nat) (r : R) : Option (Heap R × Nat) :=
  let (h1, rhs) := alloc h (Value.leaf r)
  operator_plus h1 lhs rhs

/-- `operator+(double l, ValuePtr rhs)`: `return rhs + l;`. -/
def operator_plus_l (h : Heap R) (l : R) (rhs : Nat) : Option (Heap R × Nat) :=
  operator_plus_r h rhs l

/-- `operator*(ValuePtr lhs, double r)`: the literal is wrapped in a new leaf. -/
def operator_times_r (h : Heap R) (lhs : Nat) (r : R) : Option (Heap R × Nat) :=
  let (h1, rhs) := alloc h (Value.leaf r)
  operator_times h1 lhs rhs

/-- `operator*(double l, ValuePtr rhs)`: `return rhs * l;`. -/
def operator_times_l (h : Heap R) (l : R) (rhs : Nat) : Option (Heap R × Nat) :=
  operator_times_r h rhs l

/-- `operator-(ValuePtr lhs)`: `return lhs * -1.0;`. -/
def operator_neg (h : Heap R) (lhs : Nat) : Option (Heap R × Nat) :=
  operator_times_r h lhs (-1)

/-- `operator-(ValuePtr lhs, ValuePtr rhs)`: `return lhs + (-rhs);`. -/
def operator_minus (h : Heap R) (lhs rhs : Nat) : Option (Heap R × Nat) :=
  match operator_neg h rhs with
  | none => none
  | some (h1, n) => operator_plus h1 lhs n

/-- `operator-(ValuePtr lhs, double r)`: `return lhs + (-r);`. -/
def operator_minus_r (h : Heap R) (lhs : Nat) (r : R) : Option (Heap R × Nat) :=
  operator_plus_r h lhs (-r)

/-- `operator-(double l, ValuePtr rhs)`: `return l + (-rhs);`. -/
def operator_minus_l (h : Heap R) (l : R) (rhs : Nat) : Option (Heap R × Nat) :=
  match operator_neg h rhs with
  | none => none
  | some (h1, n) => operator_plus_l h1 l n

/-- `operator/(ValuePtr lhs, ValuePtr rhs)`: `return lhs * (rhs->pow(-1.0));`. -/
def operator_div (M : CMath R) (h : Heap R) (lhs rhs : Nat) : Option (Heap R × Nat) :=
  match pow M h rhs (-1) with
  | none => none
  | some (h1, p) => operator_times h1 lhs p

/-- `operator/(double l, ValuePtr rhs)`: `return l * (rhs->pow(-1));`. -/
def operator_div_l (M : CMath R) (h : Heap R) (l : R) (rhs : Nat) : Option (Heap R × Nat) :=
  match pow M h rhs (-1) with
  | none => none
  | some (h1, p) => operator_times_l h1 l p

/-- The field `v->grad` (0 for a pointer outside the heap). -/
def gradOf (h : Heap R) (v : Nat) : R :=
  match h[v]? with
  | some n => n.grad
  | none => 0

/-- The field `v->data` (0 for a pointer outside the heap). -/
def dataOf (h : Heap R) (v : Nat) : R :=
  match h[v]? with
  | some n => n.data
  | none => 0

/-- The field `v->_prev` (empty for a pointer outside the heap). -/
def prevOf (h : Heap R) (v : Nat) : List Nat :=
  match h[v]? with
  | some n => n._prev
  | none => []

/-- The field `v->_op` (`Op_no` for a pointer outside the heap). -/
def opOf (h : Heap R) (v : Nat) : Op :=
  match h[v]? with
  | some n => n._op
  | none => Op.Op_no

/-- Number of operands the data model prescribes for each operation tag. -/
def arity : Op → Nat
  | Op.Op_add => 2
  | Op.Op_mul => 2
  | Op.Op_pow => 2
  | Op.Op_exp => 1
  | Op.Op_tanh => 1
  | Op.Op_no => 0

/-- `Edge h a b`: node `b` is an operand of node `a`. -/
def Edge (h : Heap R) (a b : Nat) : Prop := b ∈ prevOf h a

/-- `Reach h a b`: node `b` is reachable from `a` through operand links
(in zero or more steps). -/
def Reach (h : Heap R) (a b : Nat) : Prop := Relation.ReflTransGen (Edge h) a b

/-- The graph is acyclic: no node reaches itself through one or more operand links. -/
def Acyclic (h : Heap R) : Prop := ∀ v, ¬ Relation.TransGen (Edge h) v v

/-- Every operand pointer points into the heap. -/
def Closed (h : Heap R) : Prop := ∀ v, ∀ c ∈ prevOf h v, c < h.length

/-- The heap is a graph of the data model: every operand pointer points into the
heap, and every node has as many operands as its operation tag prescribes. -/
def WellFormed (h : Heap R) : Prop :=
  Closed h ∧ ∀ v, (prevOf h v).length = arity (opOf h v)

/-- The graph of the spec's multiply test: leaves `a = 2`, `b = -3`, `c = 10` at
indices 0, 1, 2, then `a * b` at index 3 and `d = a * b + c` at index 4. -/
def exampleHeap (R : Type) [CommRing R] : Heap R :=
  [Value.leaf 2, Value.leaf (-3), Value.leaf 10,
    Value.node (2 * (-3)) [0, 1] Op.Op_mul, Value.node (2 * (-3) + 10) [3, 2] Op.Op_add]

/-- Executable check of `WellFormed`. -/
def checkWellFormed (h : Heap R) : Bool :=
  (List.range h.length).all fun v =>
    (prevOf h v).all (fun c => decide (c < h.length)) &&
      decide ((prevOf h v).length = arity (opOf h v))

/-- Executable check that every operand was allocated before its consumer, which
is how the forward operations build graphs; it implies `Acyclic`. -/
def checkOrdered (h : Heap R) : Bool :=
  (List.range h.length).all fun v => (prevOf h v).all (fun c => decide (c < v))

/-- The local backward rule of node `m` for operand position `i`: the factor by
which `m`'s gradient is multiplied before it is added to operand `i`. -/
def coef (M : CMath R) (h : Heap R) (m i : Nat) : R :=
  match opOf h m, i with
  | Op.Op_add, _ => 1
  | Op.Op_mul, 0 => dataOf h ((prevOf h m).getD 1 0)
  | Op.Op_mul, _ => dataOf h ((prevOf h m).getD 0 0)
  | Op.Op_pow, 0 =>
    dataOf h ((prevOf h m).getD 1 0) *
      M.pow (dataOf h ((prevOf h m).getD 0 0)) (dataOf h ((prevOf h m).getD 1 0) - 1)
  | Op.Op_pow, _ => 0
  | Op.Op_exp, _ => dataOf h m
  | Op.Op_tanh, _ => 1 - M.pow (dataOf h m) 2
  | Op.Op_no, _ => 0

/-- The total factor with which consumer `m` feeds node `n`: the sum of `coef`
over the operand positions of `m` that hold `n`. -/
def weight (M : CMath R) (h : Heap R) (m n : Nat) : R :=
  ∑ i in Finset.range (prevOf h m).length,
    if (prevOf h m)[i]? = some n then coef M h m i else 0

/-- `GradStep h h1 δ`: heap `h1` is heap `h` with `δ v` added to the gradient of
every node `v`, and nothing else changed. -/
def GradStep (h h1 : Heap R) (δ : Nat → R) : Prop :=
  ∀ v, h1[v]? = (h[v]?).map (fun (n : Value R) => { n with grad := n.grad + δ v })

/-- Number of heap nodes not yet in `visited`: the termination measure of `build_topo`. -/
def unvisited (h : Heap R) (visited : List Nat) : Nat :=
  ((Finset.range h.length).filter (fun x => x ∉ visited)).card

/-- Invariant of the captured state `(topo, visited)` during `build_topo`. -/
structure TopoInv (h : Heap R) (root : Nat) (s : List Nat × List Nat) : Prop where
  nodup : s.1.Nodup
  sub : ∀ x ∈ s.1, x ∈ s.2
  before : ∀ x ∈ s.1, ∀ c ∈ prevOf h x, List.Sublist [c, x] s.1
  reach : ∀ x ∈ s.1, Reach h root x

/-- How a call of `build_topo` changes the captured state: `topo` is extended by
nodes that were not visited, `visited` grows, and the set of nodes that are
visited but not yet in `topo` does not grow. -/
structure TopoPost (s s1 : List Nat × List Nat) : Prop where
  ext : ∃ new, s1.1 = s.1 ++ new ∧ ∀ x ∈ new, x ∉ s.2
  vis : ∀ x ∈ s.2, x ∈ s1.2
  gray : ∀ x ∈ s1.2, x ∉ s1.1 → x ∈ s.2

/-- `Grows h h2 p`: heap `h2` is heap `h` followed by at least one new node, every
new node has gradient 0, and `p` points to the last new node. -/
def Grows (h h2 : Heap R) (p : Nat) : Prop :=
  ∃ news, h2 = h ++ news ∧ news ≠ [] ∧ (∀ n ∈ news, n.grad = 0) ∧ p + 1 = h2.length

/-- `SameGraph h h1`: heap `h1` has the same nodes as `h`, with the same value,
operands and operation tag; only gradients may differ. -/
def SameGraph (h h1 : Heap R) : Prop :=
  ∀ v, h1[v]? = (h[v]?).map (fun (k : Value R) => { k with grad := gradOf h1 v })

/-- The value the forward rule of node `v` yields from the values of its operands
(`operator+`, `operator*`, `Value::pow`, `Value::exp`, `Value::tanh`); a leaf
keeps its own value. -/
def forwardValue (M : CMath R) (h : Heap R) (v : Nat) : R :=
  match opOf h v, prevOf h v with
  | Op.Op_add, [a, b] => dataOf h a + dataOf h b
  | Op.Op_mul, [a, b] => dataOf h a * dataOf h b
  | Op.Op_pow, [a, b] => M.pow (dataOf h a) (dataOf h b)
  | Op.Op_exp, [a] => M.exp (dataOf h a)
  | Op.Op_tanh, [a] => M.tanh (dataOf h a)
  | _, _ => dataOf h v

/-- Heaps built from nothing by allocating leaves and applying `operator+` and
`operator*` to nodes built before. -/
inductive BuiltAddMul : Heap R → Prop
  | nil : BuiltAddMul []
  | leaf (h : Heap R) (x : R) : BuiltAddMul h → BuiltAddMul (alloc h (Value.leaf x)).1
  | plus (h h2 : Heap R) (a b p : Nat) : BuiltAddMul h →
      operator_plus h a b = some (h2, p) → BuiltAddMul h2
  | times (h h2 : Heap R) (a b p : Nat) : BuiltAddMul h →
      operator_times h a b = some (h2, p) → BuiltAddMul h2

/-- `Denotes h v P`: node `v`, built from leaves by Add and Multiply only, denotes
the polynomial `P` in the leaves; the variable standing for a leaf is its index. -/
inductive Denotes (h : Heap R) : Nat → MvPolynomial Nat R → Prop
  | leaf (v : Nat) : v < h.length → opOf h v = Op.Op_no → Denotes h v (MvPolynomial.X v)
  | add (v a b : Nat) (p q : MvPolynomial Nat R) : opOf h v = Op.Op_add →
      prevOf h v = [a, b] → Denotes h a p → Denotes h b q → Denotes h v (p + q)
  | mul (v a b : Nat) (p q : MvPolynomial Nat R) : opOf h v = Op.Op_mul →
      prevOf h v = [a, b] → Denotes h a p → Denotes h b q → Denotes h v (p * q)

end Defs

section FieldDefs

variable {F : Type} [Field F]

/-- `operator/(ValuePtr lhs, double r)`: `return lhs * (1 / r);`. The quotient of
two doubles is the division of the scalar field. -/
def operator_div_r (h : Heap F) (lhs : Nat) (r : F) : Option (Heap F × Nat) :=
  operator_times_r h lhs (1 / r)

/-- The forward operations of the engine: the leaf constructor and one constructor
per member function or operator overload of `micrograd.hh`. -/
inductive ForwardOp (F : Type) where
  | leaf (d : F)
  | plus (lhs rhs : Nat)
  | plus_r (lhs : Nat) (r : F)
  | plus_l (l : F) (rhs : Nat)
  | times (lhs rhs : Nat)
  | times_r (lhs : Nat) (r : F)
  | times_l (l : F) (rhs : Nat)
  | pow (this : Nat) (y : F)
  | exp (this : Nat)
  | tanh (this : Nat)
  | neg (lhs : Nat)
  | minus (lhs rhs : Nat)
  | minus_r (lhs : Nat) (r : F)
  | minus_l (l : F) (rhs : Nat)
  | div (lhs rhs : Nat)
  | div_r (lhs : Nat) (r : F)
  | div_l (l : F) (rhs : Nat)

/-- The node pointers a forward operation is applied to. -/
def ForwardOp.pointers : ForwardOp F → List Nat
  | ForwardOp.leaf _ => []
  | ForwardOp.plus lhs rhs => [lhs, rhs]
  | ForwardOp.plus_r lhs _ => [lhs]
  | ForwardOp.plus_l _ rhs => [rhs]
  | ForwardOp.times lhs rhs => [lhs, rhs]
  | ForwardOp.times_r lhs _ => [lhs]
  | ForwardOp.times_l _ rhs => [rhs]
  | ForwardOp.pow this _ => [this]
  | ForwardOp.exp this => [this]
  | ForwardOp.tanh this => [this]
  | ForwardOp.neg lhs => [lhs]
  | ForwardOp.minus lhs rhs => [lhs, rhs]
  | ForwardOp.minus_r lhs _ => [lhs]
  | ForwardOp.minus_l _ rhs => [rhs]
  | ForwardOp.div lhs rhs => [lhs, rhs]
  | ForwardOp.div_r lhs _ => [lhs]
  | ForwardOp.div_l _ rhs => [rhs]

/-- Running a forward operation on a heap: the new heap and the returned pointer. -/
def ForwardOp.run (M : CMath F) (h : Heap F) : ForwardOp F → Option (Heap F × Nat)
  | ForwardOp.leaf d => some (alloc h (Value.leaf d))
  | ForwardOp.plus lhs rhs => operator_plus h lhs rhs
  | ForwardOp.plus_r lhs r => operator_plus_r h lhs r
  | ForwardOp.plus_l l rhs => operator_plus_l h l rhs
  | ForwardOp.times lhs rhs => operator_times h lhs rhs
  | ForwardOp.times_r lhs r => operator_times_r h lhs r
  | ForwardOp.times_l l rhs => operator_times_l h l rhs
  | ForwardOp.pow this y => Micrograd.pow M h this y
  | ForwardOp.exp this => Micrograd.exp M h this
  | ForwardOp.tanh this => Micrograd.tanh M h this
  | ForwardOp.neg lhs => operator_neg h lhs
  | ForwardOp.minus lhs rhs => operator_minus h lhs rhs
  | ForwardOp.minus_r lhs r => operator_minus_r h lhs r
  | ForwardOp.minus_l l rhs => operator_minus_l h l rhs
  | ForwardOp.div lhs rhs => operator_div M h lhs rhs
  | ForwardOp.div_r lhs r => operator_div_r h lhs r
  | ForwardOp.div_l l rhs => operator_div_l M h l rhs

end FieldDefs

section Basic

variable {R : Type} [CommRing R]

theorem getElem?_lt {h : Heap R} {v : Nat} {n : Value R} (e : h[v]? = some n) :
    v < h.length := by
  rcases List.getElem?_eq_some.1 e with ⟨hl, _⟩
  exact hl

theorem prevOf_eq {h : Heap R} {v : Nat} {n : Value R} (e : h[v]? = some n) :
    prevOf h v = n._prev := by
  simp [prevOf, e]

theorem opOf_eq {h : Heap R} {v : Nat} {n : Value R} (e : h[v]? = some n) :
    opOf h v = n._op := by
  simp [opOf, e]

theorem dataOf_eq {h : Heap R} {v : Nat} {n : Value R} (e : h[v]? = some n) :
    dataOf h v = n.data := by
  simp [dataOf, e]

theorem gradOf_eq {h : Heap R} {v : Nat} {n : Value R} (e : h[v]? = some n) :
    gradOf h v = n.grad := by
  simp [gradOf, e]

theorem exists_node {h : Heap R} {v : Nat} (hv : v < h.length) : ∃ n, h[v]? = some n :=
  ⟨h[v], List.getElem?_eq_getElem hv⟩

theorem prevOf_nil_of_ge {h : Heap R} {v : Nat} (hv : h.length ≤ v) : prevOf h v = [] := by
  simp [prevOf, List.getElem?_eq_none hv]

theorem gradStep_length {h h1 : Heap R} {δ : Nat → R} (hs : GradStep h h1 δ) :
    h1.length = h.length := by
  apply le_antisymm
  · have e := hs h.length
    rw [List.getElem?_eq_none (le_refl _)] at e
    exact List.getElem?_eq_none_iff.1 e
  · have e := hs h1.length
    rw [List.getElem?_eq_none (le_refl _)] at e
    cases hq : h[h1.length]? with
    | none => exact List.getElem?_eq_none_iff.1 hq
    | some n => rw [hq] at e; simp at e

theorem gradStep_prevOf {h h1 : Heap R} {δ : Nat → R} (hs : GradStep h h1 δ) (v : Nat) :
    prevOf h1 v = prevOf h v := by
  unfold prevOf
  rw [hs v]
  cases h[v]? <;> rfl

theorem gradStep_opOf {h h1 : Heap R} {δ : Nat → R} (hs : GradStep h h1 δ) (v : Nat) :
    opOf h1 v = opOf h v := by
  unfold opOf
  rw [hs v]
  cases h[v]? <;> rfl

theorem gradStep_dataOf {h h1 : Heap R} {δ : Nat → R} (hs : GradStep h h1 δ) (v : Nat) :
    dataOf h1 v = dataOf h v := by
  unfold dataOf
  rw [hs v]
  cases h[v]? <;> rfl

theorem gradStep_gradOf {h h1 : Heap R} {δ : Nat → R} (hs : GradStep h h1 δ) {v : Nat}
    (hv : v < h.length) : gradOf h1 v = gradOf h v + δ v := by
  obtain ⟨n, e⟩ := exists_node hv
  unfold gradOf
  rw [hs v, e]
  rfl

theorem gradStep_refl (h : Heap R) : GradStep h h (fun _ => 0) := by
  intro v
  cases e : h[v]? with
  | none => rfl
  | some n => simp

theorem gradStep_trans {h h1 h2 : Heap R} {δ1 δ2 : Nat → R} (s1 : GradStep h h1 δ1)
    (s2 : GradStep h1 h2 δ2) : GradStep h h2 (fun v => δ1 v + δ2 v) := by
  intro v
  rw [s2 v, s1 v]
  cases e : h[v]? with
  | none => rfl
  | some n => simp [add_assoc]

theorem gradStep_congr {h h1 : Heap R} {δ δ1 : Nat → R} (s : GradStep h h1 δ)
    (e : ∀ v, v < h.length → δ v = δ1 v) : GradStep h h1 δ1 := by
  intro v
  rw [s v]
  cases hq : h[v]? with
  | none => rfl
  | some n => simp [e v (getElem?_lt hq)]

theorem addGrad_spec (h : Heap R) {p : Nat} (g : R) (hp : p < h.length) :
    ∃ h1, addGrad h p g = some h1 ∧ GradStep h h1 (fun v => if v = p then g else 0) := by
  obtain ⟨n, e⟩ := exists_node hp
  refine ⟨h.set p { n with grad := n.grad + g }, by simp [addGrad, e], ?_⟩
  intro v
  rw [List.getElem?_set]
  by_cases hv : p = v
  · subst hv
    simp [hp, e]
  · have hv1 : ¬ v = p := fun q => hv q.symm
    simp only [hv, hv1, if_false]
    cases hq : h[v]? with
    | none => rfl
    | some n1 => simp

theorem weight_eq (M : CMath R) {h h1 : Heap R} {δ : Nat → R} (hs : GradStep h h1 δ)
    (m n : Nat) : weight M h1 m n = weight M h m n := by
  unfold weight coef
  simp only [(gradStep_prevOf hs), (gradStep_opOf hs), (gradStep_dataOf hs)]

end Basic

section LocalRule

variable {R : Type} [CommRing R]

theorem length_two {l : List Nat} (e : l.length = 2) : ∃ a b, l = [a, b] := by
  match l, e with
  | [a, b], _ => exact ⟨a, b, rfl⟩

theorem length_one {l : List Nat} (e : l.length = 1) : ∃ a, l = [a] := by
  match l, e with
  | [a], _ => exact ⟨a, rfl⟩

theorem getElem?_of_zero {h h1 : Heap R} {δ : Nat → R} (s : GradStep h h1 δ) {v : Nat}
    {n : Value R} (e : h[v]? = some n) (z : δ v = 0) : h1[v]? = some n := by
  rw [s v, e, z]
  simp

/-- One call of `_backward` on a well-formed node adds `weight * grad` to every
node and changes nothing else. -/
theorem _backward_spec (M : CMath R) (h : Heap R) (m : Nat) (hm : m < h.length)
    (har : (prevOf h m).length = arity (opOf h m))
    (hcl : ∀ c ∈ prevOf h m, c < h.length) (hself : m ∉ prevOf h m) :
    ∃ h1, _backward M h m = some h1 ∧
      GradStep h h1 (fun v => weight M h m v * gradOf h m) := by
  obtain ⟨n, e⟩ := exists_node hm
  have hw : ∀ v, weight M h m v = ∑ i in Finset.range n._prev.length,
      if n._prev[i]? = some v then coef M h m i else 0 := by
    intro v
    simp [weight, prevOf_eq e]
  rw [prevOf_eq e, opOf_eq e] at har
  rw [prevOf_eq e] at hcl hself
  have hg := gradOf_eq e
  have ho := opOf_eq e
  have hd := dataOf_eq e
  have hp := prevOf_eq e
  cases hop : n._op with
  | Op_no =>
    rw [hop] at har ho
    have hnil : n._prev = [] := List.length_eq_zero.1 har
    refine ⟨h, by simp [_backward, e, hop], gradStep_congr (gradStep_refl h) ?_⟩
    intro v _
    simp [hw, hnil]
  | Op_add =>
    rw [hop] at har ho
    obtain ⟨a, b, hab⟩ := length_two har
    rw [hab] at hcl hself
    have ha : a < h.length := hcl a (by simp)
    have hb : b < h.length := hcl b (by simp)
    have hma : ¬ m = a := fun q => hself (by simp [q])
    have hmb : ¬ m = b := fun q => hself (by simp [q])
    obtain ⟨h1, e1, s1⟩ := addGrad_spec h n.grad ha
    have em1 : h1[m]? = some n := getElem?_of_zero s1 e (by simp [hma])
    obtain ⟨h2, e2, s2⟩ := addGrad_spec h1 n.grad ((gradStep_length s1) ▸ hb)
    refine ⟨h2, by simp [_backward, _backward_add, e, hop, hab, e1, em1, e2],
      gradStep_congr (gradStep_trans s1 s2) ?_⟩
    intro v _
    simp only [hw, hab, hg, coef, ho, List.length_cons, List.length_nil,
      Finset.sum_range_succ, Finset.sum_range_zero]
    simp only [List.getElem?_cons_zero, List.getElem?_cons_succ, Option.some.injEq,
      @eq_comm _ a v, @eq_comm _ b v]
    by_cases h1 : v = a <;> by_cases h2 : v = b <;> simp [h1, h2, add_mul]
  | Op_mul =>
    rw [hop] at har ho
    obtain ⟨a, b, hab⟩ := length_two har
    rw [hab] at hcl hself
    have ha : a < h.length := hcl a (by simp)
    have hb : b < h.length := hcl b (by simp)
    have hma : ¬ m = a := fun q => hself (by simp [q])
    have hmb : ¬ m = b := fun q => hself (by simp [q])
    obtain ⟨na, ea⟩ := exists_node ha
    obtain ⟨nb, eb⟩ := exists_node hb
    obtain ⟨h1, e1, s1⟩ := addGrad_spec h (nb.data * n.grad) ha
    have em1 : h1[m]? = some n := getElem?_of_zero s1 e (by simp [hma])
    have ha1 : dataOf h1 a = na.data := by rw [(gradStep_dataOf s1), dataOf_eq ea]
    have hlt1 : a < h1.length := (gradStep_length s1) ▸ ha
    obtain ⟨na1, ea1⟩ := exists_node hlt1
    have hda : na1.data = na.data := by rw [← dataOf_eq ea1, ha1]
    obtain ⟨h2, e2, s2⟩ := addGrad_spec h1 (na1.data * n.grad) ((gradStep_length s1) ▸ hb)
    refine ⟨h2, by simp [_backward, _backward_mul, e, hop, hab, eb, e1, em1, ea1, e2],
      gradStep_congr (gradStep_trans s1 s2) ?_⟩
    intro v _
    simp only [hw, hab, hg, coef, ho, hp, List.length_cons, List.length_nil,
      Finset.sum_range_succ, Finset.sum_range_zero]
    simp only [List.getElem?_cons_zero, List.getElem?_cons_succ, Option.some.injEq,
      @eq_comm _ a v, @eq_comm _ b v]
    by_cases h1 : v = a <;> by_cases h2 : v = b <;>
      simp [h1, h2, add_mul, dataOf_eq ea, dataOf_eq eb, hda]
  | Op_pow =>
    rw [hop] at har ho
    obtain ⟨a, b, hab⟩ := length_two har
    rw [hab] at hcl hself
    have ha : a < h.length := hcl a (by simp)
    have hb : b < h.length := hcl b (by simp)
    obtain ⟨na, ea⟩ := exists_node ha
    obtain ⟨nb, eb⟩ := exists_node hb
    obtain ⟨h1, e1, s1⟩ :=
      addGrad_spec h (nb.data * M.pow na.data (nb.data - 1) * n.grad) ha
    refine ⟨h1, by simp [_backward, _backward_pow, e, hop, hab, ea, eb, e1], gradStep_congr s1 ?_⟩
    intro v _
    simp only [hw, hab, hg, coef, ho, hp, List.length_cons, List.length_nil,
      Finset.sum_range_succ, Finset.sum_range_zero]
    simp only [List.getElem?_cons_zero, List.getElem?_cons_succ, Option.some.injEq,
      @eq_comm _ a v, @eq_comm _ b v]
    by_cases h1 : v = a <;> by_cases h2 : v = b <;>
      simp [h1, h2, dataOf_eq ea, dataOf_eq eb]
  | Op_exp =>
    rw [hop] at har ho
    obtain ⟨a, hab⟩ := length_one har
    rw [hab] at hcl hself
    have ha : a < h.length := hcl a (by simp)
    obtain ⟨h1, e1, s1⟩ := addGrad_spec h (n.data * n.grad) ha
    refine ⟨h1, by simp [_backward, _backward_exp, e, hop, hab, e1], gradStep_congr s1 ?_⟩
    intro v _
    simp only [hw, hab, hg, hd, coef, ho, hp, List.length_cons, List.length_nil,
      Finset.sum_range_succ, Finset.sum_range_zero]
    simp only [List.getElem?_cons_zero, Option.some.injEq, @eq_comm _ a v]
    by_cases h1 : v = a <;> simp [h1]
  | Op_tanh =>
    rw [hop] at har ho
    obtain ⟨a, hab⟩ := length_one har
    rw [hab] at hcl hself
    have ha : a < h.length := hcl a (by simp)
    obtain ⟨h1, e1, s1⟩ := addGrad_spec h ((1 - M.pow n.data 2) * n.grad) ha
    refine ⟨h1, by simp [_backward, _backward_tanh, e, hop, hab, e1], gradStep_congr s1 ?_⟩
    intro v _
    simp only [hw, hab, hg, hd, coef, ho, hp, List.length_cons, List.length_nil,
      Finset.sum_range_succ, Finset.sum_range_zero]
    simp only [List.getElem?_cons_zero, Option.some.injEq, @eq_comm _ a v]
    by_cases h1 : v = a <;> simp [h1]

end LocalRule

section Traversal

variable {R : Type} [CommRing R]

theorem unvisited_mono (h : Heap R) {vis vis1 : List Nat} (hs : ∀ x ∈ vis, x ∈ vis1) :
    unvisited h vis1 ≤ unvisited h vis := by
  apply Finset.card_le_card
  intro x hx
  simp only [Finset.mem_filter, Finset.mem_range] at hx ⊢
  exact ⟨hx.1, fun q => hx.2 (hs x q)⟩

theorem unvisited_cons_lt (h : Heap R) {vis : List Nat} {v : Nat} (hv : v < h.length)
    (hn : v ∉ vis) : unvisited h (v :: vis) < unvisited h vis := by
  apply Finset.card_lt_card
  rw [Finset.ssubset_iff_of_subset]
  · refine ⟨v, ?_, ?_⟩
    · simp [hv, hn]
    · simp
  · intro x hx
    simp only [Finset.mem_filter, Finset.mem_range, List.mem_cons, not_or] at hx ⊢
    exact ⟨hx.1, hx.2.2⟩

theorem for_children_total (h : Heap R) (fuel : Nat)
    (f : Nat → List Nat × List Nat → Option (List Nat × List Nat))
    (hf : ∀ c t vis, c < h.length → unvisited h vis < fuel →
      ∃ s1, f c (t, vis) = some s1 ∧ ∀ x ∈ vis, x ∈ s1.2) :
    ∀ (cs : List Nat), (∀ c ∈ cs, c < h.length) → ∀ s : List Nat × List Nat,
      unvisited h s.2 < fuel →
      ∃ s1, for_children f cs s = some s1 ∧ ∀ x ∈ s.2, x ∈ s1.2 := by
  intro cs
  induction cs with
  | nil =>
    intro _ s _
    exact ⟨s, rfl, fun x hx => hx⟩
  | cons c cs ih =>
    intro hcs s hlt
    obtain ⟨s1, e1, m1⟩ := hf c s.1 s.2 (hcs c (by simp)) hlt
    have hlt1 : unvisited h s1.2 < fuel := lt_of_le_of_lt (unvisited_mono h m1) hlt
    obtain ⟨s2, e2, m2⟩ := ih (fun c hc => hcs c (by simp [hc])) s1 hlt1
    refine ⟨s2, ?_, fun x hx => m2 x (m1 x hx)⟩
    simp only [for_children]
    rw [e1]
    exact e2

/-- The traversal returns whenever the fuel exceeds the number of unvisited nodes. -/
theorem build_topo_total (h : Heap R) (hcl : ∀ v, ∀ c ∈ prevOf h v, c < h.length) :
    ∀ (fuel v : Nat) (t vis : List Nat), v < h.length → unvisited h vis < fuel →
      ∃ s1, build_topo h fuel v (t, vis) = some s1 ∧ ∀ x ∈ vis, x ∈ s1.2 := by
  intro fuel
  induction fuel with
  | zero =>
    intro v t vis _ hlt
    exact absurd hlt (Nat.not_lt_zero _)
  | succ fuel ih =>
    intro v t vis hv hlt
    by_cases hmem : v ∈ vis
    · exact ⟨(t, vis), by simp [build_topo, hmem], fun x hx => hx⟩
    · obtain ⟨n, e⟩ := exists_node hv
      have hlt1 : unvisited h (v :: vis) < fuel :=
        Nat.lt_of_lt_of_le (unvisited_cons_lt h hv hmem) (Nat.lt_succ_iff.1 hlt)
      have hch : ∀ c ∈ n._prev, c < h.length := by
        intro c hc
        exact hcl v c (by rw [prevOf_eq e]; exact hc)
      obtain ⟨s1, e1, m1⟩ :=
        for_children_total h fuel (build_topo h fuel) ih n._prev hch (t, v :: vis) hlt1
      refine ⟨(s1.1 ++ [v], s1.2), ?_, fun x hx => m1 x (by simp [hx])⟩
      simp only [build_topo, hmem, if_false, e]
      rw [e1]

theorem topoPost_refl (s : List Nat × List Nat) : TopoPost s s :=
  ⟨⟨[], by simp⟩, fun _ hx => hx, fun _ hx _ => hx⟩

theorem topoPost_trans {s s1 s2 : List Nat × List Nat} (p1 : TopoPost s s1)
    (p2 : TopoPost s1 s2) : TopoPost s s2 := by
  obtain ⟨n1, e1, d1⟩ := p1.ext
  obtain ⟨n2, e2, d2⟩ := p2.ext
  refine ⟨⟨n1 ++ n2, by rw [e2, e1, List.append_assoc], ?_⟩, ?_, ?_⟩
  · intro x hx
    rcases List.mem_append.1 hx with q | q
    · exact d1 x q
    · exact fun q1 => d2 x q (p1.vis x q1)
  · exact fun x hx => p2.vis x (p1.vis x hx)
  · intro x hx hn
    refine p1.gray x (p2.gray x hx hn) ?_
    intro q
    exact hn (by rw [e2]; exact List.mem_append_left _ q)

theorem topoPost_mem_mono {s s1 : List Nat × List Nat} (p : TopoPost s s1) {x : Nat}
    (hx : x ∈ s.1) : x ∈ s1.1 := by
  obtain ⟨n1, e1, _⟩ := p.ext
  rw [e1]
  exact List.mem_append_left _ hx

theorem for_children_inv (h : Heap R) (root : Nat)
    (f : Nat → List Nat × List Nat → Option (List Nat × List Nat))
    (hf : ∀ c s s1, f c s = some s1 → TopoInv h root s →
      (∀ x ∈ s.2, x ∉ s.1 → Relation.TransGen (Edge h) x c) → Reach h root c →
      TopoInv h root s1 ∧ TopoPost s s1 ∧ c ∈ s1.1) :
    ∀ (cs : List Nat) (s s1 : List Nat × List Nat), for_children f cs s = some s1 →
      TopoInv h root s →
      (∀ x ∈ s.2, x ∉ s.1 → ∀ c ∈ cs, Relation.TransGen (Edge h) x c) →
      (∀ c ∈ cs, Reach h root c) →
      TopoInv h root s1 ∧ TopoPost s s1 ∧ ∀ c ∈ cs, c ∈ s1.1 := by
  intro cs
  induction cs with
  | nil =>
    intro s s1 e hi _ _
    simp only [for_children, Option.some.injEq] at e
    subst e
    exact ⟨hi, topoPost_refl s, fun c hc => absurd hc (List.not_mem_nil c)⟩
  | cons c cs ih =>
    intro s s2 e hi hg hr
    simp only [for_children] at e
    cases e1 : f c s with
    | none => rw [e1] at e; exact absurd e (by simp)
    | some s1 =>
      rw [e1] at e
      obtain ⟨i1, p1, m1⟩ := hf c s s1 e1 hi (fun x hx hn => hg x hx hn c (by simp))
        (hr c (by simp))
      have hg1 : ∀ x ∈ s1.2, x ∉ s1.1 → ∀ c ∈ cs, Relation.TransGen (Edge h) x c := by
        intro x hx hn c1 hc1
        exact hg x (p1.gray x hx hn) (fun q => hn (topoPost_mem_mono p1 q)) c1 (by simp [hc1])
      obtain ⟨i2, p2, m2⟩ := ih s1 s2 e i1 hg1 (fun c1 hc1 => hr c1 (by simp [hc1]))
      refine ⟨i2, topoPost_trans p1 p2, ?_⟩
      intro c1 hc1
      rcases List.mem_cons.1 hc1 with q | q
      · rw [q]; exact topoPost_mem_mono p2 m1
      · exact m2 c1 q

/-- Partial correctness of `build_topo` on an acyclic graph. -/
theorem build_topo_inv (h : Heap R) (root : Nat) (hac : Acyclic h) :
    ∀ (fuel v : Nat) (s s1 : List Nat × List Nat), build_topo h fuel v s = some s1 →
      TopoInv h root s →
      (∀ x ∈ s.2, x ∉ s.1 → Relation.TransGen (Edge h) x v) → Reach h root v →
      TopoInv h root s1 ∧ TopoPost s s1 ∧ v ∈ s1.1 ∧
        (v ∉ s.2 → s1.1.getLast? = some v) := by
  intro fuel
  induction fuel with
  | zero =>
    intro v s s1 e
    simp [build_topo] at e
  | succ fuel ih =>
    intro v s s2 e hi hg hr
    obtain ⟨t, vis⟩ := s
    simp only [build_topo] at e
    by_cases hmem : v ∈ vis
    · simp only [hmem, if_true, Option.some.injEq] at e
      subst e
      refine ⟨hi, topoPost_refl _, ?_, fun q => absurd hmem q⟩
      by_contra hn
      exact hac v (hg v hmem hn)
    · simp only [hmem, if_false] at e
      cases e0 : h[v]? with
      | none => rw [e0] at e; exact absurd e (by simp)
      | some n =>
        rw [e0] at e
        simp only at e
        cases e1 : for_children (build_topo h fuel) n._prev (t, v :: vis) with
        | none => rw [e1] at e; exact absurd e (by simp)
        | some s1 =>
          rw [e1] at e
          simp only [Option.some.injEq] at e
          subst e
          have hpv : prevOf h v = n._prev := prevOf_eq e0
          have hvt : v ∉ t := fun q => hmem (hi.sub v q)
          have i0 : TopoInv h root (t, v :: vis) :=
            ⟨hi.nodup, fun x hx => List.mem_cons_of_mem _ (hi.sub x hx), hi.before, hi.reach⟩
          have hg0 : ∀ x ∈ v :: vis, x ∉ t → ∀ c ∈ n._prev,
              Relation.TransGen (Edge h) x c := by
            intro x hx hn c hc
            have hedge : Edge h v c := by
              unfold Edge
              rw [hpv]
              exact hc
            rcases List.mem_cons.1 hx with q | q
            · rw [q]; exact Relation.TransGen.single hedge
            · exact Relation.TransGen.tail (hg x q hn) hedge
          have hr0 : ∀ c ∈ n._prev, Reach h root c := by
            intro c hc
            refine Relation.ReflTransGen.tail hr ?_
            unfold Edge
            rw [hpv]
            exact hc
          obtain ⟨i1, p1, m1⟩ := for_children_inv h root (build_topo h fuel)
            (fun c s s1 e hi hg hr =>
              ⟨(ih c s s1 e hi hg hr).1, (ih c s s1 e hi hg hr).2.1, (ih c s s1 e hi hg hr).2.2.1⟩)
            n._prev (t, v :: vis) s1 e1 i0 hg0 hr0
          obtain ⟨new, en, dn⟩ := p1.ext
          simp only at en dn
          have hv1 : v ∉ s1.1 := by
            rw [en]
            intro q
            rcases List.mem_append.1 q with q1 | q1
            · exact hvt q1
            · exact dn v q1 (by simp)
          refine ⟨⟨?_, ?_, ?_, ?_⟩, ⟨⟨new ++ [v], ?_, ?_⟩, ?_, ?_⟩, by simp, fun _ => by simp⟩
          · simp only
            rw [List.nodup_append]
            refine ⟨i1.nodup, List.nodup_singleton v, ?_⟩
            intro x hx hx1
            rw [List.mem_singleton.1 hx1] at hx
            exact hv1 hx
          · intro x hx
            simp only [List.mem_append, List.mem_singleton] at hx
            rcases hx with q | q
            · exact i1.sub x q
            · rw [q]; exact p1.vis v (by simp)
          · intro x hx c hc
            simp only [List.mem_append, List.mem_singleton] at hx
            rcases hx with q | q
            · exact (i1.before x q c hc).trans (List.sublist_append_left _ _)
            · rw [q] at hc ⊢
              rw [hpv] at hc
              have : List.Sublist [c] s1.1 := List.singleton_sublist.2 (m1 c hc)
              exact List.Sublist.append this (List.Sublist.refl [v])
          · intro x hx
            simp only [List.mem_append, List.mem_singleton] at hx
            rcases hx with q | q
            · exact i1.reach x q
            · rw [q]; exact hr
          · simp only
            rw [en, List.append_assoc]
          · intro x hx
            simp only [List.mem_append, List.mem_singleton] at hx
            rcases hx with q | q
            · exact fun q1 => dn x q (List.mem_cons_of_mem _ q1)
            · rw [q]; exact hmem
          · intro x hx
            exact p1.vis x (List.mem_cons_of_mem _ hx)
          · intro x hx hn
            simp only [List.mem_append, List.mem_singleton, not_or] at hn
            have := p1.gray x hx hn.1
            rcases List.mem_cons.1 this with q | q
            · exact absurd q hn.2
            · exact q

theorem reach_lt {h : Heap R} (hcl : Closed h) {root : Nat} (hr : root < h.length) {n : Nat}
    (hn : Reach h root n) : n < h.length := by
  induction hn with
  | refl => exact hr
  | tail _ e _ => exact hcl _ _ e

theorem sublist_pair_irrefl {l : List Nat} (hl : l.Nodup) {a b : Nat}
    (h1 : List.Sublist [a, b] l) : ¬ List.Sublist [b, a] l := by
  intro h2
  induction l with
  | nil => simp at h1
  | cons x l ih =>
    rw [List.nodup_cons] at hl
    cases h1 with
    | cons _ h1 =>
      cases h2 with
      | cons _ h2 => exact ih hl.2 h1 h2
      | cons₂ _ h2 => exact hl.1 ((List.Sublist.subset h1) (by simp))
    | cons₂ _ h1 =>
      cases h2 with
      | cons _ h2 => exact hl.1 ((List.Sublist.subset h2) (by simp))
      | cons₂ _ h2 => exact hl.1 ((List.Sublist.subset h2) (by simp))

/-- The order built by `backward`: it exists, has no duplicates, holds exactly the
nodes reachable from the root, ends with the root, and lists every node after
each of its operands. -/
theorem topo_of_spec (h : Heap R) (root : Nat) (hcl : Closed h) (hac : Acyclic h)
    (hr : root < h.length) :
    ∃ topo, topo_of h root = some topo ∧ topo.Nodup ∧ (∀ n, n ∈ topo ↔ Reach h root n) ∧
      topo.getLast? = some root ∧
      (∀ n ∈ topo, ∀ c ∈ prevOf h n, List.Sublist [c, n] topo) := by
  have hlt : unvisited h [] < h.length + 1 := by
    unfold unvisited
    refine Nat.lt_succ_of_le ?_
    calc ((Finset.range h.length).filter (fun x => x ∉ ([] : List Nat))).card
        ≤ (Finset.range h.length).card := Finset.card_filter_le _ _
      _ = h.length := Finset.card_range _
  obtain ⟨s1, e1, _⟩ := build_topo_total h hcl (h.length + 1) root [] [] hr hlt
  have i0 : TopoInv h root ([], []) :=
    ⟨List.nodup_nil, fun x hx => hx, fun x hx => absurd hx (List.not_mem_nil x),
      fun x hx => absurd hx (List.not_mem_nil x)⟩
  obtain ⟨i1, _, m1, l1⟩ := build_topo_inv h root hac (h.length + 1) root ([], []) s1 e1 i0
    (fun x hx => absurd hx (List.not_mem_nil x)) Relation.ReflTransGen.refl
  refine ⟨s1.1, by simp [topo_of, e1], i1.nodup, ?_, l1 (List.not_mem_nil root), i1.before⟩
  intro n
  constructor
  · exact i1.reach n
  · intro hn
    induction hn with
    | refl => exact m1
    | tail _ e ih => exact (List.Sublist.subset (i1.before _ ih _ e)) (by simp)

theorem topo_of_congr {h h1 : Heap R} (hl : h1.length = h.length)
    (hp : ∀ v, prevOf h1 v = prevOf h v) (root : Nat) : topo_of h1 root = topo_of h root := by
  have key : ∀ (fuel v : Nat) (s : List Nat × List Nat),
      build_topo h1 fuel v s = build_topo h fuel v s := by
    intro fuel
    induction fuel with
    | zero => intro v s; rfl
    | succ fuel ih =>
      intro v s
      obtain ⟨t, vis⟩ := s
      have hf : build_topo h1 fuel = build_topo h fuel := by
        funext c s
        exact ih c s
      simp only [build_topo, hf]
      by_cases hmem : v ∈ vis
      · simp [hmem]
      · simp only [hmem, if_false]
        by_cases hv : v < h.length
        · obtain ⟨n, e⟩ := exists_node hv
          obtain ⟨n1, e1⟩ := exists_node (hl ▸ hv : v < h1.length)
          have := hp v
          rw [prevOf_eq e, prevOf_eq e1] at this
          rw [e, e1]
          simp only [this]
        · rw [List.getElem?_eq_none (Nat.le_of_not_lt hv),
            List.getElem?_eq_none (hl ▸ Nat.le_of_not_lt hv)]
  simp only [topo_of, key, hl]

end Traversal

section Walk

variable {R : Type} [CommRing R]

theorem weight_zero (M : CMath R) (h : Heap R) {m n : Nat} (hn : n ∉ prevOf h m) :
    weight M h m n = 0 := by
  unfold weight
  apply Finset.sum_eq_zero
  intro i _
  by_cases q : (prevOf h m)[i]? = some n
  · exact absurd (List.getElem?_mem q) hn
  · simp [q]

theorem sum_map_zero {l : List Nat} {f : Nat → R} (hz : ∀ m ∈ l, f m = 0) :
    (l.map f).sum = 0 := by
  induction l with
  | nil => rfl
  | cons a l ih =>
    simp only [List.map_cons, List.sum_cons]
    rw [hz a (by simp), ih (fun m hm => hz m (by simp [hm])), add_zero]

/-- The reverse walk over a list in which no node is an operand of itself or of a
later node: every gradient grows by the sum of the contributions of the walked
consumers, each taken at the consumer's final gradient. -/
theorem reverse_walk_spec (M : CMath R) (L : List Nat) :
    ∀ h : Heap R, (∀ m ∈ L, m < h.length) →
      (∀ m ∈ L, (prevOf h m).length = arity (opOf h m)) →
      (∀ m ∈ L, ∀ c ∈ prevOf h m, c < h.length) →
      (∀ m ∈ L, m ∉ prevOf h m) →
      List.Pairwise (fun a b => a ∉ prevOf h b) L →
      ∃ h1, reverse_walk M L h = some h1 ∧
        GradStep h h1 (fun v => (L.map (fun m => weight M h m v * gradOf h1 m)).sum) := by
  induction L with
  | nil =>
    intro h _ _ _ _ _
    exact ⟨h, rfl, gradStep_congr (gradStep_refl h) (fun v _ => by simp)⟩
  | cons m L ih =>
    intro h hlt har hcl hself hpw
    obtain ⟨h1, e1, s1⟩ := _backward_spec M h m (hlt m (by simp)) (har m (by simp))
      (hcl m (by simp)) (hself m (by simp))
    have hl1 := (gradStep_length s1)
    rw [List.pairwise_cons] at hpw
    obtain ⟨h2, e2, s2⟩ := ih h1
      (fun x hx => by rw [hl1]; exact hlt x (by simp [hx]))
      (fun x hx => by rw [(gradStep_prevOf s1), (gradStep_opOf s1)]; exact har x (by simp [hx]))
      (fun x hx => by rw [(gradStep_prevOf s1), hl1]; exact hcl x (by simp [hx]))
      (fun x hx => by rw [(gradStep_prevOf s1)]; exact hself x (by simp [hx]))
      (by
        refine List.Pairwise.imp ?_ hpw.2
        intro a b hab
        rw [(gradStep_prevOf s1)]
        exact hab)
    have hm : m < h.length := hlt m (by simp)
    have hgm1 : gradOf h1 m = gradOf h m := by
      rw [(gradStep_gradOf s1) hm, weight_zero M h (hself m (by simp)), zero_mul, add_zero]
    have hgm2 : gradOf h2 m = gradOf h m := by
      rw [(gradStep_gradOf s2) (hl1 ▸ hm), hgm1, sum_map_zero, add_zero]
      intro x hx
      rw [weight_eq M s1, weight_zero M h (hpw.1 x hx), zero_mul]
    refine ⟨h2, ?_, gradStep_congr (gradStep_trans s1 s2) ?_⟩
    · simp only [reverse_walk]
      rw [e1]
      exact e2
    · intro v _
      simp only [List.map_cons, List.sum_cons, hgm2]
      congr 1
      congr 1
      apply List.map_congr_left
      intro x _
      rw [weight_eq M s1]

theorem getElem?_set_grad {h : Heap R} {root : Nat} {n : Value R} (e : h[root]? = some n)
    (g : R) (v : Nat) :
    (h.set root { n with grad := g })[v]? =
      (h[v]?).map (fun (k : Value R) => { k with grad := if v = root then g else k.grad }) := by
  rw [List.getElem?_set]
  by_cases q : root = v
  · subst q
    simp [getElem?_lt e, e]
  · have q1 : ¬ v = root := fun z => q z.symm
    simp only [q, q1, if_false]
    cases h[v]? <;> rfl

/-- What one call of `backward` does, given the order `topo` it builds and the
local well-formedness of the nodes in that order. -/
theorem backward_of_topo (M : CMath R) (h : Heap R) (root : Nat) (hr : root < h.length)
    (topo : List Nat) (et : topo_of h root = some topo)
    (hlt : ∀ m ∈ topo, m < h.length)
    (har : ∀ m ∈ topo, (prevOf h m).length = arity (opOf h m))
    (hcl : ∀ m ∈ topo, ∀ c ∈ prevOf h m, c < h.length)
    (hself : ∀ m ∈ topo, m ∉ prevOf h m)
    (hord : List.Pairwise (fun a b => b ∉ prevOf h a) topo) :
    ∃ h1, backward M h root = some h1 ∧
      (∀ v, h1[v]? = (h[v]?).map (fun (k : Value R) => { k with grad := gradOf h1 v })) ∧
      ∀ v, v < h.length →
        gradOf h1 v = (if v = root then 1 else gradOf h v) +
          (topo.map (fun m => weight M h m v * gradOf h1 m)).sum := by
  obtain ⟨n, e⟩ := exists_node hr
  have hset := getElem?_set_grad e (1 : R)
  generalize hh0 : h.set root { n with grad := 1 } = h0 at hset
  have hl0 : h0.length = h.length := by rw [← hh0, List.length_set]
  have hp0 : ∀ v, prevOf h0 v = prevOf h v := by
    intro v
    unfold prevOf
    rw [hset v]
    cases h[v]? <;> rfl
  have ho0 : ∀ v, opOf h0 v = opOf h v := by
    intro v
    unfold opOf
    rw [hset v]
    cases h[v]? <;> rfl
  have hd0 : ∀ v, dataOf h0 v = dataOf h v := by
    intro v
    unfold dataOf
    rw [hset v]
    cases h[v]? <;> rfl
  have hg0 : ∀ v, v < h.length → gradOf h0 v = if v = root then 1 else gradOf h v := by
    intro v hv
    obtain ⟨k, ek⟩ := exists_node hv
    unfold gradOf
    rw [hset v, ek]
    rfl
  have hw0 : ∀ m v, weight M h0 m v = weight M h m v := by
    intro m v
    unfold weight coef
    simp only [hp0, ho0, hd0]
  have hpw : List.Pairwise (fun a b => a ∉ prevOf h0 b) topo.reverse := by
    rw [List.pairwise_reverse]
    refine List.Pairwise.imp ?_ hord
    intro a b q
    rw [hp0]
    exact q
  obtain ⟨h1, e1, s1⟩ := reverse_walk_spec M topo.reverse h0
    (fun m hm => by rw [hl0]; exact hlt m (List.mem_reverse.1 hm))
    (fun m hm => by rw [hp0, ho0]; exact har m (List.mem_reverse.1 hm))
    (fun m hm c hc => by rw [hl0]; rw [hp0] at hc; exact hcl m (List.mem_reverse.1 hm) c hc)
    (fun m hm => by rw [hp0]; exact hself m (List.mem_reverse.1 hm)) hpw
  have hsum : ∀ v, (topo.reverse.map (fun m => weight M h0 m v * gradOf h1 m)).sum =
      (topo.map (fun m => weight M h m v * gradOf h1 m)).sum := by
    intro v
    rw [List.map_reverse, List.sum_reverse]
    simp only [hw0]
  refine ⟨h1, ?_, ?_, ?_⟩
  · simp only [backward, e]
    rw [hh0, topo_of_congr hl0 hp0 root, et]
    exact e1
  · intro v
    rw [s1 v, hset v]
    cases ev : h[v]? with
    | none => rfl
    | some k =>
      have : gradOf h1 v = (if v = root then 1 else k.grad) +
          (topo.reverse.map (fun m => weight M h0 m v * gradOf h1 m)).sum := by
        rw [gradStep_gradOf s1 (hl0 ▸ getElem?_lt ev), hg0 v (getElem?_lt ev), gradOf_eq ev]
      simp [this]
  · intro v hv
    rw [gradStep_gradOf s1 (hl0 ▸ hv), hg0 v hv, hsum]

/-- What one call of `backward` does on a well-formed acyclic graph. -/
theorem backward_spec (M : CMath R) (h : Heap R) (root : Nat) (hwf : WellFormed h)
    (hac : Acyclic h) (hr : root < h.length) :
    ∃ h1 topo, backward M h root = some h1 ∧ topo_of h root = some topo ∧
      topo.Nodup ∧ (∀ n, n ∈ topo ↔ Reach h root n) ∧
      (∀ v, h1[v]? = (h[v]?).map (fun (k : Value R) => { k with grad := gradOf h1 v })) ∧
      gradOf h1 root = 1 ∧
      ∀ n, n < h.length → n ≠ root →
        gradOf h1 n = gradOf h n + (topo.map (fun m => weight M h m n * gradOf h1 m)).sum := by
  obtain ⟨topo, et, hnd, hmem, _, hbef⟩ := topo_of_spec h root hwf.1 hac hr
  have hself : ∀ m, m ∉ prevOf h m := fun m q => hac m (Relation.TransGen.single q)
  have hord : List.Pairwise (fun a b => b ∉ prevOf h a) topo := by
    rw [List.pairwise_iff_forall_sublist]
    intro a b hab q
    exact sublist_pair_irrefl hnd hab (hbef a (List.Sublist.subset hab (by simp)) b q)
  obtain ⟨h1, e1, hfr, hg⟩ := backward_of_topo M h root hr topo et
    (fun m hm => reach_lt hwf.1 hr ((hmem m).1 hm)) (fun m _ => hwf.2 m)
    (fun m _ => hwf.1 m) (fun m _ => hself m) hord
  refine ⟨h1, topo, e1, et, hnd, hmem, hfr, ?_, ?_⟩
  · rw [hg root hr, if_pos rfl, sum_map_zero, add_zero]
    intro m hm
    rw [weight_zero M h, zero_mul]
    intro q
    exact hac root (Relation.TransGen.tail' ((hmem m).1 hm) q)
  · intro v hv hne
    rw [hg v hv, if_neg hne]

theorem weight_nil (M : CMath R) {h : Heap R} {m : Nat} (hp : prevOf h m = []) (n : Nat) :
    weight M h m n = 0 :=
  weight_zero M h (by rw [hp]; exact List.not_mem_nil n)

theorem weight_one (M : CMath R) {h : Heap R} {m a : Nat} (hp : prevOf h m = [a]) (n : Nat) :
    weight M h m n = if a = n then coef M h m 0 else 0 := by
  unfold weight
  rw [hp]
  simp [Finset.sum_range_succ]

theorem weight_pair (M : CMath R) {h : Heap R} {m a b : Nat} (hp : prevOf h m = [a, b])
    (n : Nat) : weight M h m n =
      (if a = n then coef M h m 0 else 0) + (if b = n then coef M h m 1 else 0) := by
  unfold weight
  rw [hp]
  simp [Finset.sum_range_succ]

theorem build_topo_visited (h : Heap R) (fuel v : Nat) (t vis : List Nat) (hv : v ∈ vis) :
    build_topo h (fuel + 1) v (t, vis) = some (t, vis) := by
  simp [build_topo, hv]

theorem build_topo_node (h : Heap R) (fuel v : Nat) (t vis : List Nat) {n : Value R}
    (e : h[v]? = some n) (hv : v ∉ vis) :
    build_topo h (fuel + 1) v (t, vis) =
      match for_children (build_topo h fuel) n._prev (t, v :: vis) with
      | none => none
      | some s => some (s.1 ++ [v], s.2) := by
  simp only [build_topo, hv, if_false, e]

theorem build_topo_leaf (h : Heap R) (fuel v : Nat) (t vis : List Nat) {n : Value R}
    (e : h[v]? = some n) (hp : n._prev = []) (hv : v ∉ vis) :
    build_topo h (fuel + 1) v (t, vis) = some (t ++ [v], v :: vis) := by
  rw [build_topo_node h fuel v t vis e hv, hp]
  rfl

theorem sameGraph_length {h h1 : Heap R} (hs : SameGraph h h1) : h1.length = h.length := by
  apply le_antisymm
  · have e := hs h.length
    rw [List.getElem?_eq_none (le_refl _)] at e
    exact List.getElem?_eq_none_iff.1 e
  · have e := hs h1.length
    rw [List.getElem?_eq_none (le_refl _)] at e
    cases hq : h[h1.length]? with
    | none => exact List.getElem?_eq_none_iff.1 hq
    | some n => rw [hq] at e; simp at e

theorem sameGraph_prevOf {h h1 : Heap R} (hs : SameGraph h h1) (v : Nat) :
    prevOf h1 v = prevOf h v := by
  unfold prevOf
  rw [hs v]
  cases h[v]? <;> rfl

theorem sameGraph_opOf {h h1 : Heap R} (hs : SameGraph h h1) (v : Nat) :
    opOf h1 v = opOf h v := by
  unfold opOf
  rw [hs v]
  cases h[v]? <;> rfl

theorem sameGraph_dataOf {h h1 : Heap R} (hs : SameGraph h h1) (v : Nat) :
    dataOf h1 v = dataOf h v := by
  unfold dataOf
  rw [hs v]
  cases h[v]? <;> rfl

theorem sameGraph_edge {h h1 : Heap R} (hs : SameGraph h h1) : Edge h1 = Edge h := by
  funext a b
  unfold Edge
  rw [sameGraph_prevOf hs]

theorem sameGraph_reach {h h1 : Heap R} (hs : SameGraph h h1) (a b : Nat) :
    Reach h1 a b ↔ Reach h a b := by
  unfold Reach
  rw [sameGraph_edge hs]

theorem sameGraph_acyclic {h h1 : Heap R} (hs : SameGraph h h1) (hac : Acyclic h) :
    Acyclic h1 := by
  unfold Acyclic
  rw [sameGraph_edge hs]
  exact hac

theorem sameGraph_wellFormed {h h1 : Heap R} (hs : SameGraph h h1) (hwf : WellFormed h) :
    WellFormed h1 := by
  constructor
  · intro v c hc
    rw [sameGraph_prevOf hs] at hc
    rw [sameGraph_length hs]
    exact hwf.1 v c hc
  · intro v
    rw [sameGraph_prevOf hs, sameGraph_opOf hs]
    exact hwf.2 v

theorem sameGraph_weight (M : CMath R) {h h1 : Heap R} (hs : SameGraph h h1) (m n : Nat) :
    weight M h1 m n = weight M h m n := by
  unfold weight coef
  simp only [sameGraph_prevOf hs, sameGraph_opOf hs, sameGraph_dataOf hs]

theorem sameGraph_topo_of {h h1 : Heap R} (hs : SameGraph h h1) (root : Nat) :
    topo_of h1 root = topo_of h root :=
  topo_of_congr (sameGraph_length hs) (sameGraph_prevOf hs) root

theorem sum_map_single {l : List Nat} (hl : l.Nodup) {r : Nat} (hr : r ∈ l) {f : Nat → R}
    (hz : ∀ m ∈ l, m ≠ r → f m = 0) : (l.map f).sum = f r := by
  rw [← List.sum_toFinset f hl]
  apply Finset.sum_eq_single r
  · intro m hm hne
    exact hz m (List.mem_toFinset.1 hm) hne
  · intro hn
    exact absurd (List.mem_toFinset.2 hr) hn

/-- The reverse walk is the left fold of `_backward` over the walked sequence: one
call of the local rule per element, in order, each on the heap the previous call
left; it stops as soon as a call fails. -/
theorem reverse_walk_eq_foldlM (M : CMath R) (L : List Nat) :
    ∀ h : Heap R, reverse_walk M L h = List.foldlM (_backward M) h L := by
  induction L with
  | nil =>
    intro h
    rfl
  | cons v L ih =>
    intro h
    rw [List.foldlM_cons]
    simp only [reverse_walk]
    cases _backward M h v with
    | none => rfl
    | some h1 => exact ih h1

/-- The moment the rule of node `n` is invoked in a walk over `pre ++ n :: post`
in which no node is an operand of itself or of a later node: the calls for `pre`
return a heap `hpre`, the call for `n` returns `hmid`, the calls for `post` return
`hfin`; the gradient `n` has when its rule reads it is already its final one, and
the call adds `weight * (final gradient of n)` to every node. -/
theorem reverse_walk_moment (M : CMath R) (pre post : List Nat) (n : Nat) (h : Heap R)
    (hlt : ∀ m ∈ pre ++ n :: post, m < h.length)
    (har : ∀ m ∈ pre ++ n :: post, (prevOf h m).length = arity (opOf h m))
    (hcl : ∀ m ∈ pre ++ n :: post, ∀ c ∈ prevOf h m, c < h.length)
    (hself : ∀ m ∈ pre ++ n :: post, m ∉ prevOf h m)
    (hpw : List.Pairwise (fun a b => a ∉ prevOf h b) (pre ++ n :: post)) :
    ∃ hpre hmid hfin, List.foldlM (_backward M) h pre = some hpre ∧
      _backward M hpre n = some hmid ∧
      List.foldlM (_backward M) hmid post = some hfin ∧
      List.foldlM (_backward M) h (pre ++ n :: post) = some hfin ∧
      gradOf hpre n = gradOf hfin n ∧
      GradStep hpre hmid (fun v => weight M h n v * gradOf hfin n) := by
  rw [List.pairwise_append, List.pairwise_cons] at hpw
  obtain ⟨pw1, ⟨pwn, pw2⟩, _⟩ := hpw
  have inpre : ∀ m, m ∈ pre → m ∈ pre ++ n :: post := fun m hm => by simp [hm]
  have inpost : ∀ m, m ∈ post → m ∈ pre ++ n :: post := fun m hm => by simp [hm]
  have inn : n ∈ pre ++ n :: post := by simp
  obtain ⟨hpre, e1, s1⟩ := reverse_walk_spec M pre h
    (fun m hm => hlt m (inpre m hm)) (fun m hm => har m (inpre m hm))
    (fun m hm => hcl m (inpre m hm)) (fun m hm => hself m (inpre m hm)) pw1
  have hl1 := gradStep_length s1
  have hn1 : n < hpre.length := by rw [hl1]; exact hlt n inn
  obtain ⟨hmid, e2, s2⟩ := _backward_spec M hpre n hn1
    (by rw [gradStep_prevOf s1, gradStep_opOf s1]; exact har n inn)
    (fun c hc => by rw [hl1]; rw [gradStep_prevOf s1] at hc; exact hcl n inn c hc)
    (by rw [gradStep_prevOf s1]; exact hself n inn)
  have s12 := gradStep_trans s1 s2
  have hl2 := gradStep_length s12
  obtain ⟨hfin, e3, s3⟩ := reverse_walk_spec M post hmid
    (fun m hm => by rw [hl2]; exact hlt m (inpost m hm))
    (fun m hm => by rw [gradStep_prevOf s12, gradStep_opOf s12]; exact har m (inpost m hm))
    (fun m hm c hc => by
      rw [hl2]
      rw [gradStep_prevOf s12] at hc
      exact hcl m (inpost m hm) c hc)
    (fun m hm => by rw [gradStep_prevOf s12]; exact hself m (inpost m hm))
    (by
      refine List.Pairwise.imp ?_ pw2
      intro a b hab
      rw [gradStep_prevOf s12]
      exact hab)
  have g2 : gradOf hmid n = gradOf hpre n := by
    rw [gradStep_gradOf s2 hn1, weight_zero M hpre, zero_mul, add_zero]
    rw [gradStep_prevOf s1]
    exact hself n inn
  have g3 : gradOf hfin n = gradOf hpre n := by
    rw [gradStep_gradOf s3 (by rw [hl2]; exact hlt n inn), g2, sum_map_zero, add_zero]
    intro x hx
    rw [weight_eq M s12, weight_zero M h (pwn x hx), zero_mul]
  rw [reverse_walk_eq_foldlM] at e1 e3
  refine ⟨hpre, hmid, hfin, e1, e2, e3, ?_, g3.symm, ?_⟩
  · rw [List.foldlM_append, e1]
    show List.foldlM (_backward M) hpre (n :: post) = some hfin
    rw [List.foldlM_cons, e2]
    exact e3
  · refine gradStep_congr s2 ?_
    intro v _
    rw [weight_eq M s1, g3]

end Walk

section Checks

variable {R : Type} [CommRing R]

theorem opOf_of_ge {h : Heap R} {v : Nat} (hv : h.length ≤ v) : opOf h v = Op.Op_no := by
  simp [opOf, List.getElem?_eq_none hv]

theorem wellFormed_of_check {h : Heap R} (hc : checkWellFormed h = true) : WellFormed h := by
  simp only [checkWellFormed, List.all_eq_true, List.mem_range, Bool.and_eq_true,
    decide_eq_true_eq] at hc
  constructor
  · intro v c hcv
    by_cases hv : v < h.length
    · exact (hc v hv).1 c hcv
    · rw [prevOf_nil_of_ge (Nat.le_of_not_lt hv)] at hcv
      exact absurd hcv (List.not_mem_nil c)
  · intro v
    by_cases hv : v < h.length
    · exact (hc v hv).2
    · rw [prevOf_nil_of_ge (Nat.le_of_not_lt hv), opOf_of_ge (Nat.le_of_not_lt hv)]
      rfl

theorem closed_of_check {h : Heap R} (hc : checkWellFormed h = true) : Closed h :=
  (wellFormed_of_check hc).1

theorem acyclic_of_check {h : Heap R} (hc : checkOrdered h = true) : Acyclic h := by
  simp only [checkOrdered, List.all_eq_true, List.mem_range, decide_eq_true_eq] at hc
  have hedge : ∀ a b, Edge h a b → b < a := by
    intro a b e
    by_cases ha : a < h.length
    · exact hc a ha b e
    · unfold Edge at e
      rw [prevOf_nil_of_ge (Nat.le_of_not_lt ha)] at e
      exact absurd e (List.not_mem_nil b)
  have htrans : ∀ a b, Relation.TransGen (Edge h) a b → b < a := by
    intro a b t
    induction t with
    | single e => exact hedge _ _ e
    | tail _ e ih => exact lt_trans (hedge _ _ e) ih
  intro v t
  exact lt_irrefl v (htrans v v t)

end Checks

section Polynomial

variable {R : Type} [CommRing R]

/-- Induction along operand links, available on acyclic graphs. -/
theorem acyclic_induction {h : Heap R} (hcl : Closed h) (hac : Acyclic h) (C : Nat → Prop)
    (step : ∀ x, x < h.length → (∀ c ∈ prevOf h x, C c) → C x) :
    ∀ x, x < h.length → C x := by
  have wf : WellFounded
      (fun (a b : Fin h.length) => Relation.TransGen (Edge h) b.1 a.1) := by
    haveI : IsTrans (Fin h.length)
        (fun a b => Relation.TransGen (Edge h) b.1 a.1) :=
      ⟨fun a b c hab hbc => Relation.TransGen.trans hbc hab⟩
    haveI : IsIrrefl (Fin h.length)
        (fun a b => Relation.TransGen (Edge h) b.1 a.1) :=
      ⟨fun a => hac a.1⟩
    exact Finite.wellFounded_of_trans_of_irrefl _
  intro x hx
  exact @WellFounded.induction _ _ wf (fun a => C a.1) ⟨x, hx⟩
    (fun a ih => step a.1 a.2
      (fun c hc => ih ⟨c, hcl a.1 c hc⟩ (Relation.TransGen.single hc)))

theorem denotes_unique {h : Heap R} {v : Nat} {P Q : MvPolynomial Nat R}
    (hP : Denotes h v P) (hQ : Denotes h v Q) : P = Q := by
  induction hP generalizing Q with
  | leaf v _ ho =>
    cases hQ with
    | leaf _ _ _ => rfl
    | add _ a b p q ho1 _ _ _ => rw [ho] at ho1; exact absurd ho1 (by decide)
    | mul _ a b p q ho1 _ _ _ => rw [ho] at ho1; exact absurd ho1 (by decide)
  | add v a b p q ho hp _ _ iha ihb =>
    cases hQ with
    | leaf _ _ ho1 => rw [ho] at ho1; exact absurd ho1 (by decide)
    | add _ a1 b1 p1 q1 _ hp1 da db =>
      rw [hp] at hp1
      simp only [List.cons.injEq, and_true] at hp1
      obtain ⟨e1, e2⟩ := hp1
      subst e1 e2
      rw [iha da, ihb db]
    | mul _ a1 b1 p1 q1 ho1 _ _ _ => rw [ho] at ho1; exact absurd ho1 (by decide)
  | mul v a b p q ho hp _ _ iha ihb =>
    cases hQ with
    | leaf _ _ ho1 => rw [ho] at ho1; exact absurd ho1 (by decide)
    | add _ a1 b1 p1 q1 ho1 _ _ _ => rw [ho] at ho1; exact absurd ho1 (by decide)
    | mul _ a1 b1 p1 q1 _ hp1 da db =>
      rw [hp] at hp1
      simp only [List.cons.injEq, and_true] at hp1
      obtain ⟨e1, e2⟩ := hp1
      subst e1 e2
      rw [iha da, ihb db]

theorem denotes_exists {h : Heap R} (hwf : WellFormed h) (hac : Acyclic h) (root : Nat)
    (hops : ∀ v, Reach h root v →
      opOf h v = Op.Op_add ∨ opOf h v = Op.Op_mul ∨ opOf h v = Op.Op_no) :
    ∀ x, x < h.length → Reach h root x → ∃ P, Denotes h x P := by
  refine acyclic_induction hwf.1 hac (fun x => Reach h root x → ∃ P, Denotes h x P) ?_
  intro x hx ih hrx
  have har := hwf.2 x
  have hchild : ∀ c ∈ prevOf h x, ∃ P, Denotes h c P :=
    fun c hc => ih c hc (Relation.ReflTransGen.tail hrx hc)
  rcases hops x hrx with ho | ho | ho
  · rw [ho] at har
    obtain ⟨a, b, hab⟩ := length_two har
    obtain ⟨p, hp⟩ := hchild a (by simp [hab])
    obtain ⟨q, hq⟩ := hchild b (by simp [hab])
    exact ⟨p + q, Denotes.add x a b p q ho hab hp hq⟩
  · rw [ho] at har
    obtain ⟨a, b, hab⟩ := length_two har
    obtain ⟨p, hp⟩ := hchild a (by simp [hab])
    obtain ⟨q, hq⟩ := hchild b (by simp [hab])
    exact ⟨p * q, Denotes.mul x a b p q ho hab hp hq⟩
  · exact ⟨MvPolynomial.X x, Denotes.leaf x hx ho⟩

theorem denotes_eval (M : CMath R) {h : Heap R} {v : Nat} {P : MvPolynomial Nat R}
    (hP : Denotes h v P) (hval : ∀ u, Reach h v u → dataOf h u = forwardValue M h u) :
    MvPolynomial.eval (dataOf h) P = dataOf h v := by
  induction hP with
  | leaf v _ _ => simp
  | add v a b p q ho hp _ _ iha ihb =>
    have ea : Edge h v a := by unfold Edge; simp [hp]
    have eb : Edge h v b := by unfold Edge; simp [hp]
    rw [map_add, iha (fun u hu => hval u (Relation.ReflTransGen.head ea hu)),
      ihb (fun u hu => hval u (Relation.ReflTransGen.head eb hu)),
      hval v Relation.ReflTransGen.refl]
    simp [forwardValue, ho, hp]
  | mul v a b p q ho hp _ _ iha ihb =>
    have ea : Edge h v a := by unfold Edge; simp [hp]
    have eb : Edge h v b := by unfold Edge; simp [hp]
    rw [map_mul, iha (fun u hu => hval u (Relation.ReflTransGen.head ea hu)),
      ihb (fun u hu => hval u (Relation.ReflTransGen.head eb hu)),
      hval v Relation.ReflTransGen.refl]
    simp [forwardValue, ho, hp]

theorem getElem?_snoc (h : Heap R) (n : Value R) (v : Nat) :
    (h ++ [n])[v]? = if v < h.length then h[v]? else if v = h.length then some n else none := by
  by_cases h1 : v < h.length
  · rw [List.getElem?_append_left h1, if_pos h1]
  · rw [if_neg h1, List.getElem?_append_right (Nat.le_of_not_lt h1)]
    by_cases h2 : v = h.length
    · rw [if_pos h2, h2]
      simp
    · rw [if_neg h2]
      have : 0 < v - h.length := by omega
      obtain ⟨j, hj⟩ : ∃ j, v - h.length = j + 1 := ⟨v - h.length - 1, by omega⟩
      rw [hj]
      rfl

theorem forwardValue_congr (M : CMath R) {h H : Heap R} {v : Nat}
    (ho : opOf H v = opOf h v) (hp : prevOf H v = prevOf h v)
    (hc : ∀ c ∈ prevOf h v, dataOf H c = dataOf h c) (hd : dataOf H v = dataOf h v) :
    forwardValue M H v = forwardValue M h v := by
  unfold forwardValue
  rw [ho, hp]
  split <;> rename_i hq <;> first
    | (rw [hq] at hc; simp [hc])
    | exact hd

theorem dataOf_snoc_old (h : Heap R) (n : Value R) {v : Nat} (hv : v < h.length) :
    dataOf (h ++ [n]) v = dataOf h v := by
  unfold dataOf
  rw [getElem?_snoc, if_pos hv]

theorem getElem?_snoc_new (h : Heap R) (n : Value R) : (h ++ [n])[h.length]? = some n := by
  rw [getElem?_snoc, if_neg (lt_irrefl _), if_pos rfl]

theorem forwardValue_new_leaf (M : CMath R) (h : Heap R) (n : Value R)
    (ho : n._op = Op.Op_no) : forwardValue M (h ++ [n]) h.length = n.data := by
  unfold forwardValue
  rw [opOf_eq (getElem?_snoc_new h n), prevOf_eq (getElem?_snoc_new h n), ho,
    dataOf_eq (getElem?_snoc_new h n)]

theorem forwardValue_new_add (M : CMath R) (h : Heap R) (n : Value R) {a b : Nat}
    (hp : n._prev = [a, b]) (ho : n._op = Op.Op_add) (la : a < h.length)
    (lb : b < h.length) :
    forwardValue M (h ++ [n]) h.length = dataOf h a + dataOf h b := by
  unfold forwardValue
  rw [opOf_eq (getElem?_snoc_new h n), prevOf_eq (getElem?_snoc_new h n), ho, hp]
  simp only
  rw [dataOf_snoc_old h n la, dataOf_snoc_old h n lb]

theorem forwardValue_new_mul (M : CMath R) (h : Heap R) (n : Value R) {a b : Nat}
    (hp : n._prev = [a, b]) (ho : n._op = Op.Op_mul) (la : a < h.length)
    (lb : b < h.length) :
    forwardValue M (h ++ [n]) h.length = dataOf h a * dataOf h b := by
  unfold forwardValue
  rw [opOf_eq (getElem?_snoc_new h n), prevOf_eq (getElem?_snoc_new h n), ho, hp]
  simp only
  rw [dataOf_snoc_old h n la, dataOf_snoc_old h n lb]

/-- What appending one node with operands in the old heap preserves. -/
theorem built_step (M : CMath R) {h : Heap R} {n : Value R}
    (hop : n._op = Op.Op_add ∨ n._op = Op.Op_mul ∨ n._op = Op.Op_no)
    (hin : ∀ c ∈ n._prev, c < h.length) (har : n._prev.length = arity n._op)
    (hg : n.grad = 0)
    (hv : n.data = forwardValue M (h ++ [n]) h.length)
    (ih : WellFormed h ∧ (∀ v, ∀ c ∈ prevOf h v, c < v) ∧
      (∀ v, opOf h v = Op.Op_add ∨ opOf h v = Op.Op_mul ∨ opOf h v = Op.Op_no) ∧
      (∀ v, gradOf h v = 0) ∧ (∀ v, dataOf h v = forwardValue M h v)) :
    WellFormed (h ++ [n]) ∧ (∀ v, ∀ c ∈ prevOf (h ++ [n]) v, c < v) ∧
      (∀ v, opOf (h ++ [n]) v = Op.Op_add ∨ opOf (h ++ [n]) v = Op.Op_mul ∨
        opOf (h ++ [n]) v = Op.Op_no) ∧
      (∀ v, gradOf (h ++ [n]) v = 0) ∧
      (∀ v, dataOf (h ++ [n]) v = forwardValue M (h ++ [n]) v) := by
  obtain ⟨hwf, hord, hops, hgr, hval⟩ := ih
  have old : ∀ v, v < h.length → (h ++ [n])[v]? = h[v]? := by
    intro v hv
    rw [getElem?_snoc, if_pos hv]
  have new : (h ++ [n])[h.length]? = some n := by
    rw [getElem?_snoc, if_neg (lt_irrefl _), if_pos rfl]
  have out : ∀ v, ¬ v < h.length → v ≠ h.length → (h ++ [n])[v]? = none := by
    intro v h1 h2
    rw [getElem?_snoc, if_neg h1, if_neg h2]
  have hlen : (h ++ [n]).length = h.length + 1 := by simp
  have pold : ∀ v, v < h.length → prevOf (h ++ [n]) v = prevOf h v := by
    intro v hv
    unfold prevOf
    rw [old v hv]
  have oold : ∀ v, v < h.length → opOf (h ++ [n]) v = opOf h v := by
    intro v hv
    unfold opOf
    rw [old v hv]
  have dold : ∀ v, v < h.length → dataOf (h ++ [n]) v = dataOf h v := by
    intro v hv
    unfold dataOf
    rw [old v hv]
  have gold : ∀ v, v < h.length → gradOf (h ++ [n]) v = gradOf h v := by
    intro v hv
    unfold gradOf
    rw [old v hv]
  have cases3 : ∀ v, v < h.length ∨ v = h.length ∨ (¬ v < h.length ∧ v ≠ h.length) := by
    intro v
    omega
  refine ⟨⟨?_, ?_⟩, ?_, ?_, ?_, ?_⟩
  · intro v c hc
    rw [hlen]
    rcases cases3 v with q | q | q
    · rw [pold v q] at hc
      exact Nat.lt_succ_of_lt (hwf.1 v c hc)
    · rw [q, prevOf_eq new] at hc
      exact Nat.lt_succ_of_lt (hin c hc)
    · simp [prevOf, out v q.1 q.2] at hc
  · intro v
    rcases cases3 v with q | q | q
    · rw [pold v q, oold v q]
      exact hwf.2 v
    · rw [q, prevOf_eq new, opOf_eq new]
      exact har
    · simp [prevOf, opOf, out v q.1 q.2, arity]
  · intro v c hc
    rcases cases3 v with q | q | q
    · rw [pold v q] at hc
      exact hord v c hc
    · rw [q, prevOf_eq new] at hc
      rw [q]
      exact hin c hc
    · simp [prevOf, out v q.1 q.2] at hc
  · intro v
    rcases cases3 v with q | q | q
    · rw [oold v q]
      exact hops v
    · rw [q, opOf_eq new]
      exact hop
    · simp [opOf, out v q.1 q.2]
  · intro v
    rcases cases3 v with q | q | q
    · rw [gold v q]
      exact hgr v
    · rw [q, gradOf_eq new]
      exact hg
    · simp [gradOf, out v q.1 q.2]
  · intro v
    rcases cases3 v with q | q | q
    · rw [forwardValue_congr M (oold v q) (pold v q)
        (fun c hc => dold c (lt_trans (hord v c hc) q)) (dold v q), dold v q]
      exact hval v
    · rw [q, dataOf_eq new]
      exact hv
    · simp [forwardValue, dataOf, opOf, prevOf, out v q.1 q.2]

/-- Every heap built by leaves, `operator+` and `operator*` is a well-formed graph
whose operands precede their consumers, with Add, Multiply and leaf nodes only, all
gradients 0, and every node holding the value of its forward rule. -/
theorem built_props (M : CMath R) {h : Heap R} (hb : BuiltAddMul h) :
    WellFormed h ∧ (∀ v, ∀ c ∈ prevOf h v, c < v) ∧
      (∀ v, opOf h v = Op.Op_add ∨ opOf h v = Op.Op_mul ∨ opOf h v = Op.Op_no) ∧
      (∀ v, gradOf h v = 0) ∧ (∀ v, dataOf h v = forwardValue M h v) := by
  induction hb with
  | nil =>
    refine ⟨⟨?_, ?_⟩, ?_, ?_, ?_, ?_⟩ <;> intro v <;>
      simp [prevOf, opOf, gradOf, dataOf, forwardValue, arity]
  | leaf h x _ ih =>
    refine built_step M (Or.inr (Or.inr rfl)) ?_ rfl rfl ?_ ih
    · intro c hc
      exact absurd hc (List.not_mem_nil c)
    · rw [forwardValue_new_leaf M h _ rfl]
  | plus h h2 a b p _ e ih =>
    unfold operator_plus at e
    cases ea : h[a]? with
    | none => rw [ea] at e; simp at e
    | some l =>
      cases eb : h[b]? with
      | none => rw [ea, eb] at e; simp at e
      | some r =>
        rw [ea, eb] at e
        simp only [alloc, Option.some.injEq, Prod.mk.injEq] at e
        rw [← e.1]
        have la := getElem?_lt ea
        have lb := getElem?_lt eb
        refine built_step M (Or.inl rfl) ?_ rfl rfl ?_ ih
        · intro c hc
          simp only [Value.node, List.mem_cons, List.mem_singleton, List.not_mem_nil,
            or_false] at hc
          rcases hc with q | q <;> rw [q] <;> assumption
        · rw [forwardValue_new_add M h _ rfl rfl la lb, dataOf_eq ea, dataOf_eq eb]
          rfl
  | times h h2 a b p _ e ih =>
    unfold operator_times at e
    cases ea : h[a]? with
    | none => rw [ea] at e; simp at e
    | some l =>
      cases eb : h[b]? with
      | none => rw [ea, eb] at e; simp at e
      | some r =>
        rw [ea, eb] at e
        simp only [alloc, Option.some.injEq, Prod.mk.injEq] at e
        rw [← e.1]
        have la := getElem?_lt ea
        have lb := getElem?_lt eb
        refine built_step M (Or.inr (Or.inl rfl)) ?_ rfl rfl ?_ ih
        · intro c hc
          simp only [Value.node, List.mem_cons, List.mem_singleton, List.not_mem_nil,
            or_false] at hc
          rcases hc with q | q <;> rw [q] <;> assumption
        · rw [forwardValue_new_mul M h _ rfl rfl la lb, dataOf_eq ea, dataOf_eq eb]
          rfl

theorem acyclic_of_ordered {h : Heap R} (hord : ∀ v, ∀ c ∈ prevOf h v, c < v) :
    Acyclic h := by
  have htrans : ∀ a b, Relation.TransGen (Edge h) a b → b < a := by
    intro a b t
    induction t with
    | single e => exact hord _ _ e
    | tail _ e ih => exact lt_trans (hord _ _ e) ih
  intro v t
  exact lt_irrefl v (htrans v v t)

/-- On a well-formed acyclic graph whose nodes reachable from the root are leaves,
Add nodes and Multiply nodes, each holding the value its forward rule computes, and
all with gradient 0 beforehand, the root denotes a unique polynomial `P` in the
leaves, and `backward` leaves on every reachable leaf the derivative of `P`. -/
theorem pderiv_of_wellFormed (M : CMath R) (h : Heap R) (root : Nat)
    (hwf : WellFormed h) (hac : Acyclic h) (hr : root < h.length)
    (hops : ∀ v, Reach h root v →
      opOf h v = Op.Op_add ∨ opOf h v = Op.Op_mul ∨ opOf h v = Op.Op_no)
    (hval : ∀ v, Reach h root v → dataOf h v = forwardValue M h v)
    (hzero : ∀ v, Reach h root v → gradOf h v = 0) :
    ∃ h1 P, backward M h root = some h1 ∧ Denotes h root P ∧
      (∀ Q, Denotes h root Q → Q = P) ∧
      MvPolynomial.eval (dataOf h) P = dataOf h root ∧
      ∀ l, Reach h root l → opOf h l = Op.Op_no →
        gradOf h1 l = MvPolynomial.eval (dataOf h) (MvPolynomial.pderiv l P) := by
  obtain ⟨h1, topo, e1, _, hnd, hmem, _, hroot, hrest⟩ := backward_spec M h root hwf hac hr
  have hex : ∀ v, ∃ P, Reach h root v → Denotes h v P := by
    intro v
    by_cases hv : Reach h root v
    · obtain ⟨P, hP⟩ := denotes_exists hwf hac root hops v (reach_lt hwf.1 hr hv) hv
      exact ⟨P, fun _ => hP⟩
    · exact ⟨0, fun q => absurd q hv⟩
  choose Pf hPf using hex
  have hrefl : Reach h root root := Relation.ReflTransGen.refl
  have hvalv : ∀ v, Reach h root v → MvPolynomial.eval (dataOf h) (Pf v) = dataOf h v :=
    fun v hv => denotes_eval M (hPf v hv) (fun u hu => hval u (Relation.ReflTransGen.trans hv hu))
  refine ⟨h1, Pf root, e1, hPf root hrefl, fun Q hQ => denotes_unique hQ (hPf root hrefl),
    hvalv root hrefl, ?_⟩
  intro l hl hlo
  have hU : ∀ m, m ∈ topo.toFinset ↔ Reach h root m := by
    intro m
    rw [List.mem_toFinset]
    exact hmem m
  generalize topo.toFinset = U at hU
  have hsum : ∀ f : Nat → R, (topo.map f).sum = ∑ m in topo.toFinset, f m :=
    fun f => (List.sum_toFinset f hnd).symm
  have hUeq : topo.toFinset = U := by
    ext m
    rw [hU m, List.mem_toFinset]
    exact hmem m
  have hF : ∀ n ∈ U, n ≠ root → gradOf h1 n = ∑ m in U, weight M h m n * gradOf h1 m := by
    intro n hn hne
    have hrn := (hU n).1 hn
    rw [hrest n (reach_lt hwf.1 hr hrn) hne, hzero n hrn, zero_add, hsum, hUeq]
  have hF0 : ∑ m in U, weight M h m root * gradOf h1 m = 0 := by
    apply Finset.sum_eq_zero
    intro m hm
    rw [weight_zero M h, zero_mul]
    intro q
    exact hac root (Relation.TransGen.tail' ((hU m).1 hm) q)
  have hT : ∀ m ∈ U,
      MvPolynomial.eval (dataOf h) (MvPolynomial.pderiv l (Pf m)) =
        (if m = l then 1 else 0) +
          ∑ n in U, weight M h m n *
            MvPolynomial.eval (dataOf h) (MvPolynomial.pderiv l (Pf n)) := by
    intro m hm
    have hrm := (hU m).1 hm
    have hd := hPf m hrm
    have har := hwf.2 m
    rcases hops m hrm with ho | ho | ho
    · rw [ho] at har
      obtain ⟨a, b, hab⟩ := length_two har
      have hra : Reach h root a :=
        Relation.ReflTransGen.tail hrm (by unfold Edge; simp [hab])
      have hrb : Reach h root b :=
        Relation.ReflTransGen.tail hrm (by unfold Edge; simp [hab])
      have hPm : Pf m = Pf a + Pf b :=
        denotes_unique hd (Denotes.add m a b _ _ ho hab (hPf a hra) (hPf b hrb))
      have hml : ¬ m = l := by
        intro q
        rw [q, hlo] at ho
        exact absurd ho (by decide)
      have haU := (hU a).2 hra
      have hbU := (hU b).2 hrb
      rw [hPm, map_add, map_add, if_neg hml, zero_add]
      simp only [weight_pair M hab, coef, ho, add_mul, Finset.sum_add_distrib, ite_mul,
        one_mul, zero_mul, Finset.sum_ite_eq, haU, hbU, if_true]
    · rw [ho] at har
      obtain ⟨a, b, hab⟩ := length_two har
      have hra : Reach h root a :=
        Relation.ReflTransGen.tail hrm (by unfold Edge; simp [hab])
      have hrb : Reach h root b :=
        Relation.ReflTransGen.tail hrm (by unfold Edge; simp [hab])
      have hPm : Pf m = Pf a * Pf b :=
        denotes_unique hd (Denotes.mul m a b _ _ ho hab (hPf a hra) (hPf b hrb))
      have hml : ¬ m = l := by
        intro q
        rw [q, hlo] at ho
        exact absurd ho (by decide)
      have haU := (hU a).2 hra
      have hbU := (hU b).2 hrb
      rw [hPm, MvPolynomial.pderiv_mul, map_add, map_mul, map_mul, hvalv a hra,
        hvalv b hrb, if_neg hml, zero_add]
      simp only [weight_pair M hab, coef, ho, hab, add_mul, Finset.sum_add_distrib, ite_mul,
        zero_mul, Finset.sum_ite_eq, haU, hbU, if_true, List.getD_cons_zero,
        List.getD_cons_succ]
      ring
    · rw [ho] at har
      have hnil : prevOf h m = [] := List.length_eq_zero.1 har
      have hPm : Pf m = MvPolynomial.X m :=
        denotes_unique hd (Denotes.leaf m (reach_lt hwf.1 hr hrm) ho)
      have hz : ∑ n in U, weight M h m n *
          MvPolynomial.eval (dataOf h) (MvPolynomial.pderiv l (Pf n)) = 0 := by
        apply Finset.sum_eq_zero
        intro n _
        rw [weight_zero M h (by rw [hnil]; exact List.not_mem_nil n), zero_mul]
      rw [hz, add_zero, hPm, MvPolynomial.pderiv_X, Pi.single_apply]
      by_cases q : m = l <;> simp [q]
  have hlU := (hU l).2 hl
  have hrU := (hU root).2 hrefl
  have hA : ∑ m in U, gradOf h1 m *
        MvPolynomial.eval (dataOf h) (MvPolynomial.pderiv l (Pf m)) =
      gradOf h1 l + (∑ n in U, gradOf h1 n *
        MvPolynomial.eval (dataOf h) (MvPolynomial.pderiv l (Pf n)) -
        MvPolynomial.eval (dataOf h) (MvPolynomial.pderiv l (Pf root))) := by
    calc ∑ m in U, gradOf h1 m *
          MvPolynomial.eval (dataOf h) (MvPolynomial.pderiv l (Pf m))
        = ∑ m in U, ((if m = l then gradOf h1 m else 0) +
            ∑ n in U, (weight M h m n * gradOf h1 m) *
              MvPolynomial.eval (dataOf h) (MvPolynomial.pderiv l (Pf n))) := by
          apply Finset.sum_congr rfl
          intro m hm
          rw [hT m hm, mul_add, Finset.mul_sum]
          congr 1
          · by_cases q : m = l <;> simp [q]
          · apply Finset.sum_congr rfl
            intro n _
            ring
      _ = gradOf h1 l + ∑ n in U, (∑ m in U, weight M h m n * gradOf h1 m) *
            MvPolynomial.eval (dataOf h) (MvPolynomial.pderiv l (Pf n)) := by
          rw [Finset.sum_add_distrib, Finset.sum_ite_eq', if_pos hlU, Finset.sum_comm]
          congr 1
          apply Finset.sum_congr rfl
          intro n _
          rw [Finset.sum_mul]
      _ = gradOf h1 l + ∑ n in U, (gradOf h1 n *
            MvPolynomial.eval (dataOf h) (MvPolynomial.pderiv l (Pf n)) -
            (if n = root then
              MvPolynomial.eval (dataOf h) (MvPolynomial.pderiv l (Pf n)) else 0)) := by
          congr 1
          apply Finset.sum_congr rfl
          intro n hn
          by_cases q : n = root
          · rw [q, hF0, hroot]
            simp
          · rw [← hF n hn q]
            simp [q]
      _ = _ := by
          rw [Finset.sum_sub_distrib, Finset.sum_ite_eq', if_pos hrU]
  linear_combination -hA

theorem sameGraph_refl (h : Heap R) : SameGraph h h := by
  intro v
  cases e : h[v]? with
  | none => rfl
  | some k => simp [gradOf, e]

end Polynomial

section Contracts

variable {R : Type} [CommRing R]

open Classical in
/-- C1. Gradient accumulation equation of `Value::backward`: on every well-formed
acyclic graph and for every assignment of initial gradients, `root.backward()`
returns, leaves the gradient of the root equal to 1, and leaves on every other node
`n` reachable from the root its initial gradient plus the sum, over every
reachable node `m` and every operand position `i` of `m` holding `n`, of
`coef m i * final_grad m`; with zero initial gradients the node ends with exactly
the sum of those contributions. -/
theorem backward_gradient_equation (M : CMath R) (h : Heap R) (root : Nat)
    (hwf : WellFormed h) (hac : Acyclic h) (hr : root < h.length) :
    ∃ h1, backward M h root = some h1 ∧ gradOf h1 root = 1 ∧
      (∀ n, Reach h root n → n ≠ root →
        gradOf h1 n = gradOf h n +
          ∑ m in (Finset.range h.length).filter (fun m => Reach h root m),
            ∑ i in Finset.range (prevOf h m).length,
              if (prevOf h m)[i]? = some n then coef M h m i * gradOf h1 m else 0) ∧
      ((∀ n, Reach h root n → gradOf h n = 0) → ∀ n, Reach h root n → n ≠ root →
        gradOf h1 n =
          ∑ m in (Finset.range h.length).filter (fun m => Reach h root m),
            ∑ i in Finset.range (prevOf h m).length,
              if (prevOf h m)[i]? = some n then coef M h m i * gradOf h1 m else 0) := by
  obtain ⟨h1, topo, e1, _, hnd, hmem, _, hroot, hrest⟩ := backward_spec M h root hwf hac hr
  have hU : topo.toFinset = (Finset.range h.length).filter (fun m => Reach h root m) := by
    ext m
    simp only [List.mem_toFinset, Finset.mem_filter, Finset.mem_range, hmem]
    exact ⟨fun q => ⟨reach_lt hwf.1 hr q, q⟩, fun q => q.2⟩
  have key : ∀ n, Reach h root n → n ≠ root →
      gradOf h1 n = gradOf h n +
        ∑ m in (Finset.range h.length).filter (fun m => Reach h root m),
          ∑ i in Finset.range (prevOf h m).length,
            if (prevOf h m)[i]? = some n then coef M h m i * gradOf h1 m else 0 := by
    intro n hn hne
    rw [hrest n (reach_lt hwf.1 hr hn) hne, ← hU, List.sum_toFinset _ hnd]
    congr 2
    apply List.map_congr_left
    intro m _
    unfold weight
    rw [Finset.sum_mul]
    apply Finset.sum_congr rfl
    intro i _
    by_cases q : (prevOf h m)[i]? = some n <;> simp [q]
  refine ⟨h1, e1, hroot, key, ?_⟩
  intro hz n hn hne
  rw [key n hn hne, hz n hn, zero_add]

/-- C1, witness: the graph `d = a * b + c` over the reals, with the real power,
exponential and hyperbolic tangent. -/
theorem backward_gradient_equation_witness :
    WellFormed (exampleHeap ℝ) ∧ Acyclic (exampleHeap ℝ) ∧ 4 < (exampleHeap ℝ).length ∧
      ∃ h1, backward (⟨fun x y => x ^ y, Real.exp, Real.tanh⟩ : CMath ℝ) (exampleHeap ℝ) 4
          = some h1 ∧ gradOf h1 4 = 1 :=
  ⟨wellFormed_of_check rfl, acyclic_of_check rfl, by decide,
    (backward_gradient_equation (⟨fun x y => x ^ y, Real.exp, Real.tanh⟩ : CMath ℝ)
      (exampleHeap ℝ) 4 (wellFormed_of_check rfl) (acyclic_of_check rfl) (by decide)).imp
      (fun _ q => ⟨q.1, q.2.1⟩)⟩

/-- C3. Topological order built by `build_topo`: on every acyclic graph with
operand pointers inside the heap, the traversal from any root returns an order
`topo` that contains every node reachable from the root exactly once and no other
node, ends with the root, and lists every node strictly after each of its
operands. `backward` is the sequence of calls of `_backward`, one per element of
`topo.reverse` in that order, each on the heap the previous call left. When
every reachable node has the number of operands of its operation, then for every
reachable node `n` the walk splits as `pre`, `n`, `post` with `n` in neither
part: the calls for `pre` return, then the rule of `n` is invoked, then the calls
for `post` return the result of `backward`; every reachable consumer of `n` is in
`pre`, so its rule has been invoked before; the gradient of `n` at that moment
is already its final one, and the call adds `weight * gradient` to the operands. -/
theorem build_topo_topological (M : CMath R) (h : Heap R) (root : Nat) (hcl : Closed h)
    (hac : Acyclic h) (hr : root < h.length) :
    ∃ topo, topo_of h root = some topo ∧
      (∀ n, Reach h root n → topo.count n = 1) ∧
      (∀ n, n ∈ topo → Reach h root n) ∧
      topo.getLast? = some root ∧
      (∀ n ∈ topo, ∀ c ∈ prevOf h n, c ≠ n ∧ List.Sublist [c, n] topo) ∧
      (∀ n0, h[root]? = some n0 →
        backward M h root = reverse_walk M topo.reverse (h.set root { n0 with grad := 1 })) ∧
      (∀ n, Reach h root n → topo.reverse.count n = 1) ∧
      (∀ m n, Reach h root m → n ∈ prevOf h m → List.Sublist [m, n] topo.reverse) ∧
      (∀ n0, h[root]? = some n0 →
        backward M h root =
          List.foldlM (_backward M) (h.set root { n0 with grad := 1 }) topo.reverse) ∧
      (∀ n0, h[root]? = some n0 →
        (∀ m, Reach h root m → (prevOf h m).length = arity (opOf h m)) →
        ∀ n, Reach h root n → ∃ pre post hpre hmid hfin,
          topo.reverse = pre ++ n :: post ∧ n ∉ pre ∧ n ∉ post ∧
          (∀ m, Reach h root m → n ∈ prevOf h m → m ∈ pre) ∧
          List.foldlM (_backward M) (h.set root { n0 with grad := 1 }) pre = some hpre ∧
          _backward M hpre n = some hmid ∧
          List.foldlM (_backward M) hmid post = some hfin ∧
          backward M h root = some hfin ∧
          gradOf hpre n = gradOf hfin n ∧
          GradStep hpre hmid (fun v => weight M h n v * gradOf hfin n)) := by
  obtain ⟨topo, et, hnd, hmem, hlast, hbef⟩ := topo_of_spec h root hcl hac hr
  have hcount : ∀ n, Reach h root n → topo.count n = 1 :=
    fun n hn => List.count_eq_one_of_mem hnd ((hmem n).2 hn)
  have hself : ∀ m, m ∉ prevOf h m := fun m q => hac m (Relation.TransGen.single q)
  have hwalk : ∀ n0, h[root]? = some n0 →
      backward M h root = reverse_walk M topo.reverse (h.set root { n0 with grad := 1 }) := by
    intro n0 e0
    have hl : (h.set root { n0 with grad := 1 }).length = h.length := List.length_set _ _ _
    have hp : ∀ v, prevOf (h.set root { n0 with grad := 1 }) v = prevOf h v := by
      intro v
      unfold prevOf
      rw [getElem?_set_grad e0]
      cases h[v]? <;> rfl
    simp only [backward, e0]
    rw [topo_of_congr hl hp root, et]
  refine ⟨topo, et, hcount, fun n hn => (hmem n).1 hn, hlast, ?_, hwalk, ?_, ?_, ?_, ?_⟩
  · intro n hn c hc
    refine ⟨?_, hbef n hn c hc⟩
    intro q
    rw [q] at hc
    exact hself n hc
  · intro n hn
    rw [List.count_reverse]
    exact hcount n hn
  · intro m n hm hn
    have := hbef m ((hmem m).2 hm) n hn
    have q := List.Sublist.reverse this
    simpa using q
  · intro n0 e0
    rw [hwalk n0 e0, reverse_walk_eq_foldlM]
  · intro n0 e0 har n hn
    have hset := getElem?_set_grad e0 (1 : R)
    generalize hh0 : h.set root { n0 with grad := 1 } = h0 at hset
    have hl0 : h0.length = h.length := by rw [← hh0, List.length_set]
    have hp0 : ∀ v, prevOf h0 v = prevOf h v := by
      intro v
      unfold prevOf
      rw [hset v]
      cases h[v]? <;> rfl
    have ho0 : ∀ v, opOf h0 v = opOf h v := by
      intro v
      unfold opOf
      rw [hset v]
      cases h[v]? <;> rfl
    have hd0 : ∀ v, dataOf h0 v = dataOf h v := by
      intro v
      unfold dataOf
      rw [hset v]
      cases h[v]? <;> rfl
    have hw0 : ∀ m v, weight M h0 m v = weight M h m v := by
      intro m v
      unfold weight coef
      simp only [hp0, ho0, hd0]
    have hord : List.Pairwise (fun a b => b ∉ prevOf h a) topo := by
      rw [List.pairwise_iff_forall_sublist]
      intro a b hab q
      exact sublist_pair_irrefl hnd hab (hbef a (List.Sublist.subset hab (by simp)) b q)
    have hpw : List.Pairwise (fun a b => a ∉ prevOf h0 b) topo.reverse := by
      rw [List.pairwise_reverse]
      refine List.Pairwise.imp ?_ hord
      intro a b q
      rw [hp0]
      exact q
    have hin : n ∈ topo.reverse := List.mem_reverse.2 ((hmem n).2 hn)
    obtain ⟨pre, post, esplit⟩ := List.append_of_mem hin
    have hndr : (pre ++ n :: post).Nodup := by
      rw [← esplit]
      exact List.nodup_reverse.2 hnd
    have hreach : ∀ m ∈ pre ++ n :: post, Reach h root m := by
      intro m hm
      rw [← esplit] at hm
      exact (hmem m).1 (List.mem_reverse.1 hm)
    rw [esplit] at hpw
    obtain ⟨hpre, hmid, hfin, e1, e2, e3, e4, g, s⟩ := reverse_walk_moment M pre post n h0
      (fun m hm => by rw [hl0]; exact reach_lt hcl hr (hreach m hm))
      (fun m hm => by rw [hp0, ho0]; exact har m (hreach m hm))
      (fun m hm c hc => by rw [hl0]; rw [hp0] at hc; exact hcl m c hc)
      (fun m _ => by rw [hp0]; exact hself m) hpw
    have npre : n ∉ pre := by
      intro q
      have := (List.nodup_append.1 hndr).2.2 q (List.mem_cons_self n post)
      exact this
    have npost : n ∉ post := (List.nodup_cons.1 (List.nodup_append.1 hndr).2.1).1
    refine ⟨pre, post, hpre, hmid, hfin, esplit, npre, npost, ?_, e1, e2, e3, ?_, g, ?_⟩
    · intro m hm hc
      have hmin : m ∈ pre ++ n :: post := by
        rw [← esplit]
        exact List.mem_reverse.2 ((hmem m).2 hm)
      rw [List.pairwise_append, List.pairwise_cons] at hpw
      rcases List.mem_append.1 hmin with q | q
      · exact q
      · rcases List.mem_cons.1 q with q | q
        · rw [q] at hc
          exact absurd hc (hself n)
        · rw [← hp0] at hc
          exact absurd hc (hpw.2.1.1 m q)
    · rw [hwalk n0 e0, hh0, reverse_walk_eq_foldlM, esplit]
      exact e4
    · refine gradStep_congr s ?_
      intro v _
      rw [hw0]

/-- C3, witness: the graph `d = a * b + c` walked from `d`; the product node `a * b`
at index 3 is invoked once, with its final gradient. -/
theorem build_topo_topological_witness :
    Closed (exampleHeap ℝ) ∧ Acyclic (exampleHeap ℝ) ∧ 4 < (exampleHeap ℝ).length ∧
      ∃ topo, topo_of (exampleHeap ℝ) 4 = some topo ∧ topo.getLast? = some 4 ∧
        ∃ pre post hpre hmid hfin, topo.reverse = pre ++ 3 :: post ∧ 3 ∉ pre ∧ 3 ∉ post ∧
          _backward (⟨fun x y => x ^ y, Real.exp, Real.tanh⟩ : CMath ℝ) hpre 3 = some hmid ∧
          backward (⟨fun x y => x ^ y, Real.exp, Real.tanh⟩ : CMath ℝ) (exampleHeap ℝ) 4
            = some hfin ∧
          gradOf hpre 3 = gradOf hfin 3 := by
  obtain ⟨topo, q⟩ :=
    build_topo_topological (⟨fun x y => x ^ y, Real.exp, Real.tanh⟩ : CMath ℝ)
      (exampleHeap ℝ) 4 (closed_of_check rfl) (acyclic_of_check rfl) (by decide)
  obtain ⟨pre, post, hpre, hmid, hfin, r⟩ := q.2.2.2.2.2.2.2.2.2
    (Value.node (2 * (-3) + 10) [3, 2] Op.Op_add) rfl
    (fun m _ => (wellFormed_of_check (rfl : checkWellFormed (exampleHeap ℝ) = true)).2 m) 3
    (Relation.ReflTransGen.single (by simp [Edge, prevOf, exampleHeap, Value.node]))
  exact ⟨closed_of_check rfl, acyclic_of_check rfl, by decide, topo, q.1, q.2.2.2.1,
    pre, post, hpre, hmid, hfin, r.1, r.2.1, r.2.2.1, r.2.2.2.2.2.1, r.2.2.2.2.2.2.2.1,
    r.2.2.2.2.2.2.2.2.1⟩

/-- C2. Gradient equals the partial derivative: for every heap built from leaves
by `operator+` and `operator*` only, whatever its gradients have become since, if
every node reachable from the root has gradient 0, then the root denotes a unique
polynomial `P` in the leaves, `P` evaluates to the root's value, `root.backward()`
returns, and afterwards the gradient of every reachable leaf `l` is the formal
derivative of `P` with respect to `l`, evaluated at the leaves' values. -/
theorem gradient_eq_pderiv (M : CMath R) (h0 h : Heap R) (root : Nat)
    (hb : BuiltAddMul h0) (hs : SameGraph h0 h) (hr : root < h.length)
    (hzero : ∀ v, Reach h root v → gradOf h v = 0) :
    ∃ h1 P, backward M h root = some h1 ∧ Denotes h root P ∧
      (∀ Q, Denotes h root Q → Q = P) ∧
      MvPolynomial.eval (dataOf h) P = dataOf h root ∧
      ∀ l, Reach h root l → opOf h l = Op.Op_no →
        gradOf h1 l = MvPolynomial.eval (dataOf h) (MvPolynomial.pderiv l P) := by
  obtain ⟨hwf, hord, hops, _, hval⟩ := built_props M hb
  refine pderiv_of_wellFormed M h root (sameGraph_wellFormed hs hwf)
    (sameGraph_acyclic hs (acyclic_of_ordered hord)) hr ?_ ?_ hzero
  · intro v _
    rw [sameGraph_opOf hs]
    exact hops v
  · intro v _
    rw [forwardValue_congr M (sameGraph_opOf hs v) (sameGraph_prevOf hs v)
      (fun c _ => sameGraph_dataOf hs c) (sameGraph_dataOf hs v), sameGraph_dataOf hs]
    exact hval v

/-- C2, witness: the graph `d = a * b + c` over the reals, built by three leaf
allocations, one `operator*` and one `operator+`. -/
theorem gradient_eq_pderiv_witness :
    BuiltAddMul (exampleHeap ℝ) ∧ SameGraph (exampleHeap ℝ) (exampleHeap ℝ) ∧
      4 < (exampleHeap ℝ).length ∧
      (∀ v, Reach (exampleHeap ℝ) 4 v → gradOf (exampleHeap ℝ) v = 0) ∧
      ∃ h1 P, backward (⟨fun x y => x ^ y, Real.exp, Real.tanh⟩ : CMath ℝ) (exampleHeap ℝ) 4
          = some h1 ∧ Denotes (exampleHeap ℝ) 4 P ∧
        ∀ l, Reach (exampleHeap ℝ) 4 l → opOf (exampleHeap ℝ) l = Op.Op_no →
          gradOf h1 l = MvPolynomial.eval (dataOf (exampleHeap ℝ)) (MvPolynomial.pderiv l P) := by
  have hb : BuiltAddMul (exampleHeap ℝ) :=
    BuiltAddMul.plus _ _ 3 2 4
      (BuiltAddMul.times _ _ 0 1 3
        (BuiltAddMul.leaf _ 10 (BuiltAddMul.leaf _ (-3) (BuiltAddMul.leaf _ 2 BuiltAddMul.nil)))
        rfl) rfl
  have hzero : ∀ v, Reach (exampleHeap ℝ) 4 v → gradOf (exampleHeap ℝ) v = 0 := by
    intro v _
    rcases v with _ | _ | _ | _ | _ | v <;> simp [gradOf, exampleHeap, Value.leaf, Value.node]
  refine ⟨hb, sameGraph_refl _, by decide, hzero, ?_⟩
  obtain ⟨h1, P, e1, hP, _, _, hg⟩ :=
    gradient_eq_pderiv (⟨fun x y => x ^ y, Real.exp, Real.tanh⟩ : CMath ℝ) (exampleHeap ℝ)
      (exampleHeap ℝ) 4 hb (sameGraph_refl _) (by decide) hzero
  exact ⟨h1, P, e1, hP, hg⟩

end Contracts

section Examples

variable {R : Type} [CommRing R]

/-- One backward pass from `y = x + x`, for a leaf `x` with any prior gradient. -/
theorem fanout_pass (M : CMath R) (H : Heap R) (x y : Nat) (nx ny : Value R)
    (gx : H[x]? = some nx) (gy : H[y]? = some ny) (hxy : x ≠ y)
    (px : nx._prev = []) (ox : nx._op = Op.Op_no)
    (py : ny._prev = [x, x]) (oy : ny._op = Op.Op_add) :
    ∃ h3, backward M H y = some h3 ∧
      h3[x]? = some { nx with grad := nx.grad + 2 } ∧
      h3[y]? = some { ny with grad := 1 } := by
  have lx := getElem?_lt gx
  have ly := getElem?_lt gy
  obtain ⟨k, gl⟩ : ∃ k, H.length = k + 1 := ⟨H.length - 1, by omega⟩
  have et : topo_of H y = some [x, y] := by
    simp only [topo_of, gl]
    rw [build_topo_node H _ _ _ _ gy (List.not_mem_nil _)]
    simp only [py, for_children]
    rw [build_topo_leaf H _ _ _ _ gx px (by simp [hxy])]
    simp only
    rw [build_topo_visited H _ _ _ _ (by simp)]
    rfl
  obtain ⟨h3, e3, hfr, hg⟩ := backward_of_topo M H y ly [x, y] et
    (by simp [lx, ly])
    (by simp [prevOf_eq gx, prevOf_eq gy, opOf_eq gx, opOf_eq gy, px, py, ox, oy, arity])
    (by simp [prevOf_eq gx, prevOf_eq gy, px, py, lx])
    (by simp [prevOf_eq gx, prevOf_eq gy, px, py, hxy.symm])
    (by simp [prevOf_eq gx, prevOf_eq gy, px, py])
  have wx : ∀ n, weight M H x n = 0 := weight_nil M (by rw [prevOf_eq gx]; exact px)
  have wy : ∀ n, weight M H y n = (if x = n then 1 else 0) + (if x = n then 1 else 0) := by
    intro n
    rw [weight_pair M (by rw [prevOf_eq gy]; exact py)]
    simp [coef, opOf_eq gy, oy]
  have g1 : gradOf h3 y = 1 := by
    rw [hg _ ly]
    simp [wx, wy, hxy]
  have g2 : gradOf h3 x = nx.grad + 2 := by
    rw [hg _ lx]
    simp [wx, wy, hxy, g1, gradOf_eq gx]
    norm_num
  refine ⟨h3, e3, ?_, ?_⟩
  · rw [hfr x, gx, g2]
    rfl
  · rw [hfr y, gy, g1]
    rfl

end Examples

section LocalRules

variable {R : Type} [CommRing R]

/-- C8. Fan-out accumulation: for every leaf `x` with gradient 0 and any value, in
any heap, `y = x + x` followed by `y.backward()` leaves `x.gradient = 2`, which is
not 1 (in a ring where `1 ≠ 0`), and `y.gradient = 1`. -/
theorem fanout_accumulation [Nontrivial R] (M : CMath R) (h : Heap R) (x : Nat) (d : R)
    (hx : h[x]? = some (Value.leaf d)) :
    ∃ h2 y, operator_plus h x x = some (h2, y) ∧
      ∃ h3, backward M h2 y = some h3 ∧ gradOf h3 x = 2 ∧ gradOf h3 x ≠ 1 ∧
        gradOf h3 y = 1 := by
  have lx := getElem?_lt hx
  have e1 : operator_plus h x x =
      some (h ++ [Value.node (d + d) [x, x] Op.Op_add], h.length) := by
    simp [operator_plus, hx, alloc, Value.leaf]
  refine ⟨_, _, e1, ?_⟩
  have gx : (h ++ [Value.node (d + d) [x, x] Op.Op_add])[x]? = some (Value.leaf d) := by
    rw [List.getElem?_append_left lx, hx]
  have gy : (h ++ [Value.node (d + d) [x, x] Op.Op_add])[h.length]? =
      some (Value.node (d + d) [x, x] Op.Op_add) := by
    rw [List.getElem?_append_right (le_refl _)]
    simp
  obtain ⟨h3, e3, q1, q2⟩ := fanout_pass M _ x h.length _ _ gx gy (Nat.ne_of_lt lx)
    rfl rfl rfl rfl
  have g2 : gradOf h3 x = 2 := by
    rw [gradOf_eq q1]
    simp [Value.leaf]
  refine ⟨h3, e3, g2, ?_, by rw [gradOf_eq q2]⟩
  rw [g2]
  intro q
  have : (1 : R) = 0 := by linear_combination q
  exact one_ne_zero this

/-- C8, witness: `x = 5` over the reals. -/
theorem fanout_accumulation_witness :
    ([Value.leaf 5] : Heap ℝ)[0]? = some (Value.leaf 5) ∧
      ∃ h2 y, operator_plus ([Value.leaf 5] : Heap ℝ) 0 0 = some (h2, y) ∧
        ∃ h3, backward (⟨fun x y => x ^ y, Real.exp, Real.tanh⟩ : CMath ℝ) h2 y = some h3 ∧
          gradOf h3 0 = 2 ∧ gradOf h3 0 ≠ 1 ∧ gradOf h3 y = 1 :=
  ⟨rfl, fanout_accumulation (⟨fun x y => x ^ y, Real.exp, Real.tanh⟩ : CMath ℝ)
    [Value.leaf 5] 0 5 rfl⟩

/-- C9. Reuse without reset accumulates: for every leaf `x` with gradient 0, in any
heap, with `y = x + x`, calling `y.backward()` twice in succession without zeroing
leaves `x.gradient = 4` and `y.gradient = 1`. -/
theorem reuse_without_reset (M : CMath R) (h : Heap R) (x : Nat) (d : R)
    (hx : h[x]? = some (Value.leaf d)) :
    ∃ h2 y, operator_plus h x x = some (h2, y) ∧
      ∃ h3, backward M h2 y = some h3 ∧
        ∃ h4, backward M h3 y = some h4 ∧ gradOf h4 x = 4 ∧ gradOf h4 y = 1 := by
  have lx := getElem?_lt hx
  have e1 : operator_plus h x x =
      some (h ++ [Value.node (d + d) [x, x] Op.Op_add], h.length) := by
    simp [operator_plus, hx, alloc, Value.leaf]
  refine ⟨_, _, e1, ?_⟩
  have gx : (h ++ [Value.node (d + d) [x, x] Op.Op_add])[x]? = some (Value.leaf d) := by
    rw [List.getElem?_append_left lx, hx]
  have gy : (h ++ [Value.node (d + d) [x, x] Op.Op_add])[h.length]? =
      some (Value.node (d + d) [x, x] Op.Op_add) := by
    rw [List.getElem?_append_right (le_refl _)]
    simp
  obtain ⟨h3, e3, q1, q2⟩ := fanout_pass M _ x h.length _ _ gx gy (Nat.ne_of_lt lx)
    rfl rfl rfl rfl
  obtain ⟨h4, e4, r1, r2⟩ := fanout_pass M h3 x h.length _ _ q1 q2 (Nat.ne_of_lt lx)
    rfl rfl rfl rfl
  refine ⟨h3, e3, h4, e4, ?_, by rw [gradOf_eq r2]⟩
  rw [gradOf_eq r1]
  simp [Value.leaf]
  norm_num

/-- C9, witness: `x = 5` over the reals. -/
theorem reuse_without_reset_witness :
    ([Value.leaf 5] : Heap ℝ)[0]? = some (Value.leaf 5) ∧
      ∃ h2 y, operator_plus ([Value.leaf 5] : Heap ℝ) 0 0 = some (h2, y) ∧
        ∃ h3, backward (⟨fun x y => x ^ y, Real.exp, Real.tanh⟩ : CMath ℝ) h2 y = some h3 ∧
          ∃ h4, backward (⟨fun x y => x ^ y, Real.exp, Real.tanh⟩ : CMath ℝ) h3 y = some h4 ∧
            gradOf h4 0 = 4 ∧ gradOf h4 y = 1 :=
  ⟨rfl, reuse_without_reset (⟨fun x y => x ^ y, Real.exp, Real.tanh⟩ : CMath ℝ)
    [Value.leaf 5] 0 5 rfl⟩

/-- C4. Multiply local rule: for every three distinct leaves `a`, `b`, `c` with
gradient 0 and arbitrary values `x`, `y`, `z`, in any heap, `d = a * b + c` has value
`x * y + z`, and after `d.backward()` the gradients are `a: y`, `b: x`, `c: 1`,
`d: 1`. -/
theorem multiply_local_rule (M : CMath R) (h : Heap R) (a b c : Nat) (x y z : R)
    (ha : h[a]? = some (Value.leaf x)) (hb : h[b]? = some (Value.leaf y))
    (hc : h[c]? = some (Value.leaf z)) (hab : a ≠ b) (hac : a ≠ c) (hbc : b ≠ c) :
    ∃ h1 m, operator_times h a b = some (h1, m) ∧
      ∃ h2 d, operator_plus h1 m c = some (h2, d) ∧ dataOf h2 d = x * y + z ∧
        ∃ h3, backward M h2 d = some h3 ∧
          gradOf h3 a = y ∧ gradOf h3 b = x ∧ gradOf h3 c = 1 ∧ gradOf h3 d = 1 := by
  have la := getElem?_lt ha
  have lb := getElem?_lt hb
  have lc := getElem?_lt hc
  have e1 : operator_times h a b =
      some (h ++ [Value.node (x * y) [a, b] Op.Op_mul], h.length) := by
    simp [operator_times, ha, hb, alloc, Value.leaf]
  refine ⟨_, _, e1, ?_⟩
  have e2 : operator_plus (h ++ [Value.node (x * y) [a, b] Op.Op_mul]) h.length c =
      some (h ++ [Value.node (x * y) [a, b] Op.Op_mul,
        Value.node (x * y + z) [h.length, c] Op.Op_add], h.length + 1) := by
    simp [operator_plus, hc, alloc, Value.leaf, Value.node, List.getElem?_append_left, lc]
  refine ⟨_, _, e2, ?_⟩
  have ga : (h ++ [Value.node (x * y) [a, b] Op.Op_mul,
      Value.node (x * y + z) [h.length, c] Op.Op_add])[a]? = some (Value.leaf x) := by
    rw [List.getElem?_append_left la, ha]
  have gb : (h ++ [Value.node (x * y) [a, b] Op.Op_mul,
      Value.node (x * y + z) [h.length, c] Op.Op_add])[b]? = some (Value.leaf y) := by
    rw [List.getElem?_append_left lb, hb]
  have gc : (h ++ [Value.node (x * y) [a, b] Op.Op_mul,
      Value.node (x * y + z) [h.length, c] Op.Op_add])[c]? = some (Value.leaf z) := by
    rw [List.getElem?_append_left lc, hc]
  have gm : (h ++ [Value.node (x * y) [a, b] Op.Op_mul,
      Value.node (x * y + z) [h.length, c] Op.Op_add])[h.length]? =
      some (Value.node (x * y) [a, b] Op.Op_mul) := by
    rw [List.getElem?_append_right (le_refl _)]
    simp
  have gd : (h ++ [Value.node (x * y) [a, b] Op.Op_mul,
      Value.node (x * y + z) [h.length, c] Op.Op_add])[h.length + 1]? =
      some (Value.node (x * y + z) [h.length, c] Op.Op_add) := by
    rw [List.getElem?_append_right (Nat.le_succ _)]
    simp
  have gl : (h ++ [Value.node (x * y) [a, b] Op.Op_mul,
      Value.node (x * y + z) [h.length, c] Op.Op_add]).length = h.length + 2 := by
    simp
  generalize h ++ [Value.node (x * y) [a, b] Op.Op_mul,
      Value.node (x * y + z) [h.length, c] Op.Op_add] = H at ga gb gc gm gd gl
  generalize hm : h.length = m at *
  generalize hd : m + 1 = d at *
  have nam : a ≠ m := by omega
  have nbm : b ≠ m := by omega
  have ncm : c ≠ m := by omega
  have nad : a ≠ d := by omega
  have nbd : b ≠ d := by omega
  have ncd : c ≠ d := by omega
  have nmd : m ≠ d := by omega
  have et : topo_of H d = some [a, b, m, c, d] := by
    simp only [topo_of, gl]
    rw [build_topo_node H _ _ _ _ gd (List.not_mem_nil _)]
    simp only [Value.node, for_children]
    rw [build_topo_node H _ _ _ _ gm (by simp [nmd])]
    simp only [for_children]
    rw [build_topo_leaf H _ _ _ _ ga rfl (by simp [nam, nad])]
    simp only
    rw [build_topo_leaf H _ _ _ _ gb rfl (by simp [nbm, nbd, hab.symm])]
    simp only
    rw [build_topo_leaf H _ _ _ _ gc rfl (by simp [ncm, ncd, hac.symm, hbc.symm])]
    rfl
  have pa : prevOf H a = [] := prevOf_eq ga
  have pb : prevOf H b = [] := prevOf_eq gb
  have pc : prevOf H c = [] := prevOf_eq gc
  have pm : prevOf H m = [a, b] := prevOf_eq gm
  have pd : prevOf H d = [m, c] := prevOf_eq gd
  obtain ⟨h3, e3, _, hg⟩ := backward_of_topo M H d (by omega) [a, b, m, c, d] et
    (by simp; omega)
    (by simp [pa, pb, pc, pm, pd, opOf_eq ga, opOf_eq gb, opOf_eq gc, opOf_eq gm,
      opOf_eq gd, Value.leaf, Value.node, arity])
    (by simp [pa, pb, pc, pm, pd]; omega)
    (by simp [pa, pb, pc, pm, pd, nam.symm, nbm.symm, nmd.symm, ncd.symm])
    (by simp [pa, pb, pc, pm, pd, hab.symm, hac.symm, hbc.symm, nam.symm, nbm.symm,
      ncm.symm, nad.symm, nbd.symm, ncd.symm, nmd.symm, nam, nbm, ncm])
  have wa : ∀ n, weight M H a n = 0 := weight_nil M pa
  have wb : ∀ n, weight M H b n = 0 := weight_nil M pb
  have wc : ∀ n, weight M H c n = 0 := weight_nil M pc
  have wm : ∀ n, weight M H m n = (if a = n then y else 0) + (if b = n then x else 0) := by
    intro n
    rw [weight_pair M pm]
    simp [coef, opOf_eq gm, pm, dataOf_eq ga, dataOf_eq gb, Value.node, Value.leaf]
  have wd : ∀ n, weight M H d n = (if m = n then 1 else 0) + (if c = n then 1 else 0) := by
    intro n
    rw [weight_pair M pd]
    simp [coef, opOf_eq gd, Value.node]
  have g1 : gradOf h3 d = 1 := by
    rw [hg _ (by omega)]
    simp [wa, wb, wc, wm, wd, nad, nbd, ncd, nmd]
  have g2 : gradOf h3 m = 1 := by
    rw [hg _ (by omega)]
    simp [wa, wb, wc, wm, wd, nam, nbm, ncm, nmd, g1, gradOf_eq gm, Value.node]
  have g3 : gradOf h3 c = 1 := by
    rw [hg _ (by omega)]
    simp [wa, wb, wc, wm, wd, hac, hbc, ncm.symm, ncd, g1, gradOf_eq gc, Value.leaf]
  have g4 : gradOf h3 a = y := by
    rw [hg _ (by omega)]
    simp [wa, wb, wc, wm, wd, hab.symm, hac.symm, nam.symm, nad, g2, gradOf_eq ga,
      Value.leaf]
  have g5 : gradOf h3 b = x := by
    rw [hg _ (by omega)]
    simp [wa, wb, wc, wm, wd, hab, hbc.symm, nbm.symm, nbd, g2, gradOf_eq gb, Value.leaf]
  exact ⟨by rw [dataOf_eq gd]; rfl, h3, e3, g4, g5, g3, g1⟩

/-- C4, witness: `a = 2`, `b = -3`, `c = 10` over the reals gives `d.value = 4`,
`a.gradient = -3`, `b.gradient = 2`, `c.gradient = 1`. -/
theorem multiply_local_rule_witness :
    (([Value.leaf 2, Value.leaf (-3), Value.leaf 10] : Heap ℝ)[0]? = some (Value.leaf (2 : ℝ)) ∧
      ([Value.leaf 2, Value.leaf (-3), Value.leaf 10] : Heap ℝ)[1]? = some (Value.leaf (-3 : ℝ)) ∧
      ([Value.leaf 2, Value.leaf (-3), Value.leaf 10] : Heap ℝ)[2]? = some (Value.leaf (10 : ℝ)) ∧
      (0 : Nat) ≠ 1 ∧ (0 : Nat) ≠ 2 ∧ (1 : Nat) ≠ 2) ∧
    ∃ h1 m, operator_times ([Value.leaf 2, Value.leaf (-3), Value.leaf 10] : Heap ℝ) 0 1
        = some (h1, m) ∧
      ∃ h2 d, operator_plus h1 m 2 = some (h2, d) ∧ dataOf h2 d = 4 ∧
        ∃ h3, backward (⟨fun x y => x ^ y, Real.exp, Real.tanh⟩ : CMath ℝ) h2 d = some h3 ∧
          gradOf h3 0 = -3 ∧ gradOf h3 1 = 2 ∧ gradOf h3 2 = 1 := by
  refine ⟨⟨rfl, rfl, rfl, by decide, by decide, by decide⟩, ?_⟩
  obtain ⟨h1, m, e1, h2, d, e2, hv, h3, e3, g1, g2, g3, _⟩ :=
    multiply_local_rule (⟨fun x y => x ^ y, Real.exp, Real.tanh⟩ : CMath ℝ)
      [Value.leaf 2, Value.leaf (-3), Value.leaf 10] 0 1 2 2 (-3) 10 rfl rfl rfl
      (by decide) (by decide) (by decide)
  exact ⟨h1, m, e1, h2, d, e2, by rw [hv]; norm_num, h3, e3, g1, g2, g3⟩

/-- C5. Power local rule: for every leaf `a` with gradient 0 and value `x`, in any
heap, and every exponent `y`, `s = a.pow(y)` has value `pow(x, y)`, and after
`s.backward()` the gradient of `a` is `y * pow(x, y - 1)`. -/
theorem power_local_rule (M : CMath R) (h : Heap R) (a : Nat) (x y : R)
    (ha : h[a]? = some (Value.leaf x)) :
    ∃ h2 s, pow M h a y = some (h2, s) ∧ dataOf h2 s = M.pow x y ∧
      ∃ h3, backward M h2 s = some h3 ∧ gradOf h3 a = y * M.pow x (y - 1) := by
  have la := getElem?_lt ha
  have e1 : pow M h a y = some (h ++ [Value.leaf y,
      Value.node (M.pow x y) [a, h.length] Op.Op_pow], h.length + 1) := by
    simp [pow, ha, alloc, Value.leaf]
  refine ⟨_, _, e1, ?_⟩
  have ga : (h ++ [Value.leaf y,
      Value.node (M.pow x y) [a, h.length] Op.Op_pow])[a]? = some (Value.leaf x) := by
    rw [List.getElem?_append_left la, ha]
  have ge : (h ++ [Value.leaf y,
      Value.node (M.pow x y) [a, h.length] Op.Op_pow])[h.length]? = some (Value.leaf y) := by
    rw [List.getElem?_append_right (le_refl _)]
    simp
  have gs : (h ++ [Value.leaf y,
      Value.node (M.pow x y) [a, h.length] Op.Op_pow])[h.length + 1]? =
      some (Value.node (M.pow x y) [a, h.length] Op.Op_pow) := by
    rw [List.getElem?_append_right (Nat.le_succ _)]
    simp
  have gl : (h ++ [Value.leaf y,
      Value.node (M.pow x y) [a, h.length] Op.Op_pow]).length = h.length + 2 := by
    simp
  generalize h ++ [Value.leaf y,
      Value.node (M.pow x y) [a, h.length] Op.Op_pow] = H at ga ge gs gl
  generalize hm : h.length = e at *
  generalize hd : e + 1 = s at *
  have nae : a ≠ e := by omega
  have nas : a ≠ s := by omega
  have nes : e ≠ s := by omega
  have et : topo_of H s = some [a, e, s] := by
    simp only [topo_of, gl]
    rw [build_topo_node H _ _ _ _ gs (List.not_mem_nil _)]
    simp only [Value.node, for_children]
    rw [build_topo_leaf H _ _ _ _ ga rfl (by simp [nas])]
    simp only
    rw [build_topo_leaf H _ _ _ _ ge rfl (by simp [nes, nae.symm])]
    rfl
  have pa : prevOf H a = [] := prevOf_eq ga
  have pe : prevOf H e = [] := prevOf_eq ge
  have ps : prevOf H s = [a, e] := prevOf_eq gs
  obtain ⟨h3, e3, _, hg⟩ := backward_of_topo M H s (by omega) [a, e, s] et
    (by simp; omega)
    (by simp [pa, pe, ps, opOf_eq ga, opOf_eq ge, opOf_eq gs, Value.leaf, Value.node, arity])
    (by simp [pa, pe, ps]; omega)
    (by simp [pa, pe, ps, nas.symm, nes.symm])
    (by simp [pa, pe, ps, nae.symm, nas.symm, nes.symm])
  have wa : ∀ n, weight M H a n = 0 := weight_nil M pa
  have we : ∀ n, weight M H e n = 0 := weight_nil M pe
  have ws : ∀ n, weight M H s n = (if a = n then y * M.pow x (y - 1) else 0) := by
    intro n
    rw [weight_pair M ps]
    simp [coef, opOf_eq gs, ps, dataOf_eq ga, dataOf_eq ge, Value.node, Value.leaf]
  have g1 : gradOf h3 s = 1 := by
    rw [hg _ (by omega)]
    simp [wa, we, ws, nas]
  have g2 : gradOf h3 a = y * M.pow x (y - 1) := by
    rw [hg _ (by omega)]
    simp [wa, we, ws, nas, g1, gradOf_eq ga, Value.leaf]
  exact ⟨by rw [dataOf_eq gs]; rfl, h3, e3, g2⟩

/-- C5, witness: `a = 3`, `y = 2` with the real power function gives `s.value = 9`
and `a.gradient = 6`. -/
theorem power_local_rule_witness :
    ([Value.leaf 3] : Heap ℝ)[0]? = some (Value.leaf 3) ∧
      ∃ h2 s, pow (⟨fun x y => x ^ y, Real.exp, Real.tanh⟩ : CMath ℝ) [Value.leaf 3] 0 2
          = some (h2, s) ∧ dataOf h2 s = 9 ∧
        ∃ h3, backward (⟨fun x y => x ^ y, Real.exp, Real.tanh⟩ : CMath ℝ) h2 s = some h3 ∧
          gradOf h3 0 = 6 := by
  refine ⟨rfl, ?_⟩
  obtain ⟨h2, s, e1, hv, h3, e3, g⟩ :=
    power_local_rule (⟨fun x y => x ^ y, Real.exp, Real.tanh⟩ : CMath ℝ)
      [Value.leaf 3] 0 3 2 rfl
  refine ⟨h2, s, e1, ?_, h3, e3, ?_⟩
  · rw [hv]
    norm_num
  · rw [g]
    norm_num

/-- C6. Exp local rule: for every leaf `a` with gradient 0 and value `x`, in any
heap, `e = a.exp()` has value `exp(x)`, and after `e.backward()` the gradient of `a`
is the value cached in `e`. -/
theorem exp_local_rule (M : CMath R) (h : Heap R) (a : Nat) (x : R)
    (ha : h[a]? = some (Value.leaf x)) :
    ∃ h2 e, exp M h a = some (h2, e) ∧ dataOf h2 e = M.exp x ∧
      ∃ h3, backward M h2 e = some h3 ∧ gradOf h3 a = dataOf h3 e ∧
        gradOf h3 a = M.exp x := by
  have la := getElem?_lt ha
  have e1 : exp M h a = some (h ++ [Value.node (M.exp x) [a] Op.Op_exp], h.length) := by
    simp [exp, ha, alloc, Value.leaf]
  refine ⟨_, _, e1, ?_⟩
  have ga : (h ++ [Value.node (M.exp x) [a] Op.Op_exp])[a]? = some (Value.leaf x) := by
    rw [List.getElem?_append_left la, ha]
  have ge : (h ++ [Value.node (M.exp x) [a] Op.Op_exp])[h.length]? =
      some (Value.node (M.exp x) [a] Op.Op_exp) := by
    rw [List.getElem?_append_right (le_refl _)]
    simp
  have gl : (h ++ [Value.node (M.exp x) [a] Op.Op_exp]).length = h.length + 1 := by
    simp
  generalize h ++ [Value.node (M.exp x) [a] Op.Op_exp] = H at ga ge gl
  generalize hm : h.length = e at *
  have nae : a ≠ e := by omega
  have et : topo_of H e = some [a, e] := by
    simp only [topo_of, gl]
    rw [build_topo_node H _ _ _ _ ge (List.not_mem_nil _)]
    simp only [Value.node, for_children]
    rw [build_topo_leaf H _ _ _ _ ga rfl (by simp [nae])]
    rfl
  have pa : prevOf H a = [] := prevOf_eq ga
  have pe : prevOf H e = [a] := prevOf_eq ge
  obtain ⟨h3, e3, hfr, hg⟩ := backward_of_topo M H e (by omega) [a, e] et
    (by simp; omega)
    (by simp [pa, pe, opOf_eq ga, opOf_eq ge, Value.leaf, Value.node, arity])
    (by simp [pa, pe]; omega)
    (by simp [pa, pe, nae.symm])
    (by simp [pa, pe, nae.symm])
  have wa : ∀ n, weight M H a n = 0 := weight_nil M pa
  have we : ∀ n, weight M H e n = (if a = n then M.exp x else 0) := by
    intro n
    rw [weight_one M pe]
    simp [coef, opOf_eq ge, dataOf_eq ge, Value.node]
  have g1 : gradOf h3 e = 1 := by
    rw [hg _ (by omega)]
    simp [wa, we, nae]
  have g2 : gradOf h3 a = M.exp x := by
    rw [hg _ (by omega)]
    simp [wa, we, nae, g1, gradOf_eq ga, Value.leaf]
  have d3 : dataOf h3 e = M.exp x := by
    unfold dataOf
    rw [hfr e, ge]
    rfl
  exact ⟨by rw [dataOf_eq ge]; rfl, h3, e3, by rw [g2, d3], g2⟩

/-- C6, witness: `a = 0` with the real exponential gives `e.value = 1` and
`a.gradient = 1`. -/
theorem exp_local_rule_witness :
    ([Value.leaf 0] : Heap ℝ)[0]? = some (Value.leaf 0) ∧
      ∃ h2 e, exp (⟨fun x y => x ^ y, Real.exp, Real.tanh⟩ : CMath ℝ) [Value.leaf 0] 0
          = some (h2, e) ∧ dataOf h2 e = 1 ∧
        ∃ h3, backward (⟨fun x y => x ^ y, Real.exp, Real.tanh⟩ : CMath ℝ) h2 e = some h3 ∧
          gradOf h3 0 = 1 := by
  refine ⟨rfl, ?_⟩
  obtain ⟨h2, e, e1, hv, h3, e3, _, g⟩ :=
    exp_local_rule (⟨fun x y => x ^ y, Real.exp, Real.tanh⟩ : CMath ℝ)
      [Value.leaf 0] 0 0 rfl
  refine ⟨h2, e, e1, ?_, h3, e3, ?_⟩
  · rw [hv]
    exact Real.exp_zero
  · rw [g]
    exact Real.exp_zero

/-- C7. Tanh local rule: for every leaf `a` with gradient 0 and value `x`, in any
heap, `t = a.tanh()` has value `tanh(x)`, and after `t.backward()` the gradient of
`a` is `1 - pow(t.value, 2)`, which is `1 - t.value ^ 2` when `pow(v, 2)` is the
square of `v`. -/
theorem tanh_local_rule (M : CMath R) (h : Heap R) (a : Nat) (x : R)
    (ha : h[a]? = some (Value.leaf x)) :
    ∃ h2 t, tanh M h a = some (h2, t) ∧ dataOf h2 t = M.tanh x ∧
      ∃ h3, backward M h2 t = some h3 ∧ dataOf h3 t = M.tanh x ∧
        gradOf h3 a = 1 - M.pow (dataOf h3 t) 2 ∧
        (M.pow (M.tanh x) 2 = M.tanh x ^ 2 → gradOf h3 a = 1 - dataOf h3 t ^ 2) := by
  have la := getElem?_lt ha
  have e1 : tanh M h a = some (h ++ [Value.node (M.tanh x) [a] Op.Op_tanh], h.length) := by
    simp [tanh, ha, alloc, Value.leaf]
  refine ⟨_, _, e1, ?_⟩
  have ga : (h ++ [Value.node (M.tanh x) [a] Op.Op_tanh])[a]? = some (Value.leaf x) := by
    rw [List.getElem?_append_left la, ha]
  have ge : (h ++ [Value.node (M.tanh x) [a] Op.Op_tanh])[h.length]? =
      some (Value.node (M.tanh x) [a] Op.Op_tanh) := by
    rw [List.getElem?_append_right (le_refl _)]
    simp
  have gl : (h ++ [Value.node (M.tanh x) [a] Op.Op_tanh]).length = h.length + 1 := by
    simp
  generalize h ++ [Value.node (M.tanh x) [a] Op.Op_tanh] = H at ga ge gl
  generalize hm : h.length = e at *
  have nae : a ≠ e := by omega
  have et : topo_of H e = some [a, e] := by
    simp only [topo_of, gl]
    rw [build_topo_node H _ _ _ _ ge (List.not_mem_nil _)]
    simp only [Value.node, for_children]
    rw [build_topo_leaf H _ _ _ _ ga rfl (by simp [nae])]
    rfl
  have pa : prevOf H a = [] := prevOf_eq ga
  have pe : prevOf H e = [a] := prevOf_eq ge
  obtain ⟨h3, e3, hfr, hg⟩ := backward_of_topo M H e (by omega) [a, e] et
    (by simp; omega)
    (by simp [pa, pe, opOf_eq ga, opOf_eq ge, Value.leaf, Value.node, arity])
    (by simp [pa, pe]; omega)
    (by simp [pa, pe, nae.symm])
    (by simp [pa, pe, nae.symm])
  have wa : ∀ n, weight M H a n = 0 := weight_nil M pa
  have we : ∀ n, weight M H e n = (if a = n then 1 - M.pow (M.tanh x) 2 else 0) := by
    intro n
    rw [weight_one M pe]
    simp [coef, opOf_eq ge, dataOf_eq ge, Value.node]
  have g1 : gradOf h3 e = 1 := by
    rw [hg _ (by omega)]
    simp [wa, we, nae]
  have g2 : gradOf h3 a = 1 - M.pow (M.tanh x) 2 := by
    rw [hg _ (by omega)]
    simp [wa, we, nae, g1, gradOf_eq ga, Value.leaf]
  have d3 : dataOf h3 e = M.tanh x := by
    unfold dataOf
    rw [hfr e, ge]
    rfl
  refine ⟨by rw [dataOf_eq ge]; rfl, h3, e3, d3, by rw [g2, d3], ?_⟩
  intro hsq
  rw [g2, d3, hsq]

/-- C7, witness: `a = 0` with the real hyperbolic tangent and power gives
`t.value = 0` and `a.gradient = 1`. -/
theorem tanh_local_rule_witness :
    ([Value.leaf 0] : Heap ℝ)[0]? = some (Value.leaf 0) ∧
      ∃ h2 t, tanh (⟨fun x y => x ^ y, Real.exp, Real.tanh⟩ : CMath ℝ) [Value.leaf 0] 0
          = some (h2, t) ∧ dataOf h2 t = 0 ∧
        ∃ h3, backward (⟨fun x y => x ^ y, Real.exp, Real.tanh⟩ : CMath ℝ) h2 t = some h3 ∧
          gradOf h3 0 = 1 := by
  refine ⟨rfl, ?_⟩
  obtain ⟨h2, t, e1, hv, h3, e3, hd, g, _⟩ :=
    tanh_local_rule (⟨fun x y => x ^ y, Real.exp, Real.tanh⟩ : CMath ℝ)
      [Value.leaf 0] 0 0 rfl
  refine ⟨h2, t, e1, ?_, h3, e3, ?_⟩
  · rw [hv]
    exact Real.tanh_zero
  · rw [g, hd]
    simp [Real.tanh_zero]

/-- C10, counterexample: on `x` leaf, `y = x + x`, `z = y + y` (all gradients 0),
two calls of `z.backward()` leave `x.gradient = 12`, while one call leaves 4: the
second pass does not double the gradient of `x`. The graph has only Add nodes, so
no `<cmath>` function is called. -/
theorem double_backward_counterexample :
    WellFormed ([Value.leaf 5, Value.node 10 [0, 0] Op.Op_add,
        Value.node 20 [1, 1] Op.Op_add] : Heap ℤ) ∧
      Acyclic ([Value.leaf 5, Value.node 10 [0, 0] Op.Op_add,
        Value.node 20 [1, 1] Op.Op_add] : Heap ℤ) ∧
      Reach ([Value.leaf 5, Value.node 10 [0, 0] Op.Op_add,
        Value.node 20 [1, 1] Op.Op_add] : Heap ℤ) 2 0 ∧
      (∀ n, gradOf ([Value.leaf 5, Value.node 10 [0, 0] Op.Op_add,
        Value.node 20 [1, 1] Op.Op_add] : Heap ℤ) n = 0) ∧
      ∃ h1 h2,
        backward (⟨fun _ _ => 0, fun _ => 0, fun _ => 0⟩ : CMath ℤ)
          [Value.leaf 5, Value.node 10 [0, 0] Op.Op_add, Value.node 20 [1, 1] Op.Op_add] 2
          = some h1 ∧
        backward (⟨fun _ _ => 0, fun _ => 0, fun _ => 0⟩ : CMath ℤ) h1 2 = some h2 ∧
        gradOf h1 0 = 4 ∧ gradOf h2 0 = 12 ∧ gradOf h2 0 ≠ 2 * gradOf h1 0 := by
  refine ⟨wellFormed_of_check rfl, acyclic_of_check rfl, ?_, ?_, ?_⟩
  · have e1 : Edge ([Value.leaf 5, Value.node 10 [0, 0] Op.Op_add,
        Value.node 20 [1, 1] Op.Op_add] : Heap ℤ) 2 1 := by
      unfold Edge
      decide
    have e2 : Edge ([Value.leaf 5, Value.node 10 [0, 0] Op.Op_add,
        Value.node 20 [1, 1] Op.Op_add] : Heap ℤ) 1 0 := by
      unfold Edge
      decide
    exact Relation.ReflTransGen.tail (Relation.ReflTransGen.single e1) e2
  · intro n
    rcases n with _ | _ | _ | n <;> rfl
  · exact ⟨[⟨5, 4, [], Op.Op_no⟩, ⟨10, 2, [0, 0], Op.Op_add⟩, ⟨20, 1, [1, 1], Op.Op_add⟩],
      [⟨5, 12, [], Op.Op_no⟩, ⟨10, 4, [0, 0], Op.Op_add⟩, ⟨20, 1, [1, 1], Op.Op_add⟩],
      by decide, by decide, by decide, by decide, by decide⟩

open Classical in
/-- C10, amended. Re-invoking `backward` adds a second contribution: on every
well-formed acyclic graph whose reachable nodes all have gradient 0, two calls of
`root.backward()` in succession both return; afterwards the root has gradient 1 and
every other reachable node `n` has its first-pass gradient plus the sum, over the
reachable consumers `m` and operand positions `i` holding `n`, of `coef m i` times
the second-pass gradient of `m`; this is exactly twice the first-pass gradient for
every node whose only reachable consumer is the root. -/
theorem double_backward (M : CMath R) (h : Heap R) (root : Nat)
    (hwf : WellFormed h) (hac : Acyclic h) (hr : root < h.length)
    (hzero : ∀ n, Reach h root n → gradOf h n = 0) :
    ∃ h1 h2, backward M h root = some h1 ∧ backward M h1 root = some h2 ∧
      gradOf h2 root = 1 ∧
      (∀ n, Reach h root n → n ≠ root →
        gradOf h2 n = gradOf h1 n +
          ∑ m in (Finset.range h.length).filter (fun m => Reach h root m),
            ∑ i in Finset.range (prevOf h m).length,
              if (prevOf h m)[i]? = some n then coef M h m i * gradOf h2 m else 0) ∧
      (∀ n, Reach h root n → n ≠ root →
        (∀ m, Reach h root m → n ∈ prevOf h m → m = root) →
        gradOf h2 n = 2 * gradOf h1 n) := by
  obtain ⟨h1, topo, e1, et, hnd, hmem, hfr, hroot1, hrest1⟩ :=
    backward_spec M h root hwf hac hr
  have hs : SameGraph h h1 := hfr
  have hl1 := sameGraph_length hs
  obtain ⟨h2, topo2, e2, et2, _, _, _, hroot2, hrest2⟩ :=
    backward_spec M h1 root (sameGraph_wellFormed hs hwf) (sameGraph_acyclic hs hac)
      (hl1 ▸ hr)
  have htopo : topo2 = topo := by
    rw [sameGraph_topo_of hs, et] at et2
    exact (Option.some.inj et2).symm
  subst htopo
  have hU : topo2.toFinset = (Finset.range h.length).filter (fun m => Reach h root m) := by
    ext m
    simp only [List.mem_toFinset, Finset.mem_filter, Finset.mem_range, hmem]
    exact ⟨fun q => ⟨reach_lt hwf.1 hr q, q⟩, fun q => q.2⟩
  have hrefl : Reach h root root := Relation.ReflTransGen.refl
  refine ⟨h1, h2, e1, e2, hroot2, ?_, ?_⟩
  · intro n hn hne
    rw [hrest2 n (hl1 ▸ reach_lt hwf.1 hr hn) hne, ← hU, List.sum_toFinset _ hnd]
    congr 2
    apply List.map_congr_left
    intro m _
    rw [sameGraph_weight M hs]
    unfold weight
    rw [Finset.sum_mul]
    apply Finset.sum_congr rfl
    intro i _
    by_cases q : (prevOf h m)[i]? = some n <;> simp [q]
  · intro n hn hne honly
    have hz : ∀ (G : Nat → R), ∀ m ∈ topo2, m ≠ root → weight M h m n * G m = 0 := by
      intro G m hm hmr
      rw [weight_zero M h, zero_mul]
      intro q
      exact hmr (honly m ((hmem m).1 hm) q)
    have hrt : root ∈ topo2 := (hmem root).2 hrefl
    have f1 : gradOf h1 n = weight M h root n := by
      rw [hrest1 n (reach_lt hwf.1 hr hn) hne, hzero n hn, zero_add,
        sum_map_single hnd hrt (hz (gradOf h1)), hroot1, mul_one]
    have f2 : gradOf h2 n = gradOf h1 n + weight M h root n := by
      rw [hrest2 n (hl1 ▸ reach_lt hwf.1 hr hn) hne]
      congr 1
      have : (topo2.map (fun m => weight M h1 m n * gradOf h2 m)).sum =
          (topo2.map (fun m => weight M h m n * gradOf h2 m)).sum := by
        congr 1
        apply List.map_congr_left
        intro m _
        rw [sameGraph_weight M hs]
      rw [this, sum_map_single hnd hrt (hz (gradOf h2)), hroot2, mul_one]
    rw [f2, ← f1]
    ring

/-- C10, witness: the graph `d = a * b + c` over the reals. -/
theorem double_backward_witness :
    WellFormed (exampleHeap ℝ) ∧ Acyclic (exampleHeap ℝ) ∧ 4 < (exampleHeap ℝ).length ∧
      (∀ n, Reach (exampleHeap ℝ) 4 n → gradOf (exampleHeap ℝ) n = 0) ∧
      ∃ h1 h2,
        backward (⟨fun x y => x ^ y, Real.exp, Real.tanh⟩ : CMath ℝ) (exampleHeap ℝ) 4
          = some h1 ∧
        backward (⟨fun x y => x ^ y, Real.exp, Real.tanh⟩ : CMath ℝ) h1 4 = some h2 ∧
        gradOf h2 4 = 1 := by
  have hzero : ∀ n, Reach (exampleHeap ℝ) 4 n → gradOf (exampleHeap ℝ) n = 0 := by
    intro n _
    rcases n with _ | _ | _ | _ | _ | n <;> simp [gradOf, exampleHeap, Value.leaf, Value.node]
  refine ⟨wellFormed_of_check rfl, acyclic_of_check rfl, by decide, hzero, ?_⟩
  obtain ⟨h1, h2, e1, e2, g, _⟩ :=
    double_backward (⟨fun x y => x ^ y, Real.exp, Real.tanh⟩ : CMath ℝ) (exampleHeap ℝ) 4
      (wellFormed_of_check rfl) (acyclic_of_check rfl) (by decide) hzero
  exact ⟨h1, h2, e1, e2, g⟩

end LocalRules

section Extend

variable {R : Type} [CommRing R]

theorem prevOf_snoc_old (h : Heap R) (n : Value R) {v : Nat} (hv : v < h.length) :
    prevOf (h ++ [n]) v = prevOf h v := by
  unfold prevOf
  rw [getElem?_snoc, if_pos hv]

theorem opOf_snoc_old (h : Heap R) (n : Value R) {v : Nat} (hv : v < h.length) :
    opOf (h ++ [n]) v = opOf h v := by
  unfold opOf
  rw [getElem?_snoc, if_pos hv]

theorem gradOf_snoc_old (h : Heap R) (n : Value R) {v : Nat} (hv : v < h.length) :
    gradOf (h ++ [n]) v = gradOf h v := by
  unfold gradOf
  rw [getElem?_snoc, if_pos hv]

theorem prevOf_snoc_out (h : Heap R) (n : Value R) {v : Nat} (hv : h.length < v) :
    prevOf (h ++ [n]) v = [] := by
  apply prevOf_nil_of_ge
  simp
  omega

theorem wellFormed_snoc {h : Heap R} {n : Value R} (hwf : WellFormed h)
    (hin : ∀ c ∈ n._prev, c < h.length) (har : n._prev.length = arity n._op) :
    WellFormed (h ++ [n]) := by
  have hlen : (h ++ [n]).length = h.length + 1 := by simp
  have cases3 : ∀ v, v < h.length ∨ v = h.length ∨ h.length < v := by
    intro v
    omega
  constructor
  · intro v c hc
    rw [hlen]
    rcases cases3 v with q | q | q
    · rw [prevOf_snoc_old h n q] at hc
      exact Nat.lt_succ_of_lt (hwf.1 v c hc)
    · rw [q, prevOf_eq (getElem?_snoc_new h n)] at hc
      exact Nat.lt_succ_of_lt (hin c hc)
    · rw [prevOf_snoc_out h n q] at hc
      exact absurd hc (List.not_mem_nil c)
  · intro v
    rcases cases3 v with q | q | q
    · rw [prevOf_snoc_old h n q, opOf_snoc_old h n q]
      exact hwf.2 v
    · rw [q, prevOf_eq (getElem?_snoc_new h n), opOf_eq (getElem?_snoc_new h n)]
      exact har
    · rw [prevOf_snoc_out h n q, opOf_of_ge (by simp; omega)]
      rfl

theorem edge_lt {h : Heap R} {v c : Nat} (e : Edge h v c) : v < h.length := by
  by_contra q
  unfold Edge at e
  rw [prevOf_nil_of_ge (Nat.le_of_not_lt q)] at e
  exact absurd e (List.not_mem_nil c)

theorem reach_snoc_old {h : Heap R} (n : Value R) (hcl : Closed h) {x : Nat}
    (hx : x < h.length) (y : Nat) : Reach (h ++ [n]) x y ↔ Reach h x y := by
  constructor
  · intro r
    induction r with
    | refl => exact Relation.ReflTransGen.refl
    | tail _ e ih =>
      refine Relation.ReflTransGen.tail ih ?_
      unfold Edge at e ⊢
      rw [prevOf_snoc_old h n (reach_lt hcl hx ih)] at e
      exact e
  · intro r
    induction r with
    | refl => exact Relation.ReflTransGen.refl
    | tail _ e ih =>
      refine Relation.ReflTransGen.tail ih ?_
      have hl := edge_lt e
      unfold Edge at e ⊢
      rw [prevOf_snoc_old h n hl]
      exact e

theorem acyclic_snoc {h : Heap R} {n : Value R} (hcl : Closed h) (hac : Acyclic h)
    (hin : ∀ c ∈ n._prev, c < h.length) : Acyclic (h ++ [n]) := by
  intro v t
  obtain ⟨b, e, r⟩ := Relation.TransGen.head'_iff.1 t
  have cases3 : v < h.length ∨ v = h.length ∨ h.length < v := by omega
  rcases cases3 with q | q | q
  · have e1 : Edge h v b := by
      unfold Edge at e ⊢
      rw [prevOf_snoc_old h n q] at e
      exact e
    have r1 : Reach h b v := (reach_snoc_old n hcl (hcl v b e1) v).1 r
    exact hac v (Relation.TransGen.head' e1 r1)
  · have hb : b < h.length := by
      unfold Edge at e
      rw [q, prevOf_eq (getElem?_snoc_new h n)] at e
      exact hin b e
    have r1 : Reach h b v := (reach_snoc_old n hcl hb v).1 r
    have := reach_lt hcl hb r1
    omega
  · unfold Edge at e
    rw [prevOf_snoc_out h n q] at e
    exact absurd e (List.not_mem_nil b)

/-- After `backward`, a node whose only reachable consumer is the root holds its
prior gradient plus the root's weight for it. -/
theorem sole_consumer_gradient (M : CMath R) (H : Heap R) (root : Nat)
    (hwf : WellFormed H) (hac : Acyclic H) (hr : root < H.length) :
    ∃ h3, backward M H root = some h3 ∧ gradOf h3 root = 1 ∧
      ∀ n, n < H.length → n ≠ root →
        (∀ m, Reach H root m → n ∈ prevOf H m → m = root) →
        gradOf h3 n = gradOf H n + weight M H root n := by
  obtain ⟨h3, topo, e3, _, hnd, hmem, _, hroot, hrest⟩ := backward_spec M H root hwf hac hr
  refine ⟨h3, e3, hroot, ?_⟩
  intro n hn hne honly
  have hrt : root ∈ topo := (hmem root).2 Relation.ReflTransGen.refl
  rw [hrest n hn hne, sum_map_single hnd hrt, hroot, mul_one]
  intro m hm hmr
  rw [weight_zero M H, zero_mul]
  intro q
  exact hmr (honly m ((hmem m).1 hm) q)

end Extend

section Derived

variable {R : Type} [CommRing R]

/-- C12. Leaf root edge case: for every leaf `r` (operation `Op_no`, no operands)
with any prior gradient, in any heap, `r.backward()` builds the one-element order
`[r]`, returns the heap in which only the gradient of `r` has changed, to 1, and so
changes no field of any other node. -/
theorem leaf_root_backward (M : CMath R) (h : Heap R) (r : Nat) (n : Value R)
    (hr : h[r]? = some n) (hp : n._prev = []) (ho : n._op = Op.Op_no) :
    topo_of (h.set r { n with grad := 1 }) r = some [r] ∧
      backward M h r = some (h.set r { n with grad := 1 }) ∧
      gradOf (h.set r { n with grad := 1 }) r = 1 ∧
      dataOf (h.set r { n with grad := 1 }) r = n.data ∧
      prevOf (h.set r { n with grad := 1 }) r = [] ∧
      opOf (h.set r { n with grad := 1 }) r = Op.Op_no ∧
      ∀ v, v ≠ r → (h.set r { n with grad := 1 })[v]? = h[v]? := by
  have lr := getElem?_lt hr
  have g1 : (h.set r { n with grad := 1 })[r]? = some { n with grad := 1 } :=
    List.getElem?_set_self lr
  have et : topo_of (h.set r { n with grad := 1 }) r = some [r] := by
    simp only [topo_of]
    rw [build_topo_leaf _ _ _ _ _ g1 hp (List.not_mem_nil _)]
    rfl
  refine ⟨et, ?_, by rw [gradOf_eq g1], by rw [dataOf_eq g1], ?_, ?_, ?_⟩
  · have eb : _backward M (h.set r { n with grad := 1 }) r =
        some (h.set r { n with grad := 1 }) := by
      unfold _backward
      rw [g1]
      simp only [ho]
    simp only [backward, hr]
    rw [et]
    simp only [List.reverse_cons, List.reverse_nil, List.nil_append, reverse_walk]
    rw [eb]
  · rw [prevOf_eq g1]
    exact hp
  · rw [opOf_eq g1]
    exact ho
  · intro v hv
    exact List.getElem?_set_ne (fun q => hv q.symm)

/-- C12, witness: a single leaf with prior gradient 7 over the reals. -/
theorem leaf_root_backward_witness :
    ([⟨3, 7, [], Op.Op_no⟩] : Heap ℝ)[0]? = some (⟨3, 7, [], Op.Op_no⟩ : Value ℝ) ∧
      backward (⟨fun x y => x ^ y, Real.exp, Real.tanh⟩ : CMath ℝ)
        ([⟨3, 7, [], Op.Op_no⟩] : Heap ℝ) 0 = some [⟨3, 1, [], Op.Op_no⟩] :=
  ⟨rfl, (leaf_root_backward (⟨fun x y => x ^ y, Real.exp, Real.tanh⟩ : CMath ℝ)
    [⟨3, 7, [], Op.Op_no⟩] 0 ⟨3, 7, [], Op.Op_no⟩ rfl rfl rfl).2.1⟩

/-- C20. Aliased operands of Multiply: for every leaf `x` with gradient 0 and value
`d`, in any heap, `y = x * x` has value `d * d = d ^ 2`, and after `y.backward()` the
gradient of `x` is `2 * d`: both updates of `_backward_mul` land on `x`, each with
the unaltered value `d`. -/
theorem aliased_multiply (M : CMath R) (h : Heap R) (x : Nat) (d : R)
    (hx : h[x]? = some (Value.leaf d)) :
    ∃ h2 y, operator_times h x x = some (h2, y) ∧ dataOf h2 y = d ^ 2 ∧
      ∃ h3, backward M h2 y = some h3 ∧ gradOf h3 x = 2 * d ∧ gradOf h3 y = 1 ∧
        dataOf h3 x = d := by
  have lx := getElem?_lt hx
  have e1 : operator_times h x x =
      some (h ++ [Value.node (d * d) [x, x] Op.Op_mul], h.length) := by
    simp [operator_times, hx, alloc, Value.leaf]
  refine ⟨_, _, e1, ?_⟩
  have gx : (h ++ [Value.node (d * d) [x, x] Op.Op_mul])[x]? = some (Value.leaf d) := by
    rw [List.getElem?_append_left lx, hx]
  have gy : (h ++ [Value.node (d * d) [x, x] Op.Op_mul])[h.length]? =
      some (Value.node (d * d) [x, x] Op.Op_mul) := by
    rw [List.getElem?_append_right (le_refl _)]
    simp
  have gl : (h ++ [Value.node (d * d) [x, x] Op.Op_mul]).length = h.length + 1 := by simp
  generalize h ++ [Value.node (d * d) [x, x] Op.Op_mul] = H at gx gy gl
  generalize hm : h.length = y at *
  have hxy : x ≠ y := by omega
  have et : topo_of H y = some [x, y] := by
    simp only [topo_of, gl]
    rw [build_topo_node H _ _ _ _ gy (List.not_mem_nil _)]
    simp only [Value.node, for_children]
    rw [build_topo_leaf H _ _ _ _ gx rfl (by simp [hxy])]
    simp only
    rw [build_topo_visited H _ _ _ _ (by simp)]
    rfl
  have px : prevOf H x = [] := prevOf_eq gx
  have py : prevOf H y = [x, x] := prevOf_eq gy
  obtain ⟨h3, e3, hfr, hg⟩ := backward_of_topo M H y (by omega) [x, y] et
    (by simp; omega)
    (by simp [px, py, opOf_eq gx, opOf_eq gy, Value.leaf, Value.node, arity])
    (by simp [px, py]; omega)
    (by simp [px, py, hxy.symm])
    (by simp [px, py])
  have wx : ∀ n, weight M H x n = 0 := weight_nil M px
  have wy : ∀ n, weight M H y n = (if x = n then d else 0) + (if x = n then d else 0) := by
    intro n
    rw [weight_pair M py]
    simp [coef, opOf_eq gy, py, dataOf_eq gx, Value.node, Value.leaf]
  have g1 : gradOf h3 y = 1 := by
    rw [hg _ (by omega)]
    simp [wx, wy, hxy]
  have g2 : gradOf h3 x = 2 * d := by
    rw [hg _ (by omega)]
    simp [wx, wy, hxy, g1, gradOf_eq gx, Value.leaf]
    ring
  have d3 : dataOf h3 x = d := by
    unfold dataOf
    rw [hfr x, gx]
    rfl
  refine ⟨?_, h3, e3, g2, g1, d3⟩
  rw [dataOf_eq gy]
  simp [Value.node, pow_two]

/-- C20, witness: `x = 3` over the reals gives `y.value = 9` and `x.gradient = 6`. -/
theorem aliased_multiply_witness :
    ([Value.leaf 3] : Heap ℝ)[0]? = some (Value.leaf (3 : ℝ)) ∧
      ∃ h2 y, operator_times ([Value.leaf 3] : Heap ℝ) 0 0 = some (h2, y) ∧
        dataOf h2 y = 9 ∧
        ∃ h3, backward (⟨fun x y => x ^ y, Real.exp, Real.tanh⟩ : CMath ℝ) h2 y = some h3 ∧
          gradOf h3 0 = 6 := by
  refine ⟨rfl, ?_⟩
  obtain ⟨h2, y, e1, hv, h3, e3, g, _⟩ :=
    aliased_multiply (⟨fun x y => x ^ y, Real.exp, Real.tanh⟩ : CMath ℝ)
      [Value.leaf 3] 0 3 rfl
  refine ⟨h2, y, e1, ?_, h3, e3, ?_⟩
  · rw [hv]
    norm_num
  · rw [g]
    norm_num

/-- C18. Frame of the backward pass: on every well-formed acyclic graph, for every
root and every initial gradients, `root.backward()` returns a heap of the same
size in which every node has its former value, operation tag and operand list, and
every node that is not reachable from the root is unchanged in all its fields. -/
theorem backward_frame (M : CMath R) (h : Heap R) (root : Nat)
    (hwf : WellFormed h) (hac : Acyclic h) (hr : root < h.length) :
    ∃ h1, backward M h root = some h1 ∧ h1.length = h.length ∧
      (∀ v, dataOf h1 v = dataOf h v ∧ opOf h1 v = opOf h v ∧ prevOf h1 v = prevOf h v) ∧
      (∀ v, ¬ Reach h root v → h1[v]? = h[v]?) := by
  obtain ⟨h1, topo, e1, _, _, hmem, hfr, _, hrest⟩ := backward_spec M h root hwf hac hr
  have hs : SameGraph h h1 := hfr
  refine ⟨h1, e1, sameGraph_length hs,
    fun v => ⟨sameGraph_dataOf hs v, sameGraph_opOf hs v, sameGraph_prevOf hs v⟩, ?_⟩
  intro v hv
  rw [hfr v]
  cases ev : h[v]? with
  | none => rfl
  | some k =>
    have hne : v ≠ root := by
      intro q
      rw [q] at hv
      exact hv Relation.ReflTransGen.refl
    have hg : gradOf h1 v = k.grad := by
      rw [hrest v (getElem?_lt ev) hne, sum_map_zero, add_zero, gradOf_eq ev]
      intro m hm
      rw [weight_zero M h, zero_mul]
      intro q
      exact hv (Relation.ReflTransGen.tail ((hmem m).1 hm) q)
    simp [hg]

/-- C18, witness: backward from the product node (index 3) of the graph
`d = a * b + c`, which reaches neither `c` nor `d`. -/
theorem backward_frame_witness :
    WellFormed (exampleHeap ℝ) ∧ Acyclic (exampleHeap ℝ) ∧ 3 < (exampleHeap ℝ).length ∧
      ∃ h1, backward (⟨fun x y => x ^ y, Real.exp, Real.tanh⟩ : CMath ℝ) (exampleHeap ℝ) 3
          = some h1 ∧ h1.length = (exampleHeap ℝ).length :=
  ⟨wellFormed_of_check rfl, acyclic_of_check rfl, by decide,
    (backward_frame (⟨fun x y => x ^ y, Real.exp, Real.tanh⟩ : CMath ℝ)
      (exampleHeap ℝ) 3 (wellFormed_of_check rfl) (acyclic_of_check rfl) (by decide)).imp
      (fun _ q => ⟨q.1, q.2.1⟩)⟩

/-- C11, counterexample: with `a` and `b` the same leaf `x`, `c = x + x` and
`c.backward()` leave `x.gradient = 2` and `c.gradient = 1`: the gradients are not
equal. -/
theorem add_backward_symmetry_counterexample :
    gradOf ([Value.leaf 5] : Heap ℤ) 0 = 0 ∧
      ∃ h2 c h3, operator_plus ([Value.leaf 5] : Heap ℤ) 0 0 = some (h2, c) ∧
        backward (⟨fun _ _ => 0, fun _ => 0, fun _ => 0⟩ : CMath ℤ) h2 c = some h3 ∧
        gradOf h3 0 = 2 ∧ gradOf h3 c = 1 ∧ gradOf h3 0 ≠ gradOf h3 c :=
  ⟨rfl, [Value.leaf 5, Value.node 10 [0, 0] Op.Op_add], 1,
    [⟨5, 2, [], Op.Op_no⟩, ⟨10, 1, [0, 0], Op.Op_add⟩],
    by decide, by decide, by decide, by decide, by decide⟩

/-- C11, amended. Add backward symmetry: on every well-formed acyclic graph, for
every two nodes `a` and `b` with gradient 0 neither of which is reachable from the
other through operand links (so `a ≠ b`; two distinct leaves for instance), with
`c = a + b`, after `c.backward()` the three gradients are equal to 1. -/
theorem add_backward_symmetry (M : CMath R) (h : Heap R) (a b : Nat)
    (hwf : WellFormed h) (hac : Acyclic h) (ha : a < h.length) (hb : b < h.length)
    (ga : gradOf h a = 0) (gb : gradOf h b = 0)
    (hab : ¬ Reach h a b) (hba : ¬ Reach h b a) :
    ∃ h2 c, operator_plus h a b = some (h2, c) ∧
      ∃ h3, backward M h2 c = some h3 ∧
        gradOf h3 a = 1 ∧ gradOf h3 b = 1 ∧ gradOf h3 c = 1 := by
  obtain ⟨na, ea⟩ := exists_node ha
  obtain ⟨nb, eb⟩ := exists_node hb
  have e1 : operator_plus h a b =
      some (h ++ [Value.node (na.data + nb.data) [a, b] Op.Op_add], h.length) := by
    simp [operator_plus, ea, eb, alloc]
  refine ⟨_, _, e1, ?_⟩
  have hin : ∀ c ∈ (Value.node (na.data + nb.data) [a, b] Op.Op_add)._prev,
      c < h.length := by
    intro c hc
    simp only [Value.node, List.mem_cons, List.mem_singleton, List.not_mem_nil,
      or_false] at hc
    rcases hc with q | q <;> rw [q] <;> assumption
  have hwfH := wellFormed_snoc (n := Value.node (na.data + nb.data) [a, b] Op.Op_add)
    hwf hin rfl
  have hacH := acyclic_snoc (n := Value.node (na.data + nb.data) [a, b] Op.Op_add)
    hwf.1 hac hin
  have gc := getElem?_snoc_new h (Value.node (na.data + nb.data) [a, b] Op.Op_add)
  have pc : prevOf (h ++ [Value.node (na.data + nb.data) [a, b] Op.Op_add]) h.length =
      [a, b] := prevOf_eq gc
  have hlen : (h ++ [Value.node (na.data + nb.data) [a, b] Op.Op_add]).length =
      h.length + 1 := by simp
  have hne : a ≠ b := by
    intro q
    rw [q] at hab
    exact hab Relation.ReflTransGen.refl
  obtain ⟨h3, e3, hroot, hsole⟩ := sole_consumer_gradient M _ h.length hwfH hacH
    (by rw [hlen]; omega)
  have wc : ∀ n, weight M (h ++ [Value.node (na.data + nb.data) [a, b] Op.Op_add])
      h.length n = (if a = n then 1 else 0) + (if b = n then 1 else 0) := by
    intro n
    have oc : opOf (h ++ [Value.node (na.data + nb.data) [a, b] Op.Op_add]) h.length =
        Op.Op_add := opOf_eq gc
    rw [weight_pair M pc]
    simp [coef, oc]
  have honly : ∀ (t o : Nat), t < h.length → o < h.length →
      (t = a ∧ o = b ∨ t = b ∧ o = a) → ¬ Reach h o t →
      ∀ m, Reach (h ++ [Value.node (na.data + nb.data) [a, b] Op.Op_add]) h.length m →
        t ∈ prevOf (h ++ [Value.node (na.data + nb.data) [a, b] Op.Op_add]) m →
        m = h.length := by
    intro t o ht ho hto hot m hm hmem
    by_contra hmc
    rcases Relation.ReflTransGen.cases_head hm with q | ⟨x, ex, rx⟩
    · exact hmc q.symm
    · have hx : x = a ∨ x = b := by
        unfold Edge at ex
        rw [pc] at ex
        simpa using ex
      have hxl : x < h.length := by
        rcases hx with q | q <;> rw [q] <;> assumption
      have rx1 : Reach h x m := (reach_snoc_old _ hwf.1 hxl m).1 rx
      have hml := reach_lt hwf.1 hxl rx1
      rw [prevOf_snoc_old h _ hml] at hmem
      have hxt : x = t ∨ x = o := by
        rcases hto with ⟨q1, q2⟩ | ⟨q1, q2⟩ <;> rcases hx with q | q <;> simp [q, q1, q2]
      rcases hxt with q | q
      · rw [q] at rx1
        exact hac t (Relation.TransGen.tail' rx1 hmem)
      · rw [q] at rx1
        exact hot (Relation.ReflTransGen.tail rx1 hmem)
  have g1 : gradOf h3 a = 1 := by
    rw [hsole a (by rw [hlen]; omega) (by omega)
      (honly a b ha hb (Or.inl ⟨rfl, rfl⟩) hba), gradOf_snoc_old h _ ha, ga, wc]
    simp [hne.symm]
  have g2 : gradOf h3 b = 1 := by
    rw [hsole b (by rw [hlen]; omega) (by omega)
      (honly b a hb ha (Or.inr ⟨rfl, rfl⟩) hab), gradOf_snoc_old h _ hb, gb, wc]
    simp [hne]
  exact ⟨h3, e3, g1, g2, hroot⟩

/-- C11, witness: the leaves `a` and `b` of the graph `d = a * b + c`. -/
theorem add_backward_symmetry_witness :
    WellFormed (exampleHeap ℝ) ∧ Acyclic (exampleHeap ℝ) ∧
      0 < (exampleHeap ℝ).length ∧ 1 < (exampleHeap ℝ).length ∧
      gradOf (exampleHeap ℝ) 0 = 0 ∧ gradOf (exampleHeap ℝ) 1 = 0 ∧
      ¬ Reach (exampleHeap ℝ) 0 1 ∧ ¬ Reach (exampleHeap ℝ) 1 0 ∧
      ∃ h2 c, operator_plus (exampleHeap ℝ) 0 1 = some (h2, c) ∧
        ∃ h3, backward (⟨fun x y => x ^ y, Real.exp, Real.tanh⟩ : CMath ℝ) h2 c = some h3 ∧
          gradOf h3 0 = 1 ∧ gradOf h3 1 = 1 ∧ gradOf h3 c = 1 := by
  have leafReach : ∀ x y, prevOf (exampleHeap ℝ) x = [] → x ≠ y →
      ¬ Reach (exampleHeap ℝ) x y := by
    intro x y hp hxy r
    rcases Relation.ReflTransGen.cases_head r with q | ⟨z, ez, _⟩
    · exact hxy q
    · unfold Edge at ez
      rw [hp] at ez
      exact absurd ez (List.not_mem_nil z)
  have h01 := leafReach 0 1 rfl (by decide)
  have h10 := leafReach 1 0 rfl (by decide)
  have g0 : gradOf (exampleHeap ℝ) 0 = 0 := rfl
  have g1 : gradOf (exampleHeap ℝ) 1 = 0 := rfl
  exact ⟨wellFormed_of_check rfl, acyclic_of_check rfl, by decide, by decide, g0, g1,
    h01, h10,
    add_backward_symmetry (⟨fun x y => x ^ y, Real.exp, Real.tanh⟩ : CMath ℝ)
      (exampleHeap ℝ) 0 1 (wellFormed_of_check rfl) (acyclic_of_check rfl) (by decide)
      (by decide) g0 g1 h01 h10⟩

/-- C15. Literal-first operand order: for every node `a` and literal `l`, `l + a`
and `l * a` are the very calls `a + l` and `a * l`; each returns a node whose
value is `a.value + l` (resp. `a.value * l`), whose operand 0 is `a` and whose
operand 1 is a fresh leaf with value `l` and gradient 0, all former nodes being
unchanged; hence running backward from either leaves the same heap, and the same
gradient on `a`. -/
theorem literal_first_same (M : CMath R) (h : Heap R) (a : Nat) (l : R) (na : Value R)
    (ha : h[a]? = some na) :
    operator_plus_l h l a = operator_plus_r h a l ∧
      operator_times_l h l a = operator_times_r h a l ∧
      operator_plus_l h l a = some (h ++ [Value.leaf l,
        Value.node (na.data + l) [a, h.length] Op.Op_add], h.length + 1) ∧
      operator_times_l h l a = some (h ++ [Value.leaf l,
        Value.node (na.data * l) [a, h.length] Op.Op_mul], h.length + 1) ∧
      h[h.length]? = none ∧
      (∀ q1 q2, operator_plus_l h l a = some q1 → operator_plus_r h a l = some q2 →
        q1 = q2 ∧ backward M q1.1 q1.2 = backward M q2.1 q2.2 ∧
        (backward M q1.1 q1.2).map (fun h3 => gradOf h3 a) =
          (backward M q2.1 q2.2).map (fun h3 => gradOf h3 a)) ∧
      (∀ q1 q2, operator_times_l h l a = some q1 → operator_times_r h a l = some q2 →
        q1 = q2 ∧ backward M q1.1 q1.2 = backward M q2.1 q2.2 ∧
        (backward M q1.1 q1.2).map (fun h3 => gradOf h3 a) =
          (backward M q2.1 q2.2).map (fun h3 => gradOf h3 a)) := by
  have la := getElem?_lt ha
  have g1 : (h ++ [Value.leaf l])[a]? = some na := by
    rw [List.getElem?_append_left la, ha]
  have g2 : (h ++ [Value.leaf l])[h.length]? = some (Value.leaf l) :=
    getElem?_snoc_new h _
  have e1 : operator_plus_r h a l = some (h ++ [Value.leaf l,
      Value.node (na.data + l) [a, h.length] Op.Op_add], h.length + 1) := by
    simp only [operator_plus_r, alloc, operator_plus, g1, g2]
    simp [Value.leaf]
  have e2 : operator_times_r h a l = some (h ++ [Value.leaf l,
      Value.node (na.data * l) [a, h.length] Op.Op_mul], h.length + 1) := by
    simp only [operator_times_r, alloc, operator_times, g1, g2]
    simp [Value.leaf]
  refine ⟨rfl, rfl, e1, e2, List.getElem?_eq_none (le_refl _), ?_, ?_⟩
  · intro q1 q2 h1 h2
    have : q1 = q2 := Option.some.inj (h1.symm.trans h2)
    subst this
    exact ⟨rfl, rfl, rfl⟩
  · intro q1 q2 h1 h2
    have : q1 = q2 := Option.some.inj (h1.symm.trans h2)
    subst this
    exact ⟨rfl, rfl, rfl⟩

/-- C15, witness: `a = 3` and the literal 2 over the reals. -/
theorem literal_first_same_witness :
    ([Value.leaf 3] : Heap ℝ)[0]? = some (Value.leaf (3 : ℝ)) ∧
      operator_plus_l ([Value.leaf 3] : Heap ℝ) 2 0 =
        operator_plus_r ([Value.leaf 3] : Heap ℝ) 0 2 ∧
      operator_times_l ([Value.leaf 3] : Heap ℝ) 2 0 =
        operator_times_r ([Value.leaf 3] : Heap ℝ) 0 2 :=
  ⟨rfl, (literal_first_same (⟨fun x y => x ^ y, Real.exp, Real.tanh⟩ : CMath ℝ)
      [Value.leaf 3] 0 2 (Value.leaf 3) rfl).1,
    (literal_first_same (⟨fun x y => x ^ y, Real.exp, Real.tanh⟩ : CMath ℝ)
      [Value.leaf 3] 0 2 (Value.leaf 3) rfl).2.1⟩

/-- C17, counterexample: with `a = 3` and `s = a.pow(2)`, the exponent leaf sits at
index 1 and is reachable as `s->_prev[1]`; for the root `r = s + s->_prev[1]`, from
which `s` is reachable, `r.backward()` leaves gradient 1 on the exponent leaf. -/
theorem exponent_gradient_counterexample :
    ∃ h2 s h3 r h4,
      pow (⟨fun x y => x ^ y.toNat, fun _ => 0, fun _ => 0⟩ : CMath ℤ) [Value.leaf 3] 0 2
        = some (h2, s) ∧
      prevOf h2 s = [0, 1] ∧ h2[1]? = some (Value.leaf 2) ∧
      operator_plus h2 s 1 = some (h3, r) ∧ Reach h3 r s ∧
      backward (⟨fun x y => x ^ y.toNat, fun _ => 0, fun _ => 0⟩ : CMath ℤ) h3 r
        = some h4 ∧
      gradOf h4 1 = 1 ∧ gradOf h4 1 ≠ 0 := by
  refine ⟨[Value.leaf 3, Value.leaf 2, Value.node 9 [0, 1] Op.Op_pow], 2,
    [Value.leaf 3, Value.leaf 2, Value.node 9 [0, 1] Op.Op_pow,
      Value.node 11 [2, 1] Op.Op_add], 3,
    [⟨3, 6, [], Op.Op_no⟩, ⟨2, 1, [], Op.Op_no⟩, ⟨9, 1, [0, 1], Op.Op_pow⟩,
      ⟨11, 1, [2, 1], Op.Op_add⟩],
    by decide, by decide, by decide, by decide, ?_, by decide, by decide, by decide⟩
  have e : Edge ([Value.leaf 3, Value.leaf 2, Value.node 9 [0, 1] Op.Op_pow,
      Value.node 11 [2, 1] Op.Op_add] : Heap ℤ) 3 2 := by
    unfold Edge
    decide
  exact Relation.ReflTransGen.single e

/-- C17, amended. The Power exponent operand receives no gradient from its Power
node: for every node `a` and exponent `y`, `s = a.pow(y)` has as operand 1 a fresh
leaf with value `y` and gradient 0; and in every later well-formed acyclic heap in
which that leaf is unchanged and `s` is still that Power node, after a backward
pass from any root from which `s` is reachable and under which `s` is the only
consumer of the leaf, the gradient of the leaf is still 0. -/
theorem exponent_no_gradient (M : CMath R) (h : Heap R) (a : Nat) (y : R) (na : Value R)
    (ha : h[a]? = some na) :
    ∃ h2 s, pow M h a y = some (h2, s) ∧ h[h.length]? = none ∧
      prevOf h2 s = [a, h.length] ∧ opOf h2 s = Op.Op_pow ∧
      h2[h.length]? = some (Value.leaf y) ∧
      ∀ (H : Heap R) (root : Nat), WellFormed H → Acyclic H →
        H[h.length]? = some (Value.leaf y) → prevOf H s = [a, h.length] →
        opOf H s = Op.Op_pow → Reach H root s →
        (∀ m, Reach H root m → h.length ∈ prevOf H m → m = s) →
        ∃ h3, backward M H root = some h3 ∧ gradOf h3 h.length = 0 := by
  have la := getElem?_lt ha
  have e1 : pow M h a y = some (h ++ [Value.leaf y,
      Value.node (M.pow na.data y) [a, h.length] Op.Op_pow], h.length + 1) := by
    simp [pow, ha, alloc]
  have ge : (h ++ [Value.leaf y,
      Value.node (M.pow na.data y) [a, h.length] Op.Op_pow])[h.length]? =
      some (Value.leaf y) := by
    rw [List.getElem?_append_right (le_refl _)]
    simp
  have gs : (h ++ [Value.leaf y,
      Value.node (M.pow na.data y) [a, h.length] Op.Op_pow])[h.length + 1]? =
      some (Value.node (M.pow na.data y) [a, h.length] Op.Op_pow) := by
    rw [List.getElem?_append_right (Nat.le_succ _)]
    simp
  refine ⟨_, _, e1, List.getElem?_eq_none (le_refl _), prevOf_eq gs, opOf_eq gs, ge, ?_⟩
  intro H root hwf hac Ge ps os hrs honly
  have pe : prevOf H h.length = [] := prevOf_eq Ge
  have le := getElem?_lt Ge
  have ls : h.length + 1 < H.length :=
    edge_lt (c := a) (by unfold Edge; rw [ps]; simp)
  have hroot : root < H.length := by
    rcases Relation.ReflTransGen.cases_head hrs with q | ⟨x, ex, _⟩
    · rw [q]
      exact ls
    · exact edge_lt ex
  have hne : h.length ≠ root := by
    intro q
    rw [← q] at hrs
    rcases Relation.ReflTransGen.cases_head hrs with q1 | ⟨x, ex, _⟩
    · omega
    · unfold Edge at ex
      rw [pe] at ex
      exact absurd ex (List.not_mem_nil x)
  obtain ⟨h3, topo, e3, _, _, hmem, _, _, hrest⟩ := backward_spec M H root hwf hac hroot
  refine ⟨h3, e3, ?_⟩
  rw [hrest _ le hne, sum_map_zero, add_zero, gradOf_eq Ge]
  · rfl
  · intro m hm
    by_cases q : h.length ∈ prevOf H m
    · rw [honly m ((hmem m).1 hm) q, weight_pair M ps]
      have hae : ¬ a = h.length := by omega
      simp [coef, os, hae]
    · rw [weight_zero M H q, zero_mul]

/-- C17, witness: `a = 3`, `y = 2` over the reals, with the backward pass started
at `s` itself. -/
theorem exponent_no_gradient_witness :
    ([Value.leaf 3] : Heap ℝ)[0]? = some (Value.leaf (3 : ℝ)) ∧
      ∃ h2 s, pow (⟨fun x y => x ^ y, Real.exp, Real.tanh⟩ : CMath ℝ) [Value.leaf 3] 0 2
          = some (h2, s) ∧ h2[1]? = some (Value.leaf (2 : ℝ)) ∧
        ∃ h3, backward (⟨fun x y => x ^ y, Real.exp, Real.tanh⟩ : CMath ℝ) h2 s
          = some h3 ∧ gradOf h3 1 = 0 := by
  refine ⟨rfl, ?_⟩
  obtain ⟨h2, s, e1, _, _, _, ge, hall⟩ :=
    exponent_no_gradient (⟨fun x y => x ^ y, Real.exp, Real.tanh⟩ : CMath ℝ)
      [Value.leaf 3] 0 2 (Value.leaf 3) rfl
  have e0 : pow (⟨fun x y => x ^ y, Real.exp, Real.tanh⟩ : CMath ℝ) [Value.leaf 3] 0 2 =
      some ([Value.leaf 3, Value.leaf 2,
        Value.node ((3 : ℝ) ^ (2 : ℝ)) [0, 1] Op.Op_pow], 2) := rfl
  rw [e0] at e1
  simp only [Option.some.injEq, Prod.mk.injEq] at e1
  obtain ⟨q1, q2⟩ := e1
  subst q1 q2
  refine ⟨_, _, e0, ge, ?_⟩
  refine hall _ 2 (wellFormed_of_check rfl) (acyclic_of_check rfl) rfl rfl rfl
    Relation.ReflTransGen.refl ?_
  intro m _ hm
  rcases m with _ | _ | _ | m
  · simp [prevOf, Value.leaf] at hm
  · simp [prevOf, Value.leaf] at hm
  · rfl
  · simp [prevOf] at hm

/-- C14. Division of two nodes follows from the primitives: for every two distinct
leaves `a`, `b` with gradient 0 and values `x`, `y`, in any heap, `q = a / b` has
value `x * pow(y, -1)`, and after `q.backward()` the gradient of `a` is
`pow(y, -1)` and the gradient of `b` is `-x * pow(y, -2)`. -/
theorem division_rule (M : CMath R) (h : Heap R) (a b : Nat) (x y : R)
    (ha : h[a]? = some (Value.leaf x)) (hb : h[b]? = some (Value.leaf y)) (hab : a ≠ b) :
    ∃ h2 q, operator_div M h a b = some (h2, q) ∧ dataOf h2 q = x * M.pow y (-1) ∧
      ∃ h3, backward M h2 q = some h3 ∧
        gradOf h3 a = M.pow y (-1) ∧ gradOf h3 b = -x * M.pow y (-2) := by
  have la := getElem?_lt ha
  have lb := getElem?_lt hb
  have e0 : pow M h b (-1) = some (h ++ [Value.leaf (-1),
      Value.node (M.pow y (-1)) [b, h.length] Op.Op_pow], h.length + 1) := by
    simp [pow, hb, alloc, Value.leaf]
  have e1 : operator_div M h a b = some (h ++ [Value.leaf (-1),
      Value.node (M.pow y (-1)) [b, h.length] Op.Op_pow,
      Value.node (x * M.pow y (-1)) [a, h.length + 1] Op.Op_mul], h.length + 2) := by
    have l1 : (h ++ [Value.leaf (-1),
        Value.node (M.pow y (-1)) [b, h.length] Op.Op_pow])[a]? = some (Value.leaf x) := by
      rw [List.getElem?_append_left la, ha]
    have l2 : (h ++ [Value.leaf (-1),
        Value.node (M.pow y (-1)) [b, h.length] Op.Op_pow])[h.length + 1]? =
        some (Value.node (M.pow y (-1)) [b, h.length] Op.Op_pow) := by
      rw [List.getElem?_append_right (Nat.le_succ _)]
      simp
    simp only [operator_div, e0, operator_times, l1, l2, alloc]
    simp [Value.leaf, Value.node]
  refine ⟨_, _, e1, ?_⟩
  have ga : (h ++ [Value.leaf (-1),
      Value.node (M.pow y (-1)) [b, h.length] Op.Op_pow,
      Value.node (x * M.pow y (-1)) [a, h.length + 1] Op.Op_mul])[a]? =
      some (Value.leaf x) := by
    rw [List.getElem?_append_left la, ha]
  have gb : (h ++ [Value.leaf (-1),
      Value.node (M.pow y (-1)) [b, h.length] Op.Op_pow,
      Value.node (x * M.pow y (-1)) [a, h.length + 1] Op.Op_mul])[b]? =
      some (Value.leaf y) := by
    rw [List.getElem?_append_left lb, hb]
  have ge : (h ++ [Value.leaf (-1),
      Value.node (M.pow y (-1)) [b, h.length] Op.Op_pow,
      Value.node (x * M.pow y (-1)) [a, h.length + 1] Op.Op_mul])[h.length]? =
      some (Value.leaf (-1)) := by
    rw [List.getElem?_append_right (le_refl _)]
    simp
  have gr : (h ++ [Value.leaf (-1),
      Value.node (M.pow y (-1)) [b, h.length] Op.Op_pow,
      Value.node (x * M.pow y (-1)) [a, h.length + 1] Op.Op_mul])[h.length + 1]? =
      some (Value.node (M.pow y (-1)) [b, h.length] Op.Op_pow) := by
    rw [List.getElem?_append_right (Nat.le_succ _)]
    simp
  have gq : (h ++ [Value.leaf (-1),
      Value.node (M.pow y (-1)) [b, h.length] Op.Op_pow,
      Value.node (x * M.pow y (-1)) [a, h.length + 1] Op.Op_mul])[h.length + 2]? =
      some (Value.node (x * M.pow y (-1)) [a, h.length + 1] Op.Op_mul) := by
    rw [List.getElem?_append_right (by omega)]
    simp
  have gl : (h ++ [Value.leaf (-1),
      Value.node (M.pow y (-1)) [b, h.length] Op.Op_pow,
      Value.node (x * M.pow y (-1)) [a, h.length + 1] Op.Op_mul]).length =
      h.length + 3 := by
    simp
  generalize h ++ [Value.leaf (-1),
      Value.node (M.pow y (-1)) [b, h.length] Op.Op_pow,
      Value.node (x * M.pow y (-1)) [a, h.length + 1] Op.Op_mul] = H at ga gb ge gr gq gl
  generalize hm : h.length = e at *
  generalize hr : e + 1 = r at *
  generalize hq : e + 2 = q at *
  have nae : a ≠ e := by omega
  have nbe : b ≠ e := by omega
  have nar : a ≠ r := by omega
  have nbr : b ≠ r := by omega
  have naq : a ≠ q := by omega
  have nbq : b ≠ q := by omega
  have ner : e ≠ r := by omega
  have neq : e ≠ q := by omega
  have nrq : r ≠ q := by omega
  have et : topo_of H q = some [a, b, e, r, q] := by
    simp only [topo_of, gl]
    rw [build_topo_node H _ _ _ _ gq (List.not_mem_nil _)]
    simp only [Value.node, for_children]
    rw [build_topo_leaf H _ _ _ _ ga rfl (by simp [naq])]
    simp only
    rw [build_topo_node H _ _ _ _ gr (by simp [nrq, nar.symm])]
    simp only [for_children]
    rw [build_topo_leaf H _ _ _ _ gb rfl (by simp [nbr, nbq, hab.symm])]
    simp only
    rw [build_topo_leaf H _ _ _ _ ge rfl (by simp [ner, neq, nae.symm, nbe.symm])]
    rfl
  have pa : prevOf H a = [] := prevOf_eq ga
  have pb : prevOf H b = [] := prevOf_eq gb
  have pe : prevOf H e = [] := prevOf_eq ge
  have pr : prevOf H r = [b, e] := prevOf_eq gr
  have pq : prevOf H q = [a, r] := prevOf_eq gq
  have oa : opOf H a = Op.Op_no := opOf_eq ga
  have ob : opOf H b = Op.Op_no := opOf_eq gb
  have oe : opOf H e = Op.Op_no := opOf_eq ge
  have orr : opOf H r = Op.Op_pow := opOf_eq gr
  have oq : opOf H q = Op.Op_mul := opOf_eq gq
  have da : dataOf H a = x := dataOf_eq ga
  have db : dataOf H b = y := dataOf_eq gb
  have de : dataOf H e = -1 := dataOf_eq ge
  have dr : dataOf H r = M.pow y (-1) := dataOf_eq gr
  obtain ⟨h3, e3, _, hg⟩ := backward_of_topo M H q (by omega) [a, b, e, r, q] et
    (by simp; omega)
    (by simp [pa, pb, pe, pr, pq, oa, ob, oe, orr, oq, arity])
    (by simp [pa, pb, pe, pr, pq]; omega)
    (by simp [pa, pb, pe, pr, pq, nbr.symm, ner.symm, naq.symm, nrq.symm])
    (by simp [pa, pb, pe, pr, pq, hab.symm, nae.symm, nbe.symm, nar.symm, nbr.symm,
      ner.symm, naq.symm, nbq.symm, neq.symm, nrq.symm, nae, nbe, nar, nbr, ner])
  have wa : ∀ n, weight M H a n = 0 := weight_nil M pa
  have wb : ∀ n, weight M H b n = 0 := weight_nil M pb
  have we : ∀ n, weight M H e n = 0 := weight_nil M pe
  have wr : ∀ n, weight M H r n =
      (if b = n then -1 * M.pow y (-1 - 1) else 0) := by
    intro n
    rw [weight_pair M pr]
    simp [coef, orr, pr, db, de]
  have wq : ∀ n, weight M H q n =
      (if a = n then M.pow y (-1) else 0) + (if r = n then x else 0) := by
    intro n
    rw [weight_pair M pq]
    simp [coef, oq, pq, da, dr]
  have g1 : gradOf h3 q = 1 := by
    rw [hg _ (by omega)]
    simp [wa, wb, we, wr, wq, naq, nbq, nrq]
  have g2 : gradOf h3 r = x := by
    rw [hg _ (by omega)]
    simp [wa, wb, we, wr, wq, nar, nbr, nrq, g1, gradOf_eq gr, Value.node]
  have g3 : gradOf h3 a = M.pow y (-1) := by
    rw [hg _ (by omega)]
    simp [wa, wb, we, wr, wq, hab.symm, nar.symm, naq, g1, gradOf_eq ga, Value.leaf]
  have g4 : gradOf h3 b = -x * M.pow y (-2) := by
    rw [hg _ (by omega)]
    simp [wa, wb, we, wr, wq, hab, nbr.symm, nbq, g2, gradOf_eq gb, Value.leaf]
    have : (-1 - 1 : R) = -2 := by norm_num
    rw [this]
    ring
  exact ⟨by rw [dataOf_eq gq]; rfl, h3, e3, g3, g4⟩

/-- C14, witness: `a = 6`, `b = 2` over the reals, with the real power function. -/
theorem division_rule_witness :
    (([Value.leaf 6, Value.leaf 2] : Heap ℝ)[0]? = some (Value.leaf (6 : ℝ)) ∧
      ([Value.leaf 6, Value.leaf 2] : Heap ℝ)[1]? = some (Value.leaf (2 : ℝ)) ∧
      (0 : Nat) ≠ 1) ∧
    ∃ h2 q, operator_div (⟨fun x y => x ^ y, Real.exp, Real.tanh⟩ : CMath ℝ)
        ([Value.leaf 6, Value.leaf 2] : Heap ℝ) 0 1 = some (h2, q) ∧
      dataOf h2 q = 6 * (2 : ℝ) ^ (-1 : ℝ) ∧
      ∃ h3, backward (⟨fun x y => x ^ y, Real.exp, Real.tanh⟩ : CMath ℝ) h2 q = some h3 ∧
        gradOf h3 0 = (2 : ℝ) ^ (-1 : ℝ) ∧ gradOf h3 1 = -6 * (2 : ℝ) ^ (-2 : ℝ) :=
  ⟨⟨rfl, rfl, by decide⟩,
    division_rule (⟨fun x y => x ^ y, Real.exp, Real.tanh⟩ : CMath ℝ)
      [Value.leaf 6, Value.leaf 2] 0 1 6 2 rfl rfl (by decide)⟩

/-- C13. Squared-error term built from the derived subtract: for every two
distinct leaves `y`, `p` with gradient 0 and values `yv`, `pv`, in any heap,
`y - p` appends the leaf `-1`, the Multiply node `p * (-1)` and the Add node
`y + p * (-1)` and nothing else; `L = (y - p)->pow(2)` has value
`pow(yv - pv, 2)`; and after `L.backward()` the gradient of `y` is
`2 * pow(yv - pv, 2 - 1)` and the gradient of `p` is its negative, that is
`2 * (yv - pv)` and `-2 * (yv - pv)` when `pow(v, 1) = v`. -/
theorem squared_error_term (M : CMath R) (h : Heap R) (y p : Nat) (yv pv : R)
    (hy : h[y]? = some (Value.leaf yv)) (hp : h[p]? = some (Value.leaf pv))
    (hyp : y ≠ p) :
    ∃ h1 d, operator_minus h y p = some (h1, d) ∧
      h1 = h ++ [Value.leaf (-1), Value.node (pv * -1) [p, h.length] Op.Op_mul,
        Value.node (yv + pv * -1) [y, h.length + 1] Op.Op_add] ∧
      ∃ h2 L, pow M h1 d 2 = some (h2, L) ∧ dataOf h2 L = M.pow (yv - pv) 2 ∧
        ∃ h3, backward M h2 L = some h3 ∧
          gradOf h3 p = -(2 * M.pow (yv - pv) (2 - 1)) ∧
          gradOf h3 y = 2 * M.pow (yv - pv) (2 - 1) ∧
          (M.pow (yv - pv) (2 - 1) = yv - pv →
            gradOf h3 p = -2 * (yv - pv) ∧ gradOf h3 y = 2 * (yv - pv)) := by
  have ly := getElem?_lt hy
  have lp := getElem?_lt hp
  have hsub : yv + pv * -1 = yv - pv := by ring
  have e1 : operator_minus h y p = some (h ++ [Value.leaf (-1), Value.node (pv * -1) [p, h.length] Op.Op_mul,
      Value.node (yv + pv * -1) [y, h.length + 1] Op.Op_add], h.length + 2) := by
    have l1 : (h ++ [Value.leaf (-1 : R)])[p]? = some (Value.leaf pv) := by
      rw [List.getElem?_append_left lp, hp]
    have l2 : (h ++ [Value.leaf (-1 : R)])[h.length]? = some (Value.leaf (-1)) :=
      getElem?_snoc_new h _
    have l3 : (h ++ [Value.leaf (-1 : R)] ++
        [Value.node (pv * -1) [p, h.length] Op.Op_mul])[y]? = some (Value.leaf yv) := by
      rw [List.append_assoc, List.getElem?_append_left ly, hy]
    have l4 : (h ++ [Value.leaf (-1 : R)] ++
        [Value.node (pv * -1) [p, h.length] Op.Op_mul])[h.length + 1]? =
        some (Value.node (pv * -1) [p, h.length] Op.Op_mul) := by
      rw [List.append_assoc, List.getElem?_append_right (Nat.le_succ _)]
      simp
    have en : operator_neg h p = some (h ++ [Value.leaf (-1 : R)] ++
        [Value.node (pv * -1) [p, h.length] Op.Op_mul], h.length + 1) := by
      simp only [operator_neg, operator_times_r, alloc, operator_times, l1, l2]
      simp [Value.leaf]
    simp only [operator_minus, en, operator_plus, l3, l4, alloc]
    simp [Value.leaf, Value.node]
  refine ⟨_, _, e1, rfl, ?_⟩
  have e2 : pow M (h ++ [Value.leaf (-1), Value.node (pv * -1) [p, h.length] Op.Op_mul,
      Value.node (yv + pv * -1) [y, h.length + 1] Op.Op_add]) (h.length + 2) 2 = some (h ++ [Value.leaf (-1), Value.node (pv * -1) [p, h.length] Op.Op_mul,
      Value.node (yv + pv * -1) [y, h.length + 1] Op.Op_add, Value.leaf 2,
      Value.node (M.pow (yv + pv * -1) 2) [h.length + 2, h.length + 3] Op.Op_pow], h.length + 4) := by
    have l5 : (h ++ [Value.leaf (-1), Value.node (pv * -1) [p, h.length] Op.Op_mul,
      Value.node (yv + pv * -1) [y, h.length + 1] Op.Op_add])[h.length + 2]? =
        some (Value.node (yv + pv * -1) [y, h.length + 1] Op.Op_add) := by
      rw [List.getElem?_append_right (by omega)]
      simp
    simp only [pow, l5, alloc]
    simp [Value.node]
  refine ⟨_, _, e2, ?_⟩
  have gy : (h ++ [Value.leaf (-1), Value.node (pv * -1) [p, h.length] Op.Op_mul,
      Value.node (yv + pv * -1) [y, h.length + 1] Op.Op_add, Value.leaf 2,
      Value.node (M.pow (yv + pv * -1) 2) [h.length + 2, h.length + 3] Op.Op_pow])[y]? = some (Value.leaf yv) := by
    rw [List.getElem?_append_left ly, hy]
  have gp : (h ++ [Value.leaf (-1), Value.node (pv * -1) [p, h.length] Op.Op_mul,
      Value.node (yv + pv * -1) [y, h.length + 1] Op.Op_add, Value.leaf 2,
      Value.node (M.pow (yv + pv * -1) 2) [h.length + 2, h.length + 3] Op.Op_pow])[p]? = some (Value.leaf pv) := by
    rw [List.getElem?_append_left lp, hp]
  have gk : (h ++ [Value.leaf (-1), Value.node (pv * -1) [p, h.length] Op.Op_mul,
      Value.node (yv + pv * -1) [y, h.length + 1] Op.Op_add, Value.leaf 2,
      Value.node (M.pow (yv + pv * -1) 2) [h.length + 2, h.length + 3] Op.Op_pow])[h.length]? = some (Value.leaf (-1)) := by
    rw [List.getElem?_append_right (le_refl _)]
    simp
  have gm : (h ++ [Value.leaf (-1), Value.node (pv * -1) [p, h.length] Op.Op_mul,
      Value.node (yv + pv * -1) [y, h.length + 1] Op.Op_add, Value.leaf 2,
      Value.node (M.pow (yv + pv * -1) 2) [h.length + 2, h.length + 3] Op.Op_pow])[h.length + 1]? =
      some (Value.node (pv * -1) [p, h.length] Op.Op_mul) := by
    rw [List.getElem?_append_right (by omega)]
    simp
  have gs : (h ++ [Value.leaf (-1), Value.node (pv * -1) [p, h.length] Op.Op_mul,
      Value.node (yv + pv * -1) [y, h.length + 1] Op.Op_add, Value.leaf 2,
      Value.node (M.pow (yv + pv * -1) 2) [h.length + 2, h.length + 3] Op.Op_pow])[h.length + 2]? =
      some (Value.node (yv + pv * -1) [y, h.length + 1] Op.Op_add) := by
    rw [List.getElem?_append_right (by omega)]
    simp
  have ge : (h ++ [Value.leaf (-1), Value.node (pv * -1) [p, h.length] Op.Op_mul,
      Value.node (yv + pv * -1) [y, h.length + 1] Op.Op_add, Value.leaf 2,
      Value.node (M.pow (yv + pv * -1) 2) [h.length + 2, h.length + 3] Op.Op_pow])[h.length + 3]? = some (Value.leaf 2) := by
    rw [List.getElem?_append_right (by omega)]
    simp
  have gL : (h ++ [Value.leaf (-1), Value.node (pv * -1) [p, h.length] Op.Op_mul,
      Value.node (yv + pv * -1) [y, h.length + 1] Op.Op_add, Value.leaf 2,
      Value.node (M.pow (yv + pv * -1) 2) [h.length + 2, h.length + 3] Op.Op_pow])[h.length + 4]? =
      some (Value.node (M.pow (yv + pv * -1) 2) [h.length + 2, h.length + 3]
        Op.Op_pow) := by
    rw [List.getElem?_append_right (by omega)]
    simp
  have gl : (h ++ [Value.leaf (-1), Value.node (pv * -1) [p, h.length] Op.Op_mul,
      Value.node (yv + pv * -1) [y, h.length + 1] Op.Op_add, Value.leaf 2,
      Value.node (M.pow (yv + pv * -1) 2) [h.length + 2, h.length + 3] Op.Op_pow]).length = h.length + 5 := by
    simp
  generalize h ++ [Value.leaf (-1), Value.node (pv * -1) [p, h.length] Op.Op_mul,
      Value.node (yv + pv * -1) [y, h.length + 1] Op.Op_add, Value.leaf 2,
      Value.node (M.pow (yv + pv * -1) 2) [h.length + 2, h.length + 3] Op.Op_pow] = H at gy gp gk gm gs ge gL gl
  generalize hk : h.length = k at *
  generalize hm : k + 1 = m at *
  generalize hs : k + 2 = s at *
  generalize he : k + 3 = e at *
  generalize hL : k + 4 = L at *
  have n_y_k : y ≠ k := by omega
  have n_y_m : y ≠ m := by omega
  have n_y_s : y ≠ s := by omega
  have n_y_e : y ≠ e := by omega
  have n_y_L : y ≠ L := by omega
  have n_p_k : p ≠ k := by omega
  have n_p_m : p ≠ m := by omega
  have n_p_s : p ≠ s := by omega
  have n_p_e : p ≠ e := by omega
  have n_p_L : p ≠ L := by omega
  have n_k_m : k ≠ m := by omega
  have n_k_s : k ≠ s := by omega
  have n_k_e : k ≠ e := by omega
  have n_k_L : k ≠ L := by omega
  have n_m_s : m ≠ s := by omega
  have n_m_e : m ≠ e := by omega
  have n_m_L : m ≠ L := by omega
  have n_s_e : s ≠ e := by omega
  have n_s_L : s ≠ L := by omega
  have n_e_L : e ≠ L := by omega
  have et : topo_of H L = some [y, p, k, m, s, e, L] := by
    simp only [topo_of, gl]
    rw [build_topo_node H _ _ _ _ gL (List.not_mem_nil _)]
    simp only [Value.node, for_children]
    rw [build_topo_node H _ _ _ _ gs (by simp [hyp, hyp.symm, n_y_k, n_y_k.symm, n_y_m, n_y_m.symm, n_y_s, n_y_s.symm, n_y_e, n_y_e.symm, n_y_L, n_y_L.symm, n_p_k, n_p_k.symm, n_p_m, n_p_m.symm, n_p_s, n_p_s.symm, n_p_e, n_p_e.symm, n_p_L, n_p_L.symm, n_k_m, n_k_m.symm, n_k_s, n_k_s.symm, n_k_e, n_k_e.symm, n_k_L, n_k_L.symm, n_m_s, n_m_s.symm, n_m_e, n_m_e.symm, n_m_L, n_m_L.symm, n_s_e, n_s_e.symm, n_s_L, n_s_L.symm, n_e_L, n_e_L.symm])]
    simp only [for_children]
    rw [build_topo_leaf H _ _ _ _ gy rfl (by simp [hyp, hyp.symm, n_y_k, n_y_k.symm, n_y_m, n_y_m.symm, n_y_s, n_y_s.symm, n_y_e, n_y_e.symm, n_y_L, n_y_L.symm, n_p_k, n_p_k.symm, n_p_m, n_p_m.symm, n_p_s, n_p_s.symm, n_p_e, n_p_e.symm, n_p_L, n_p_L.symm, n_k_m, n_k_m.symm, n_k_s, n_k_s.symm, n_k_e, n_k_e.symm, n_k_L, n_k_L.symm, n_m_s, n_m_s.symm, n_m_e, n_m_e.symm, n_m_L, n_m_L.symm, n_s_e, n_s_e.symm, n_s_L, n_s_L.symm, n_e_L, n_e_L.symm])]
    simp only
    rw [build_topo_node H _ _ _ _ gm (by simp [hyp, hyp.symm, n_y_k, n_y_k.symm, n_y_m, n_y_m.symm, n_y_s, n_y_s.symm, n_y_e, n_y_e.symm, n_y_L, n_y_L.symm, n_p_k, n_p_k.symm, n_p_m, n_p_m.symm, n_p_s, n_p_s.symm, n_p_e, n_p_e.symm, n_p_L, n_p_L.symm, n_k_m, n_k_m.symm, n_k_s, n_k_s.symm, n_k_e, n_k_e.symm, n_k_L, n_k_L.symm, n_m_s, n_m_s.symm, n_m_e, n_m_e.symm, n_m_L, n_m_L.symm, n_s_e, n_s_e.symm, n_s_L, n_s_L.symm, n_e_L, n_e_L.symm])]
    simp only [for_children]
    rw [build_topo_leaf H _ _ _ _ gp rfl (by simp [hyp, hyp.symm, n_y_k, n_y_k.symm, n_y_m, n_y_m.symm, n_y_s, n_y_s.symm, n_y_e, n_y_e.symm, n_y_L, n_y_L.symm, n_p_k, n_p_k.symm, n_p_m, n_p_m.symm, n_p_s, n_p_s.symm, n_p_e, n_p_e.symm, n_p_L, n_p_L.symm, n_k_m, n_k_m.symm, n_k_s, n_k_s.symm, n_k_e, n_k_e.symm, n_k_L, n_k_L.symm, n_m_s, n_m_s.symm, n_m_e, n_m_e.symm, n_m_L, n_m_L.symm, n_s_e, n_s_e.symm, n_s_L, n_s_L.symm, n_e_L, n_e_L.symm])]
    simp only
    rw [build_topo_leaf H _ _ _ _ gk rfl (by simp [hyp, hyp.symm, n_y_k, n_y_k.symm, n_y_m, n_y_m.symm, n_y_s, n_y_s.symm, n_y_e, n_y_e.symm, n_y_L, n_y_L.symm, n_p_k, n_p_k.symm, n_p_m, n_p_m.symm, n_p_s, n_p_s.symm, n_p_e, n_p_e.symm, n_p_L, n_p_L.symm, n_k_m, n_k_m.symm, n_k_s, n_k_s.symm, n_k_e, n_k_e.symm, n_k_L, n_k_L.symm, n_m_s, n_m_s.symm, n_m_e, n_m_e.symm, n_m_L, n_m_L.symm, n_s_e, n_s_e.symm, n_s_L, n_s_L.symm, n_e_L, n_e_L.symm])]
    simp only
    rw [build_topo_leaf H _ _ _ _ ge rfl (by simp [hyp, hyp.symm, n_y_k, n_y_k.symm, n_y_m, n_y_m.symm, n_y_s, n_y_s.symm, n_y_e, n_y_e.symm, n_y_L, n_y_L.symm, n_p_k, n_p_k.symm, n_p_m, n_p_m.symm, n_p_s, n_p_s.symm, n_p_e, n_p_e.symm, n_p_L, n_p_L.symm, n_k_m, n_k_m.symm, n_k_s, n_k_s.symm, n_k_e, n_k_e.symm, n_k_L, n_k_L.symm, n_m_s, n_m_s.symm, n_m_e, n_m_e.symm, n_m_L, n_m_L.symm, n_s_e, n_s_e.symm, n_s_L, n_s_L.symm, n_e_L, n_e_L.symm])]
    rfl
  have py : prevOf H y = [] := prevOf_eq gy
  have pp : prevOf H p = [] := prevOf_eq gp
  have pk : prevOf H k = [] := prevOf_eq gk
  have pm : prevOf H m = [p, k] := prevOf_eq gm
  have ps : prevOf H s = [y, m] := prevOf_eq gs
  have pe : prevOf H e = [] := prevOf_eq ge
  have pL : prevOf H L = [s, e] := prevOf_eq gL
  have oy : opOf H y = Op.Op_no := opOf_eq gy
  have op : opOf H p = Op.Op_no := opOf_eq gp
  have ok : opOf H k = Op.Op_no := opOf_eq gk
  have om : opOf H m = Op.Op_mul := opOf_eq gm
  have os : opOf H s = Op.Op_add := opOf_eq gs
  have oe : opOf H e = Op.Op_no := opOf_eq ge
  have oL : opOf H L = Op.Op_pow := opOf_eq gL
  have dp : dataOf H p = pv := dataOf_eq gp
  have dk : dataOf H k = -1 := dataOf_eq gk
  have ds : dataOf H s = yv - pv := by
    rw [dataOf_eq gs]
    exact hsub
  have de : dataOf H e = 2 := dataOf_eq ge
  obtain ⟨h3, e3, _, hg⟩ := backward_of_topo M H L (by omega) [y, p, k, m, s, e, L] et
    (by simp; omega)
    (by simp [py, pp, pk, pm, ps, pe, pL, oy, op, ok, om, os, oe, oL, arity])
    (by simp [py, pp, pk, pm, ps, pe, pL]; omega)
    (by simp [py, pp, pk, pm, ps, pe, pL, hyp, hyp.symm, n_y_k, n_y_k.symm, n_y_m, n_y_m.symm, n_y_s, n_y_s.symm, n_y_e, n_y_e.symm, n_y_L, n_y_L.symm, n_p_k, n_p_k.symm, n_p_m, n_p_m.symm, n_p_s, n_p_s.symm, n_p_e, n_p_e.symm, n_p_L, n_p_L.symm, n_k_m, n_k_m.symm, n_k_s, n_k_s.symm, n_k_e, n_k_e.symm, n_k_L, n_k_L.symm, n_m_s, n_m_s.symm, n_m_e, n_m_e.symm, n_m_L, n_m_L.symm, n_s_e, n_s_e.symm, n_s_L, n_s_L.symm, n_e_L, n_e_L.symm])
    (by simp [py, pp, pk, pm, ps, pe, pL, hyp, hyp.symm, n_y_k, n_y_k.symm, n_y_m, n_y_m.symm, n_y_s, n_y_s.symm, n_y_e, n_y_e.symm, n_y_L, n_y_L.symm, n_p_k, n_p_k.symm, n_p_m, n_p_m.symm, n_p_s, n_p_s.symm, n_p_e, n_p_e.symm, n_p_L, n_p_L.symm, n_k_m, n_k_m.symm, n_k_s, n_k_s.symm, n_k_e, n_k_e.symm, n_k_L, n_k_L.symm, n_m_s, n_m_s.symm, n_m_e, n_m_e.symm, n_m_L, n_m_L.symm, n_s_e, n_s_e.symm, n_s_L, n_s_L.symm, n_e_L, n_e_L.symm])
  have wy : ∀ n, weight M H y n = 0 := weight_nil M py
  have wp : ∀ n, weight M H p n = 0 := weight_nil M pp
  have wk : ∀ n, weight M H k n = 0 := weight_nil M pk
  have we : ∀ n, weight M H e n = 0 := weight_nil M pe
  have wm : ∀ n, weight M H m n = (if p = n then -1 else 0) + (if k = n then pv else 0) := by
    intro n
    rw [weight_pair M pm]
    simp [coef, om, pm, dp, dk]
  have ws : ∀ n, weight M H s n = (if y = n then 1 else 0) + (if m = n then 1 else 0) := by
    intro n
    rw [weight_pair M ps]
    simp [coef, os]
  have wL : ∀ n, weight M H L n =
      (if s = n then 2 * M.pow (yv - pv) (2 - 1) else 0) := by
    intro n
    rw [weight_pair M pL]
    simp [coef, oL, pL, ds, de]
  have g1 : gradOf h3 L = 1 := by
    rw [hg _ (by omega)]
    simp [wy, wp, wk, we, wm, ws, wL, hyp, hyp.symm, n_y_k, n_y_k.symm, n_y_m, n_y_m.symm, n_y_s, n_y_s.symm, n_y_e, n_y_e.symm, n_y_L, n_y_L.symm, n_p_k, n_p_k.symm, n_p_m, n_p_m.symm, n_p_s, n_p_s.symm, n_p_e, n_p_e.symm, n_p_L, n_p_L.symm, n_k_m, n_k_m.symm, n_k_s, n_k_s.symm, n_k_e, n_k_e.symm, n_k_L, n_k_L.symm, n_m_s, n_m_s.symm, n_m_e, n_m_e.symm, n_m_L, n_m_L.symm, n_s_e, n_s_e.symm, n_s_L, n_s_L.symm, n_e_L, n_e_L.symm]
  have g2 : gradOf h3 s = 2 * M.pow (yv - pv) (2 - 1) := by
    rw [hg _ (by omega)]
    simp [wy, wp, wk, we, wm, ws, wL, hyp, hyp.symm, n_y_k, n_y_k.symm, n_y_m, n_y_m.symm, n_y_s, n_y_s.symm, n_y_e, n_y_e.symm, n_y_L, n_y_L.symm, n_p_k, n_p_k.symm, n_p_m, n_p_m.symm, n_p_s, n_p_s.symm, n_p_e, n_p_e.symm, n_p_L, n_p_L.symm, n_k_m, n_k_m.symm, n_k_s, n_k_s.symm, n_k_e, n_k_e.symm, n_k_L, n_k_L.symm, n_m_s, n_m_s.symm, n_m_e, n_m_e.symm, n_m_L, n_m_L.symm, n_s_e, n_s_e.symm, n_s_L, n_s_L.symm, n_e_L, n_e_L.symm, g1, gradOf_eq gs, Value.node]
  have g3 : gradOf h3 m = 2 * M.pow (yv - pv) (2 - 1) := by
    rw [hg _ (by omega)]
    simp [wy, wp, wk, we, wm, ws, wL, hyp, hyp.symm, n_y_k, n_y_k.symm, n_y_m, n_y_m.symm, n_y_s, n_y_s.symm, n_y_e, n_y_e.symm, n_y_L, n_y_L.symm, n_p_k, n_p_k.symm, n_p_m, n_p_m.symm, n_p_s, n_p_s.symm, n_p_e, n_p_e.symm, n_p_L, n_p_L.symm, n_k_m, n_k_m.symm, n_k_s, n_k_s.symm, n_k_e, n_k_e.symm, n_k_L, n_k_L.symm, n_m_s, n_m_s.symm, n_m_e, n_m_e.symm, n_m_L, n_m_L.symm, n_s_e, n_s_e.symm, n_s_L, n_s_L.symm, n_e_L, n_e_L.symm, g2, gradOf_eq gm, Value.node]
  have g4 : gradOf h3 y = 2 * M.pow (yv - pv) (2 - 1) := by
    rw [hg _ (by omega)]
    simp [wy, wp, wk, we, wm, ws, wL, hyp, hyp.symm, n_y_k, n_y_k.symm, n_y_m, n_y_m.symm, n_y_s, n_y_s.symm, n_y_e, n_y_e.symm, n_y_L, n_y_L.symm, n_p_k, n_p_k.symm, n_p_m, n_p_m.symm, n_p_s, n_p_s.symm, n_p_e, n_p_e.symm, n_p_L, n_p_L.symm, n_k_m, n_k_m.symm, n_k_s, n_k_s.symm, n_k_e, n_k_e.symm, n_k_L, n_k_L.symm, n_m_s, n_m_s.symm, n_m_e, n_m_e.symm, n_m_L, n_m_L.symm, n_s_e, n_s_e.symm, n_s_L, n_s_L.symm, n_e_L, n_e_L.symm, g2, gradOf_eq gy, Value.leaf]
  have g5 : gradOf h3 p = -(2 * M.pow (yv - pv) (2 - 1)) := by
    rw [hg _ (by omega)]
    simp [wy, wp, wk, we, wm, ws, wL, hyp, hyp.symm, n_y_k, n_y_k.symm, n_y_m, n_y_m.symm, n_y_s, n_y_s.symm, n_y_e, n_y_e.symm, n_y_L, n_y_L.symm, n_p_k, n_p_k.symm, n_p_m, n_p_m.symm, n_p_s, n_p_s.symm, n_p_e, n_p_e.symm, n_p_L, n_p_L.symm, n_k_m, n_k_m.symm, n_k_s, n_k_s.symm, n_k_e, n_k_e.symm, n_k_L, n_k_L.symm, n_m_s, n_m_s.symm, n_m_e, n_m_e.symm, n_m_L, n_m_L.symm, n_s_e, n_s_e.symm, n_s_L, n_s_L.symm, n_e_L, n_e_L.symm, g3, gradOf_eq gp, Value.leaf]
  refine ⟨?_, h3, e3, g5, g4, ?_⟩
  · rw [dataOf_eq gL]
    simp only [Value.node, hsub]
  · intro hone
    rw [g5, g4, hone]
    exact ⟨by ring, rfl⟩

/-- C13, witness: `y = 1`, `p = 3` over the reals, with the real power function. -/
theorem squared_error_term_witness :
    (([Value.leaf 1, Value.leaf 3] : Heap ℝ)[0]? = some (Value.leaf (1 : ℝ)) ∧
      ([Value.leaf 1, Value.leaf 3] : Heap ℝ)[1]? = some (Value.leaf (3 : ℝ)) ∧
      (0 : Nat) ≠ 1) ∧
    ∃ h1 d, operator_minus ([Value.leaf 1, Value.leaf 3] : Heap ℝ) 0 1 = some (h1, d) ∧
      ∃ h2 L, pow (⟨fun x y => x ^ y, Real.exp, Real.tanh⟩ : CMath ℝ) h1 d 2 = some (h2, L) ∧
        dataOf h2 L = 4 ∧
        ∃ h3, backward (⟨fun x y => x ^ y, Real.exp, Real.tanh⟩ : CMath ℝ) h2 L = some h3 ∧
          gradOf h3 1 = 4 ∧ gradOf h3 0 = -4 := by
  refine ⟨⟨rfl, rfl, by decide⟩, ?_⟩
  obtain ⟨h1, d, e1, _, h2, L, e2, hv, h3, e3, _, _, hone⟩ :=
    squared_error_term (⟨fun x y => x ^ y, Real.exp, Real.tanh⟩ : CMath ℝ)
      [Value.leaf 1, Value.leaf 3] 0 1 1 3 rfl rfl (by decide)
  have h21 : ((1 : ℝ) - 3) ^ ((2 : ℝ) - 1) = 1 - 3 := by
    have : ((2 : ℝ) - 1) = 1 := by norm_num
    rw [this, Real.rpow_one]
  obtain ⟨gp, gy⟩ := hone h21
  refine ⟨h1, d, e1, h2, L, e2, ?_, h3, e3, ?_, ?_⟩
  · rw [hv]
    norm_num
  · rw [gp]
    norm_num
  · rw [gy]
    norm_num

end Derived

section Forward

variable {R : Type} [CommRing R]

theorem grows_alloc (h : Heap R) {n : Value R} (hn : n.grad = 0) :
    Grows h (h ++ [n]) h.length := by
  refine ⟨[n], rfl, by simp, ?_, by simp⟩
  intro k hk
  rw [List.mem_singleton.1 hk]
  exact hn

theorem grows_trans {h h1 h2 : Heap R} {p1 p2 : Nat} (g1 : Grows h h1 p1)
    (g2 : Grows h1 h2 p2) : Grows h h2 p2 := by
  obtain ⟨n1, e1, _, z1, _⟩ := g1
  obtain ⟨n2, e2, ne2, z2, l2⟩ := g2
  refine ⟨n1 ++ n2, by rw [e2, e1, List.append_assoc], by simp [ne2], ?_, l2⟩
  intro k hk
  rcases List.mem_append.1 hk with q | q
  · exact z1 k q
  · exact z2 k q

theorem grows_lt {h h2 : Heap R} {p : Nat} (g : Grows h h2 p) {v : Nat}
    (hv : v < h.length) : v < h2.length := by
  obtain ⟨n, e, _, _, _⟩ := g
  rw [e, List.length_append]
  omega

theorem grows_last {h h2 : Heap R} {p : Nat} (g : Grows h h2 p) : p < h2.length := by
  obtain ⟨_, _, _, _, l⟩ := g
  omega

theorem grows_lookup {h h2 : Heap R} {p : Nat} (g : Grows h h2 p) {v : Nat} {k : Value R}
    (e : h[v]? = some k) : h2[v]? = some k := by
  obtain ⟨n, e2, _, _, _⟩ := g
  rw [e2, List.getElem?_append_left (getElem?_lt e), e]

theorem plus_grows {h h2 : Heap R} {a b p : Nat} (e : operator_plus h a b = some (h2, p)) :
    Grows h h2 p := by
  unfold operator_plus at e
  cases ea : h[a]? with
  | none => rw [ea] at e; simp at e
  | some l =>
    cases eb : h[b]? with
    | none => rw [ea, eb] at e; simp at e
    | some r =>
      rw [ea, eb] at e
      simp only [alloc, Option.some.injEq, Prod.mk.injEq] at e
      rw [← e.1, ← e.2]
      exact grows_alloc h rfl

theorem plus_total {h : Heap R} {a b : Nat} (ha : a < h.length) (hb : b < h.length) :
    ∃ h2 p, operator_plus h a b = some (h2, p) := by
  obtain ⟨l, ea⟩ := exists_node ha
  obtain ⟨r, eb⟩ := exists_node hb
  simp only [operator_plus, ea, eb]
  exact ⟨_, _, rfl⟩

theorem times_grows {h h2 : Heap R} {a b p : Nat}
    (e : operator_times h a b = some (h2, p)) : Grows h h2 p := by
  unfold operator_times at e
  cases ea : h[a]? with
  | none => rw [ea] at e; simp at e
  | some l =>
    cases eb : h[b]? with
    | none => rw [ea, eb] at e; simp at e
    | some r =>
      rw [ea, eb] at e
      simp only [alloc, Option.some.injEq, Prod.mk.injEq] at e
      rw [← e.1, ← e.2]
      exact grows_alloc h rfl

theorem times_total {h : Heap R} {a b : Nat} (ha : a < h.length) (hb : b < h.length) :
    ∃ h2 p, operator_times h a b = some (h2, p) := by
  obtain ⟨l, ea⟩ := exists_node ha
  obtain ⟨r, eb⟩ := exists_node hb
  simp only [operator_times, ea, eb]
  exact ⟨_, _, rfl⟩

theorem pow_grows (M : CMath R) {h h2 : Heap R} {a p : Nat} {y : R}
    (e : pow M h a y = some (h2, p)) : Grows h h2 p := by
  unfold pow at e
  cases ea : h[a]? with
  | none => rw [ea] at e; simp at e
  | some l =>
    rw [ea] at e
    simp only [alloc, Option.some.injEq, Prod.mk.injEq] at e
    rw [← e.1, ← e.2]
    exact grows_trans (grows_alloc h rfl) (grows_alloc _ rfl)

theorem pow_total (M : CMath R) {h : Heap R} {a : Nat} (y : R) (ha : a < h.length) :
    ∃ h2 p, pow M h a y = some (h2, p) := by
  obtain ⟨l, ea⟩ := exists_node ha
  simp only [pow, ea]
  exact ⟨_, _, rfl⟩

theorem exp_grows (M : CMath R) {h h2 : Heap R} {a p : Nat}
    (e : exp M h a = some (h2, p)) : Grows h h2 p := by
  unfold exp at e
  cases ea : h[a]? with
  | none => rw [ea] at e; simp at e
  | some l =>
    rw [ea] at e
    simp only [alloc, Option.some.injEq, Prod.mk.injEq] at e
    rw [← e.1, ← e.2]
    exact grows_alloc h rfl

theorem exp_total (M : CMath R) {h : Heap R} {a : Nat} (ha : a < h.length) :
    ∃ h2 p, exp M h a = some (h2, p) := by
  obtain ⟨l, ea⟩ := exists_node ha
  simp only [exp, ea]
  exact ⟨_, _, rfl⟩

theorem tanh_grows (M : CMath R) {h h2 : Heap R} {a p : Nat}
    (e : tanh M h a = some (h2, p)) : Grows h h2 p := by
  unfold tanh at e
  cases ea : h[a]? with
  | none => rw [ea] at e; simp at e
  | some l =>
    rw [ea] at e
    simp only [alloc, Option.some.injEq, Prod.mk.injEq] at e
    rw [← e.1, ← e.2]
    exact grows_alloc h rfl

theorem tanh_total (M : CMath R) {h : Heap R} {a : Nat} (ha : a < h.length) :
    ∃ h2 p, tanh M h a = some (h2, p) := by
  obtain ⟨l, ea⟩ := exists_node ha
  simp only [tanh, ea]
  exact ⟨_, _, rfl⟩

theorem plus_r_grows {h h2 : Heap R} {a p : Nat} {r : R}
    (e : operator_plus_r h a r = some (h2, p)) : Grows h h2 p :=
  grows_trans (grows_alloc h rfl) (plus_grows e)

theorem plus_r_total {h : Heap R} {a : Nat} (r : R) (ha : a < h.length) :
    ∃ h2 p, operator_plus_r h a r = some (h2, p) :=
  plus_total (h := h ++ [Value.leaf r]) (by simp; omega) (by simp)

theorem times_r_grows {h h2 : Heap R} {a p : Nat} {r : R}
    (e : operator_times_r h a r = some (h2, p)) : Grows h h2 p :=
  grows_trans (grows_alloc h rfl) (times_grows e)

theorem times_r_total {h : Heap R} {a : Nat} (r : R) (ha : a < h.length) :
    ∃ h2 p, operator_times_r h a r = some (h2, p) :=
  times_total (h := h ++ [Value.leaf r]) (by simp; omega) (by simp)

theorem minus_grows {h h2 : Heap R} {a b p : Nat}
    (e : operator_minus h a b = some (h2, p)) : Grows h h2 p := by
  unfold operator_minus at e
  cases en : operator_neg h b with
  | none => rw [en] at e; simp at e
  | some q =>
    obtain ⟨h1, n⟩ := q
    rw [en] at e
    exact grows_trans (times_r_grows en) (plus_grows e)

theorem minus_total {h : Heap R} {a b : Nat} (ha : a < h.length) (hb : b < h.length) :
    ∃ h2 p, operator_minus h a b = some (h2, p) := by
  obtain ⟨h1, n, en⟩ := times_r_total (-1 : R) hb
  have g := times_r_grows en
  obtain ⟨h2, p, e2⟩ := plus_total (grows_lt g ha) (grows_last g)
  refine ⟨h2, p, ?_⟩
  unfold operator_minus operator_neg
  rw [en]
  exact e2

theorem minus_l_grows {h h2 : Heap R} {b p : Nat} {l : R}
    (e : operator_minus_l h l b = some (h2, p)) : Grows h h2 p := by
  unfold operator_minus_l at e
  cases en : operator_neg h b with
  | none => rw [en] at e; simp at e
  | some q =>
    obtain ⟨h1, n⟩ := q
    rw [en] at e
    exact grows_trans (times_r_grows en) (plus_r_grows e)

theorem minus_l_total {h : Heap R} {b : Nat} (l : R) (hb : b < h.length) :
    ∃ h2 p, operator_minus_l h l b = some (h2, p) := by
  obtain ⟨h1, n, en⟩ := times_r_total (-1 : R) hb
  have g := times_r_grows en
  obtain ⟨h2, p, e2⟩ := plus_r_total l (grows_last g)
  refine ⟨h2, p, ?_⟩
  unfold operator_minus_l operator_neg
  rw [en]
  exact e2

theorem div_grows (M : CMath R) {h h2 : Heap R} {a b p : Nat}
    (e : operator_div M h a b = some (h2, p)) : Grows h h2 p := by
  unfold operator_div at e
  cases en : pow M h b (-1) with
  | none => rw [en] at e; simp at e
  | some q =>
    obtain ⟨h1, n⟩ := q
    rw [en] at e
    exact grows_trans (pow_grows M en) (times_grows e)

theorem div_total (M : CMath R) {h : Heap R} {a b : Nat} (ha : a < h.length)
    (hb : b < h.length) : ∃ h2 p, operator_div M h a b = some (h2, p) := by
  obtain ⟨h1, n, en⟩ := pow_total M (-1 : R) hb
  have g := pow_grows M en
  obtain ⟨h2, p, e2⟩ := times_total (grows_lt g ha) (grows_last g)
  refine ⟨h2, p, ?_⟩
  unfold operator_div
  rw [en]
  exact e2

theorem div_l_grows (M : CMath R) {h h2 : Heap R} {b p : Nat} {l : R}
    (e : operator_div_l M h l b = some (h2, p)) : Grows h h2 p := by
  unfold operator_div_l at e
  cases en : pow M h b (-1) with
  | none => rw [en] at e; simp at e
  | some q =>
    obtain ⟨h1, n⟩ := q
    rw [en] at e
    exact grows_trans (pow_grows M en) (times_r_grows e)

theorem div_l_total (M : CMath R) {h : Heap R} {b : Nat} (l : R) (hb : b < h.length) :
    ∃ h2 p, operator_div_l M h l b = some (h2, p) := by
  obtain ⟨h1, n, en⟩ := pow_total M (-1 : R) hb
  have g := pow_grows M en
  obtain ⟨h2, p, e2⟩ := times_r_total l (grows_last g)
  refine ⟨h2, p, ?_⟩
  unfold operator_div_l
  rw [en]
  exact e2

end Forward

section FieldRules

variable {F : Type} [Field F]

theorem run_grows (M : CMath F) {h h2 : Heap F} {p : Nat} (op : ForwardOp F)
    (e : op.run M h = some (h2, p)) : Grows h h2 p := by
  cases op with
  | leaf d =>
    simp only [ForwardOp.run, alloc, Option.some.injEq, Prod.mk.injEq] at e
    rw [← e.1, ← e.2]
    exact grows_alloc h rfl
  | plus lhs rhs => exact plus_grows e
  | plus_r lhs r => exact plus_r_grows e
  | plus_l l rhs => exact plus_r_grows e
  | times lhs rhs => exact times_grows e
  | times_r lhs r => exact times_r_grows e
  | times_l l rhs => exact times_r_grows e
  | pow this y => exact pow_grows M e
  | exp this => exact exp_grows M e
  | tanh this => exact tanh_grows M e
  | neg lhs => exact times_r_grows e
  | minus lhs rhs => exact minus_grows e
  | minus_r lhs r => exact plus_r_grows e
  | minus_l l rhs => exact minus_l_grows e
  | div lhs rhs => exact div_grows M e
  | div_r lhs r => exact times_r_grows e
  | div_l l rhs => exact div_l_grows M e

theorem run_total (M : CMath F) (h : Heap F) (op : ForwardOp F)
    (hv : ∀ a ∈ op.pointers, a < h.length) : ∃ h2 p, op.run M h = some (h2, p) := by
  cases op with
  | leaf d =>
    exact ⟨_, _, rfl⟩
  | plus lhs rhs =>
    exact plus_total (hv lhs (by simp [ForwardOp.pointers]))
      (hv rhs (by simp [ForwardOp.pointers]))
  | plus_r lhs r =>
    exact plus_r_total r (hv lhs (by simp [ForwardOp.pointers]))
  | plus_l l rhs =>
    exact plus_r_total l (hv rhs (by simp [ForwardOp.pointers]))
  | times lhs rhs =>
    exact times_total (hv lhs (by simp [ForwardOp.pointers]))
      (hv rhs (by simp [ForwardOp.pointers]))
  | times_r lhs r =>
    exact times_r_total r (hv lhs (by simp [ForwardOp.pointers]))
  | times_l l rhs =>
    exact times_r_total l (hv rhs (by simp [ForwardOp.pointers]))
  | pow this y =>
    exact pow_total M y (hv this (by simp [ForwardOp.pointers]))
  | exp this =>
    exact exp_total M (hv this (by simp [ForwardOp.pointers]))
  | tanh this =>
    exact tanh_total M (hv this (by simp [ForwardOp.pointers]))
  | neg lhs =>
    exact times_r_total (-1) (hv lhs (by simp [ForwardOp.pointers]))
  | minus lhs rhs =>
    exact minus_total (hv lhs (by simp [ForwardOp.pointers]))
      (hv rhs (by simp [ForwardOp.pointers]))
  | minus_r lhs r =>
    exact plus_r_total (-r) (hv lhs (by simp [ForwardOp.pointers]))
  | minus_l l rhs =>
    exact minus_l_total l (hv rhs (by simp [ForwardOp.pointers]))
  | div lhs rhs =>
    exact div_total M (hv lhs (by simp [ForwardOp.pointers]))
      (hv rhs (by simp [ForwardOp.pointers]))
  | div_r lhs r =>
    exact times_r_total (1 / r) (hv lhs (by simp [ForwardOp.pointers]))
  | div_l l rhs =>
    exact div_l_total M l (hv rhs (by simp [ForwardOp.pointers]))

/-- C16. Forward operations do not mutate their operands: every forward operation
(leaf construction, add, multiply, pow, exp, tanh, negate, subtract, divide, in
every node/literal overload), run on any heap, returns the old heap followed by
at least one new node; every node that existed before is found unchanged at its
index, every new node has gradient 0, and the returned pointer is the last new
node. The operation returns whenever its node arguments point into the heap. -/
theorem forward_ops_frame (M : CMath F) (h : Heap F) (op : ForwardOp F) :
    (∀ h2 p, op.run M h = some (h2, p) →
      ∃ news, h2 = h ++ news ∧ news ≠ [] ∧ (∀ n ∈ news, n.grad = 0) ∧
        p + 1 = h2.length ∧
        ∀ (v : Nat) (k : Value F), h[v]? = some k → h2[v]? = some k) ∧
      ((∀ a ∈ op.pointers, a < h.length) → ∃ h2 p, op.run M h = some (h2, p)) := by
  constructor
  · intro h2 p e
    have g := run_grows M op e
    obtain ⟨news, e2, ne, z, l⟩ := g
    exact ⟨news, e2, ne, z, l, fun v k ek => grows_lookup (run_grows M op e) ek⟩
  · exact run_total M h op

/-- C19, counterexample: `a / r` with `a = 2` and the literal `r = 4` returns a
Multiply node whose operands are `a` and a leaf holding `1 / 4`: neither operand is
a Power node. -/
theorem divide_by_literal_counterexample :
    ∃ h2 q, operator_div_r ([Value.leaf 2] : Heap ℚ) 0 4 = some (h2, q) ∧
      opOf h2 q = Op.Op_mul ∧ prevOf h2 q = [0, 1] ∧
      h2[1]? = some (Value.leaf (1 / 4)) ∧
      ∀ c ∈ prevOf h2 q, opOf h2 c ≠ Op.Op_pow :=
  ⟨[Value.leaf 2, Value.leaf (1 / 4), Value.node (2 * (1 / 4)) [0, 1] Op.Op_mul], 2,
    rfl, rfl, rfl, rfl, by decide⟩

/-- C19, amended. Divide as a composition: for every node `a`, node `b` and literal
`r`, `a / b` returns a Multiply node whose operands are `a` and a Power node with
base `b` and exponent leaf `-1`; `r / b` returns a Multiply node whose operands are
that Power node and a leaf holding `r`; `a / r` returns a Multiply node whose
operands are `a` and a leaf holding the quotient `1 / r`, without any Power
node. -/
theorem divide_composition (M : CMath F) (h : Heap F) (a b : Nat) (r : F)
    (na nb : Value F) (ha : h[a]? = some na) (hb : h[b]? = some nb) :
    operator_div M h a b = some (h ++ [Value.leaf (-1),
        Value.node (M.pow nb.data (-1)) [b, h.length] Op.Op_pow,
        Value.node (na.data * M.pow nb.data (-1)) [a, h.length + 1] Op.Op_mul],
        h.length + 2) ∧
      operator_div_l M h r b = some (h ++ [Value.leaf (-1),
        Value.node (M.pow nb.data (-1)) [b, h.length] Op.Op_pow, Value.leaf r,
        Value.node (M.pow nb.data (-1) * r) [h.length + 1, h.length + 2] Op.Op_mul],
        h.length + 3) ∧
      operator_div_r h a r = some (h ++ [Value.leaf (1 / r),
        Value.node (na.data * (1 / r)) [a, h.length] Op.Op_mul], h.length + 1) := by
  have la := getElem?_lt ha
  have lb := getElem?_lt hb
  have e0 : pow M h b (-1) = some (h ++ [Value.leaf (-1),
      Value.node (M.pow nb.data (-1)) [b, h.length] Op.Op_pow], h.length + 1) := by
    simp [pow, hb, alloc]
  have l1 : (h ++ [Value.leaf (-1),
      Value.node (M.pow nb.data (-1)) [b, h.length] Op.Op_pow])[a]? = some na := by
    rw [List.getElem?_append_left la, ha]
  have l2 : (h ++ [Value.leaf (-1),
      Value.node (M.pow nb.data (-1)) [b, h.length] Op.Op_pow])[h.length + 1]? =
      some (Value.node (M.pow nb.data (-1)) [b, h.length] Op.Op_pow) := by
    rw [List.getElem?_append_right (Nat.le_succ _)]
    simp
  have l3 : (h ++ [Value.leaf (-1),
      Value.node (M.pow nb.data (-1)) [b, h.length] Op.Op_pow] ++ [Value.leaf r])[
        h.length + 1]? =
      some (Value.node (M.pow nb.data (-1)) [b, h.length] Op.Op_pow) := by
    rw [List.append_assoc, List.getElem?_append_right (Nat.le_succ _)]
    simp
  have l4 : (h ++ [Value.leaf (-1),
      Value.node (M.pow nb.data (-1)) [b, h.length] Op.Op_pow] ++ [Value.leaf r])[
        h.length + 2]? = some (Value.leaf r) := by
    rw [List.append_assoc, List.getElem?_append_right (by omega)]
    simp
  have l5 : (h ++ [Value.leaf (1 / r)])[a]? = some na := by
    rw [List.getElem?_append_left la, ha]
  have l6 : (h ++ [Value.leaf (1 / r)])[h.length]? = some (Value.leaf (1 / r)) :=
    getElem?_snoc_new h _
  refine ⟨?_, ?_, ?_⟩
  · simp only [operator_div, e0, operator_times, l1, l2, alloc]
    simp [Value.node]
  · simp only [operator_div_l, e0, operator_times_l, operator_times_r, alloc,
      List.length_append, List.length_cons, List.length_nil, operator_times, l3, l4]
    simp [Value.node, Value.leaf]
  · simp only [operator_div_r, operator_times_r, alloc, operator_times, l5, l6]
    simp [Value.leaf]

/-- C19, witness: `a = 6`, `b = 2`, `r = 4` over the reals. -/
theorem divide_composition_witness :
    (([Value.leaf 6, Value.leaf 2] : Heap ℝ)[0]? = some (Value.leaf (6 : ℝ)) ∧
      ([Value.leaf 6, Value.leaf 2] : Heap ℝ)[1]? = some (Value.leaf (2 : ℝ))) ∧
    operator_div_r ([Value.leaf 6, Value.leaf 2] : Heap ℝ) 0 4 =
      some ([Value.leaf 6, Value.leaf 2] ++ [Value.leaf (1 / 4),
        Value.node ((Value.leaf (6 : ℝ)).data * (1 / 4)) [0, 2] Op.Op_mul], 2 + 1) :=
  ⟨⟨rfl, rfl⟩,
    (divide_composition (⟨fun x y => x ^ y, Real.exp, Real.tanh⟩ : CMath ℝ)
      [Value.leaf 6, Value.leaf 2] 0 1 4 (Value.leaf 6) (Value.leaf 2) rfl rfl).2.2⟩

end FieldRules

end Micrograd
